import Mathlib

/-!
Verification of the `json-syntax` crate against its specification.

The development shallowly embeds the crate's data model and algorithms:

* `Value` — the JSON value model (src/src/lib.rs `Value`); strings, keys and
  number buffers are embedded as `List Char` (the crate stores UTF-8 byte
  buffers; on the `char` level the two are in bijection).  Following the
  crate's `PartialEq for Object`, which compares the ordered entry list only,
  object values carry their entry list; the side key-index is embedded
  separately in `Object` below for the object-level claims.
* the printer (src/src/print/mod.rs): `Options`, `Size`, `preComputeSize`,
  `fmtWithSize`, `stringLit`, …
* the parser (src/src/parse.rs and src/src/parse/*.rs): a state-passing
  embedding of the `Parser` methods and of the `Parse` implementations,
  instantiated — as in `Value::parse_str` — with the UTF-8 decoded-character
  stream (each `char` carries its UTF-8 byte length) and the identity
  metadata builder, so all metadata is a byte `Span`.
* the object (src/src/object/mod.rs, src/src/object/index_map.rs): entry
  vector plus key index.  The hashbrown `RawTable` is embedded as a list of
  `Indexes` buckets; lookup by hash-plus-equality is embedded as lookup by
  key equality, which coincides with the code's behaviour since the hash of
  a key is a function of the key.
-/

/-! ### Spans (the `locspan::Span` type used for all metadata) -/

/-- Byte span `[start, stop)` in the source document. -/
structure Span where
  start : Nat
  stop : Nat
deriving DecidableEq, Repr

/-- Smallest span covering both spans (`locspan::Span::union`). -/
def Span.union (a b : Span) : Span :=
  ⟨min a.start b.start, max a.stop b.stop⟩

/-- Extends the end of the span by `n` bytes (`locspan::Span::push`). -/
def Span.push (s : Span) (n : Nat) : Span :=
  ⟨s.start, s.stop + n⟩

/-- Moves the start of the span to its end (`locspan::Span::clear`). -/
def Span.clear (s : Span) : Span :=
  ⟨s.stop, s.stop⟩

/-- Degenerate span at a position (`usize::into::<Span>`). -/
def Span.atPos (p : Nat) : Span :=
  ⟨p, p⟩

/-! ### The value model (src/src/lib.rs) -/

/-- JSON value (`Value` in src/src/lib.rs).  An object value holds its
entries in definition order; per the crate, `PartialEq for Object` compares
exactly this list (the key index is ignored by equality and by printing;
it is embedded separately as `Object` for the object-level claims). -/
inductive Value where
  | null
  | bool (b : Bool)
  | num (s : List Char)
  | str (s : List Char)
  | arr (items : List Value)
  | obj (entries : List (List Char × Value))

/-! ### String literal printing (src/src/print/mod.rs `string_literal`) -/

/-- Hexadecimal digit character (`digit` in src/src/print/mod.rs). -/
def hexDigit (n : Nat) : Char :=
  if n = 0x0 then '0' else if n = 0x1 then '1'
  else if n = 0x2 then '2' else if n = 0x3 then '3'
  else if n = 0x4 then '4' else if n = 0x5 then '5'
  else if n = 0x6 then '6' else if n = 0x7 then '7'
  else if n = 0x8 then '8' else if n = 0x9 then '9'
  else if n = 0xa then 'a' else if n = 0xb then 'b'
  else if n = 0xc then 'c' else if n = 0xd then 'd'
  else if n = 0xe then 'e' else 'f'

/-- How one character is emitted inside a printed string literal
(the per-character body of `string_literal` in src/src/print/mod.rs). -/
def escapeChar (c : Char) : List Char :=
  if c = '\\' then ['\\', '\\']
  else if c = '"' then ['\\', '"']
  else if c = '\u0008' then ['\\', 'b']
  else if c = '\u0009' then ['\\', 't']
  else if c = '\u000a' then ['\\', 'n']
  else if c = '\u000c' then ['\\', 'f']
  else if c = '\u000d' then ['\\', 'r']
  else if c.toNat ≤ 0x1f then
    let cp := c.toNat
    ['\\', 'u', hexDigit ((cp >>> 12) &&& 0xf), hexDigit ((cp >>> 8) &&& 0xf),
      hexDigit ((cp >>> 4) &&& 0xf), hexDigit (cp &&& 0xf)]
  else [c]

/-- Prints a string literal (`string_literal` in src/src/print/mod.rs). -/
def stringLit (s : List Char) : List Char :=
  '"' :: (s.map escapeChar).flatten ++ ['"']

/-- Printed width of one character inside a string literal
(the per-character body of `printed_string_size` in src/src/print/mod.rs). -/
def escapedCharSize (c : Char) : Nat :=
  if c = '\\' ∨ c = '"' ∨ c = '\u0008' ∨ c = '\u0009' ∨ c = '\u000a'
      ∨ c = '\u000c' ∨ c = '\u000d' then 2
  else if c.toNat ≤ 0x1f then 6
  else 1

/-- Byte length of a printed string literal
(`printed_string_size` in src/src/print/mod.rs). -/
def printedStringSize (s : List Char) : Nat :=
  2 + (s.map escapedCharSize).sum

/-! ### Printer options (src/src/print/mod.rs) -/

/-- Indentation unit (`Indent` in src/src/print/mod.rs). -/
inductive Indent where
  | spaces (n : Nat)
  | tabs (n : Nat)
deriving DecidableEq

/-- One indentation step rendered as characters (`Display for Indent`). -/
def Indent.render : Indent → List Char
  | .spaces n => List.replicate n ' '
  | .tabs n => List.replicate n '\t'

/-- `n` indentation steps (`IndentBy`). -/
def Indent.by (i : Indent) (n : Nat) : List Char :=
  (List.replicate n i.render).flatten

/-- `Spaces` display: `n` space characters. -/
def spacesChars (n : Nat) : List Char :=
  List.replicate n ' '

/-- Expansion limit (`Limit` in src/src/print/mod.rs). -/
inductive Limit where
  | always
  | item (n : Nat)
  | width (w : Nat)
  | itemOrWidth (n w : Nat)
deriving DecidableEq

/-- Print options (`Options` in src/src/print/mod.rs). -/
structure Options where
  indent : Indent
  arrayBegin : Nat
  arrayEnd : Nat
  arrayEmpty : Nat
  arrayBeforeComma : Nat
  arrayAfterComma : Nat
  arrayLimit : Option Limit
  objectBegin : Nat
  objectEnd : Nat
  objectEmpty : Nat
  objectBeforeComma : Nat
  objectAfterComma : Nat
  objectBeforeColon : Nat
  objectAfterColon : Nat
  objectLimit : Option Limit
deriving DecidableEq

/-- `Options::pretty()`. -/
def Options.pretty : Options where
  indent := .spaces 2
  arrayBegin := 1
  arrayEnd := 1
  arrayEmpty := 0
  arrayBeforeComma := 0
  arrayAfterComma := 1
  arrayLimit := some (.itemOrWidth 1 16)
  objectBegin := 1
  objectEnd := 1
  objectEmpty := 0
  objectBeforeComma := 0
  objectAfterComma := 1
  objectBeforeColon := 0
  objectAfterColon := 1
  objectLimit := some (.itemOrWidth 1 16)

/-- `Options::compact()`. -/
def Options.compact : Options where
  indent := .spaces 0
  arrayBegin := 0
  arrayEnd := 0
  arrayEmpty := 0
  arrayBeforeComma := 0
  arrayAfterComma := 0
  arrayLimit := none
  objectBegin := 0
  objectEnd := 0
  objectEmpty := 0
  objectBeforeComma := 0
  objectAfterComma := 0
  objectBeforeColon := 0
  objectAfterColon := 0
  objectLimit := none

/-- `Options::inline()`. -/
def Options.inline : Options where
  indent := .spaces 0
  arrayBegin := 1
  arrayEnd := 1
  arrayEmpty := 0
  arrayBeforeComma := 0
  arrayAfterComma := 1
  arrayLimit := none
  objectBegin := 1
  objectEnd := 1
  objectEmpty := 0
  objectBeforeComma := 0
  objectAfterComma := 1
  objectBeforeColon := 0
  objectAfterColon := 1
  objectLimit := none

/-- Pre-computed size of a value (`Size` in src/src/print/mod.rs). -/
inductive Size where
  | expanded
  | width (w : Nat)
deriving DecidableEq

/-- `Size::add`. -/
def Size.add : Size → Size → Size
  | .width a, .width b => .width (a + b)
  | _, _ => .expanded

/-- Limit application at the end of `pre_compute_array_size` /
`pre_compute_object_size` (src/src/print/mod.rs). -/
def applyLimit (lim : Option Limit) (len : Nat) : Size → Size
  | .expanded => .expanded
  | .width w =>
    match lim with
    | none => .width w
    | some .always => .expanded
    | some (.item i) => if len > i then .expanded else .width w
    | some (.width wl) => if w > wl then .expanded else .width w
    | some (.itemOrWidth i wl) => if len > i || w > wl then .expanded else .width w

mutual

/-- `PrecomputeSize for Value::pre_compute_size` (src/src/print/mod.rs).
Returns the size of the value and the extended `sizes` vector. -/
def preComputeSize (opts : Options) : Value → List Size → Size × List Size
  | .null, sizes => (.width 4, sizes)
  | .bool b, sizes => (if b then .width 4 else .width 5, sizes)
  | .num s, sizes => (.width s.length, sizes)
  | .str s, sizes => (.width (printedStringSize s), sizes)
  | .arr items, sizes =>
    let index := sizes.length
    let sizes := sizes ++ [Size.width 0]
    let acc := Size.width (2 + opts.objectBegin + opts.objectEnd)
    let r := preArrayItems opts items sizes acc true
    let size := applyLimit opts.arrayLimit items.length r.1
    (size, r.2.set index size)
  | .obj entries, sizes =>
    let index := sizes.length
    let sizes := sizes ++ [Size.width 0]
    let acc := Size.width (2 + opts.objectBegin + opts.objectEnd)
    let r := preObjectEntries opts entries sizes acc true
    let size := applyLimit opts.objectLimit entries.length r.1
    (size, r.2.set index size)

/-- Item loop of `pre_compute_array_size` (src/src/print/mod.rs). -/
def preArrayItems (opts : Options) :
    List Value → List Size → Size → Bool → Size × List Size
  | [], sizes, acc, _ => (acc, sizes)
  | v :: vs, sizes, acc, first =>
    let acc := if first then acc
      else acc.add (.width (1 + opts.arrayBeforeComma + opts.arrayAfterComma))
    let r := preComputeSize opts v sizes
    preArrayItems opts vs r.2 (acc.add r.1) false

/-- Entry loop of `pre_compute_object_size` (src/src/print/mod.rs). -/
def preObjectEntries (opts : Options) :
    List (List Char × Value) → List Size → Size → Bool → Size × List Size
  | [], sizes, acc, _ => (acc, sizes)
  | e :: es, sizes, acc, first =>
    let acc := if first then acc
      else acc.add (.width (1 + opts.objectBeforeComma + opts.objectAfterComma))
    let acc := acc.add (.width (printedStringSize e.1 + 1
      + opts.objectBeforeColon + opts.objectAfterColon))
    let r := preComputeSize opts e.2 sizes
    preObjectEntries opts es r.2 (acc.add r.1) false

end

mutual

/-- `PrintWithSize for Value::fmt_with_size` (src/src/print/mod.rs).
Output is the emitted characters together with the updated size index. -/
def fmtWithSize (opts : Options) (indent : Nat) :
    Value → List Size → Nat → List Char × Nat
  | .null, _, index => (['n', 'u', 'l', 'l'], index)
  | .bool b, _, index =>
    ((if b then ['t', 'r', 'u', 'e'] else ['f', 'a', 'l', 's', 'e']), index)
  | .num s, _, index => (s, index)
  | .str s, _, index => (stringLit s, index)
  | .arr items, sizes, index =>
    let size := sizes.getD index (.width 0)
    let index := index + 1
    match items with
    | [] =>
      match size with
      | .expanded => ('[' :: '\n' :: opts.indent.by indent ++ [']'], index)
      | .width _ => ('[' :: spacesChars opts.arrayEmpty ++ [']'], index)
    | items@(_ :: _) =>
      match size with
      | .expanded =>
        let r := fmtArrayItemsExpanded opts indent items sizes index true
        ('[' :: '\n' :: r.1 ++ '\n' :: opts.indent.by indent ++ [']'], r.2)
      | .width _ =>
        let r := fmtArrayItemsInlined opts indent items sizes index true
        ('[' :: spacesChars opts.arrayBegin ++ r.1
          ++ spacesChars opts.arrayEnd ++ [']'], r.2)
  | .obj entries, sizes, index =>
    let size := sizes.getD index (.width 0)
    let index := index + 1
    match entries with
    | [] =>
      match size with
      | .expanded => ('{' :: '\n' :: opts.indent.by indent ++ ['}'], index)
      | .width _ => ('{' :: spacesChars opts.objectEmpty ++ ['}'], index)
    | entries@(_ :: _) =>
      match size with
      | .expanded =>
        let r := fmtObjectEntriesExpanded opts indent entries sizes index true
        ('{' :: '\n' :: r.1 ++ '\n' :: opts.indent.by indent ++ ['}'], r.2)
      | .width _ =>
        let r := fmtObjectEntriesInlined opts indent entries sizes index true
        ('{' :: spacesChars opts.objectBegin ++ r.1
          ++ spacesChars opts.objectEnd ++ ['}'], r.2)
termination_by v _ _ => sizeOf v

/-- Expanded item loop of `print_array` (src/src/print/mod.rs). -/
def fmtArrayItemsExpanded (opts : Options) (indent : Nat) :
    List Value → List Size → Nat → Bool → List Char × Nat
  | [], _, index, _ => ([], index)
  | v :: vs, sizes, index, first =>
    let sep := if first then []
      else spacesChars opts.arrayBeforeComma ++ [',', '\n']
    let r := fmtWithSize opts (indent + 1) v sizes index
    let rest := fmtArrayItemsExpanded opts indent vs sizes r.2 false
    (sep ++ opts.indent.by (indent + 1) ++ r.1 ++ rest.1, rest.2)
termination_by l _ _ _ => sizeOf l

/-- Inlined item loop of `print_array` (src/src/print/mod.rs). -/
def fmtArrayItemsInlined (opts : Options) (indent : Nat) :
    List Value → List Size → Nat → Bool → List Char × Nat
  | [], _, index, _ => ([], index)
  | v :: vs, sizes, index, first =>
    let sep := if first then []
      else spacesChars opts.arrayBeforeComma ++ ','
        :: spacesChars opts.arrayAfterComma
    let r := fmtWithSize opts (indent + 1) v sizes index
    let rest := fmtArrayItemsInlined opts indent vs sizes r.2 false
    (sep ++ r.1 ++ rest.1, rest.2)
termination_by l _ _ _ => sizeOf l

/-- Expanded entry loop of `print_object` (src/src/print/mod.rs). -/
def fmtObjectEntriesExpanded (opts : Options) (indent : Nat) :
    List (List Char × Value) → List Size → Nat → Bool → List Char × Nat
  | [], _, index, _ => ([], index)
  | (k, v) :: es, sizes, index, first =>
    let sep := if first then []
      else spacesChars opts.objectBeforeComma ++ [',', '\n']
    let r := fmtWithSize opts (indent + 1) v sizes index
    let rest := fmtObjectEntriesExpanded opts indent es sizes r.2 false
    (sep ++ opts.indent.by (indent + 1) ++ stringLit k
      ++ spacesChars opts.objectBeforeColon ++ ':'
      :: spacesChars opts.objectAfterColon ++ r.1 ++ rest.1, rest.2)
termination_by l _ _ _ => sizeOf l

/-- Inlined entry loop of `print_object` (src/src/print/mod.rs). -/
def fmtObjectEntriesInlined (opts : Options) (indent : Nat) :
    List (List Char × Value) → List Size → Nat → Bool → List Char × Nat
  | [], _, index, _ => ([], index)
  | (k, v) :: es, sizes, index, first =>
    let sep := if first then []
      else spacesChars opts.objectBeforeComma ++ ','
        :: spacesChars opts.objectAfterComma
    let r := fmtWithSize opts (indent + 1) v sizes index
    let rest := fmtObjectEntriesInlined opts indent es sizes r.2 false
    (sep ++ stringLit k ++ spacesChars opts.objectBeforeColon ++ ':'
      :: spacesChars opts.objectAfterColon ++ r.1 ++ rest.1, rest.2)
termination_by l _ _ _ => sizeOf l

end

/-- `Print for Value::fmt_with` (src/src/print/mod.rs): scalars print
directly; containers pre-compute the `sizes` vector, then emit. -/
def fmtWith (opts : Options) (v : Value) (indent : Nat) : List Char :=
  match v with
  | .null => ['n', 'u', 'l', 'l']
  | .bool b => if b then ['t', 'r', 'u', 'e'] else ['f', 'a', 'l', 's', 'e']
  | .num s => s
  | .str s => stringLit s
  | .arr _ => (fmtWithSize opts indent v (preComputeSize opts v []).2 0).1
  | .obj _ => (fmtWithSize opts indent v (preComputeSize opts v []).2 0).1

/-- `value.compact_print()`: `fmt_with` with `Options::compact` at
indentation level 0 (src/src/print/mod.rs `Print::compact_print`). -/
def compactPrint (v : Value) : List Char :=
  fmtWith Options.compact v 0

/-! ### Claim C8 — string literal escaping -/

/-- The sixteen lowercase hexadecimal digit characters. -/
def lowerHexDigits : List Char :=
  "0123456789abcdef".toList

/-- Every output of `hexDigit` is a lowercase hexadecimal digit. -/
theorem hexDigit_mem_lower (n : Nat) : hexDigit n ∈ lowerHexDigits := by
  rcases n with _|_|_|_|_|_|_|_|_|_|_|_|_|_|_|m
  all_goals first
  | decide
  | (unfold hexDigit
     repeat rw [if_neg (by omega)]
     decide)

/-- C8, counterexample: the claim says every character in U+0008..=U+000D is
emitted as one of the short escapes, but U+000B is emitted as the six-character
sequence `\u000b`, which is none of the short escapes. -/
theorem c8_counterexample :
    escapeChar '\u000b' = ['\\', 'u', '0', '0', '0', 'b'] ∧
    escapeChar '\u000b' ∉
      ([['\\', '"'], ['\\', '\\'], ['\\', 'b'], ['\\', 't'], ['\\', 'n'],
        ['\\', 'f'], ['\\', 'r']] : List (List Char)) := by
  constructor
  · decide
  · decide

/-- C8 (amended): in every printed string literal, the characters
double-quote, backslash, U+0008, U+0009, U+000A, U+000C and U+000D are
emitted as the short escapes `\"`, `\\`, `\b`, `\t`, `\n`, `\f`, `\r`;
every other character in U+0000..=U+001F (U+000B included) is emitted as
`\u00XX` with lowercase hexadecimal digits; all other characters are
emitted verbatim. -/
theorem c8_string_escape_table (c : Char) :
    (escapeChar '"' = ['\\', '"']) ∧ (escapeChar '\\' = ['\\', '\\']) ∧
    (escapeChar '\u0008' = ['\\', 'b']) ∧ (escapeChar '\u0009' = ['\\', 't']) ∧
    (escapeChar '\u000a' = ['\\', 'n']) ∧ (escapeChar '\u000c' = ['\\', 'f']) ∧
    (escapeChar '\u000d' = ['\\', 'r']) ∧
    (c.toNat ≤ 0x1f →
      c ∉ (['\u0008', '\u0009', '\u000a', '\u000c', '\u000d'] : List Char) →
      escapeChar c = ['\\', 'u', '0', '0', hexDigit ((c.toNat >>> 4) &&& 0xf),
          hexDigit (c.toNat &&& 0xf)] ∧
        hexDigit ((c.toNat >>> 4) &&& 0xf) ∈ lowerHexDigits ∧
        hexDigit (c.toNat &&& 0xf) ∈ lowerHexDigits) ∧
    (0x1f < c.toNat → c ≠ '"' → c ≠ '\\' → escapeChar c = [c]) := by
  refine ⟨by decide, by decide, by decide, by decide, by decide, by decide,
    by decide, ?_, ?_⟩
  · intro hle hmem
    simp only [List.mem_cons, List.not_mem_nil, or_false] at hmem
    push_neg at hmem
    obtain ⟨h8, h9, ha, hc, hd⟩ := hmem
    have hbs : c ≠ '\\' := by
      intro h; subst h; revert hle; decide
    have hq : c ≠ '"' := by
      intro h; subst h; revert hle; decide
    have h12 : (c.toNat >>> 12) &&& 0xf = 0 := by
      have : c.toNat >>> 12 = 0 := by
        rw [Nat.shiftRight_eq_div_pow]
        omega
      simp [this]
    have h8n : (c.toNat >>> 8) &&& 0xf = 0 := by
      have : c.toNat >>> 8 = 0 := by
        rw [Nat.shiftRight_eq_div_pow]
        omega
      simp [this]
    refine ⟨?_, hexDigit_mem_lower _, hexDigit_mem_lower _⟩
    unfold escapeChar
    rw [if_neg hbs, if_neg hq, if_neg h8, if_neg h9, if_neg ha, if_neg hc,
      if_neg hd, if_pos hle]
    simp only [h12, h8n]
    rfl
  · intro hgt hq hbs
    have h8 : c ≠ '\u0008' := by intro h; subst h; revert hgt; decide
    have h9 : c ≠ '\u0009' := by intro h; subst h; revert hgt; decide
    have ha : c ≠ '\u000a' := by intro h; subst h; revert hgt; decide
    have hc : c ≠ '\u000c' := by intro h; subst h; revert hgt; decide
    have hd : c ≠ '\u000d' := by intro h; subst h; revert hgt; decide
    unfold escapeChar
    rw [if_neg hbs, if_neg hq, if_neg h8, if_neg h9, if_neg ha, if_neg hc,
      if_neg hd, if_neg (by omega)]

/-- C8 witness: the amended escape table applied at the concrete character
U+000B, discharging both hypotheses of its `\u00XX` branch. -/
theorem c8_string_escape_table_witness :
    escapeChar '\u000b' = ['\\', 'u', '0', '0',
      hexDigit (('\u000b'.toNat >>> 4) &&& 0xf),
      hexDigit ('\u000b'.toNat &&& 0xf)] :=
  ((c8_string_escape_table '\u000b').2.2.2.2.2.2.2.1 (by decide) (by decide)).1

/-! ### The object key index (src/src/object/index_map.rs)

The hashbrown `RawTable` of `Indexes` buckets is embedded as a `List Indexes`;
`get`/`find` by hash plus key equality becomes `List.find?` by key equality
(the hash of a key is a function of the key, so the two coincide), and the
unspecified bucket placement of the hash table becomes appending new buckets
at the end of the list. -/

/-- Object entry (`Entry` in src/src/object/mod.rs): key and value. -/
abbrev ObjEntry : Type := List Char × Value

/-- Key of the entry at position `i` (`entries[i].key`; in the code this
index is always in bounds). -/
def keyAt (entries : List ObjEntry) (i : Nat) : List Char :=
  match entries[i]? with
  | some e => e.1
  | none => []

/-- Entry at position `i` (`entries[i]`; in the code this index is always in
bounds). -/
def entryAt (entries : List ObjEntry) (i : Nat) : ObjEntry :=
  (entries[i]?).getD ([], .null)

/-- `Indexes` (src/src/object/index_map.rs): the positions of the entries
sharing one key — the representative plus the other positions, sorted. -/
structure Indexes where
  rep : Nat
  other : List Nat
deriving DecidableEq, Repr

/-- `Indexes::len`. -/
def Indexes.len (b : Indexes) : Nat := 1 + b.other.length

/-- `Indexes::first`. -/
def Indexes.first (b : Indexes) : Nat := b.rep

/-- `Indexes::is_redundant`. -/
def Indexes.isRedundant (b : Indexes) : Bool := !b.other.isEmpty

/-- `Indexes::redundant`. -/
def Indexes.redundant (b : Indexes) : Option Nat := b.other.head?

/-- `Indexes::iter`: the representative, then the other indexes. -/
def Indexes.toList (b : Indexes) : List Nat := b.rep :: b.other

/-- Ordered insertion without duplication: the effect of
`binary_search` + `Vec::insert` on the sorted `other` vector
(`Indexes::insert`, src/src/object/index_map.rs). -/
def insertSorted (x : Nat) : List Nat → List Nat
  | [] => [x]
  | y :: ys => if x < y then x :: y :: ys
    else if x = y then y :: ys
    else y :: insertSorted x ys

/-- `Indexes::insert` (src/src/object/index_map.rs). -/
def Indexes.insert (b : Indexes) (index : Nat) : Indexes :=
  if index = b.rep then b
  else if index < b.rep then ⟨index, insertSorted b.rep b.other⟩
  else ⟨b.rep, insertSorted index b.other⟩

/-- `Indexes::remove` (src/src/object/index_map.rs): removes `index` unless
it is the last remaining index; the boolean is `false` exactly when it was
the last index (the caller then drops the bucket). -/
def Indexes.remove (b : Indexes) (index : Nat) : Indexes × Bool :=
  if b.rep = index then
    match b.other with
    | [] => (b, false)
    | j :: rest => (⟨j, rest⟩, true)
  else
    (⟨b.rep, b.other.erase index⟩, true)

/-- `Indexes::shift_down` (src/src/object/index_map.rs). -/
def Indexes.shiftDown (b : Indexes) (index : Nat) : Indexes :=
  ⟨if b.rep > index then b.rep - 1 else b.rep,
    b.other.map fun j => if j > index then j - 1 else j⟩

/-- `Indexes::shift_up` (src/src/object/index_map.rs). -/
def Indexes.shiftUp (b : Indexes) (index : Nat) : Indexes :=
  ⟨if b.rep ≥ index then b.rep + 1 else b.rep,
    b.other.map fun j => if j ≥ index then j + 1 else j⟩

/-- `IndexMap::get` (src/src/object/index_map.rs): the bucket whose
representative entry has the looked-up key. -/
def imGet (entries : List ObjEntry) (m : List Indexes) (key : List Char) :
    Option Indexes :=
  m.find? fun b => keyAt entries b.rep == key

/-- `IndexMap::insert` (src/src/object/index_map.rs): adds `index` to the
bucket of its key, or opens a new bucket.  Returns the new table and
whether the key was new. -/
def imInsert (entries : List ObjEntry) (index : Nat) :
    List Indexes → List Indexes × Bool
  | [] => ([⟨index, []⟩], true)
  | b :: bs =>
    if keyAt entries b.rep == keyAt entries index then
      (b.insert index :: bs, false)
    else
      let r := imInsert entries index bs
      (b :: r.1, r.2)

/-- `IndexMap::remove` (src/src/object/index_map.rs): removes `index` from
the bucket of its key, dropping the bucket if it was the last index. -/
def imRemove (entries : List ObjEntry) (index : Nat) :
    List Indexes → List Indexes
  | [] => []
  | b :: bs =>
    if keyAt entries b.rep == keyAt entries index then
      let r := b.remove index
      if r.2 then r.1 :: bs else bs
    else b :: imRemove entries index bs

/-- `IndexMap::shift_down` (src/src/object/index_map.rs). -/
def imShiftDown (index : Nat) (m : List Indexes) : List Indexes :=
  m.map (Indexes.shiftDown · index)

/-- `IndexMap::shift_up` (src/src/object/index_map.rs). -/
def imShiftUp (index : Nat) (m : List Indexes) : List Indexes :=
  m.map (Indexes.shiftUp · index)

/-- `IndexMap::contains_duplicate_keys` (src/src/object/index_map.rs). -/
def imContainsDuplicateKeys (m : List Indexes) : Bool :=
  m.any Indexes.isRedundant

/-! ### The object (src/src/object/mod.rs) -/

/-- `Object` (src/src/object/mod.rs): the ordered entry vector and the key
index. -/
structure Object where
  entries : List ObjEntry
  indexes : List Indexes

/-- `IndexMap` built over `entries` by inserting every position in order
(the loop of `Object::from_vec` and of `Object::sort`). -/
def buildIndexes (entries : List ObjEntry) : List Indexes :=
  (List.range entries.length).foldl (fun m i => (imInsert entries i m).1) []

/-- `Object::from_vec` (src/src/object/mod.rs). -/
def Object.fromVec (entries : List ObjEntry) : Object :=
  ⟨entries, buildIndexes entries⟩

/-- `Object::len`. -/
def Object.len (o : Object) : Nat := o.entries.length

/-- `Object::indexes_of` (src/src/object/mod.rs), materialised as the list
of positions the `Indexes` iterator yields. -/
def Object.indexesOf (o : Object) (key : List Char) : List Nat :=
  match imGet o.entries o.indexes key with
  | some b => b.toList
  | none => []

/-- `Object::get_entries` (src/src/object/mod.rs), materialised as the list
of entries the `Entries` iterator yields. -/
def Object.getEntries (o : Object) (key : List Char) : List ObjEntry :=
  (o.indexesOf key).map (entryAt o.entries)

/-- `Object::get` (src/src/object/mod.rs), materialised as the list of
values the `Values` iterator yields. -/
def Object.getValues (o : Object) (key : List Char) : List Value :=
  (o.indexesOf key).map fun i => (entryAt o.entries i).2

/-- `Object::index_of` (src/src/object/mod.rs). -/
def Object.indexOf (o : Object) (key : List Char) : Option Nat :=
  (imGet o.entries o.indexes key).map Indexes.first

/-- `Object::redundant_index_of` (src/src/object/mod.rs). -/
def Object.redundantIndexOf (o : Object) (key : List Char) : Option Nat :=
  (imGet o.entries o.indexes key).bind Indexes.redundant

/-- `Object::get_unique` (src/src/object/mod.rs): `Ok(None)` on no match,
`Ok(Some(value))` on a unique match, `Err(Duplicate(e1, e2))` with the first
two matching entries otherwise. -/
def Object.getUnique (o : Object) (key : List Char) :
    Except (ObjEntry × ObjEntry) (Option Value) :=
  match o.getEntries key with
  | [] => .ok none
  | [e] => .ok (some e.2)
  | e1 :: e2 :: _ => .error (e1, e2)

/-- `Object::get_unique_entry` (src/src/object/mod.rs). -/
def Object.getUniqueEntry (o : Object) (key : List Char) :
    Except (ObjEntry × ObjEntry) (Option ObjEntry) :=
  match o.getEntries key with
  | [] => .ok none
  | [e] => .ok (some e)
  | e1 :: e2 :: _ => .error (e1, e2)

/-- `Object::push_entry` (src/src/object/mod.rs). -/
def Object.pushEntry (o : Object) (e : ObjEntry) : Object × Bool :=
  let entries := o.entries ++ [e]
  let r := imInsert entries o.entries.length o.indexes
  (⟨entries, r.1⟩, r.2)

/-- `Object::push` (src/src/object/mod.rs). -/
def Object.push (o : Object) (k : List Char) (v : Value) : Object × Bool :=
  o.pushEntry (k, v)

/-- `Object::push_entry_front` (src/src/object/mod.rs). -/
def Object.pushEntryFront (o : Object) (e : ObjEntry) : Object × Bool :=
  let entries := e :: o.entries
  let r := imInsert entries 0 (imShiftUp 0 o.indexes)
  (⟨entries, r.1⟩, r.2)

/-- `Object::push_front` (src/src/object/mod.rs). -/
def Object.pushFront (o : Object) (k : List Char) (v : Value) :
    Object × Bool :=
  o.pushEntryFront (k, v)

/-- `Object::remove_at` (src/src/object/mod.rs). -/
def Object.removeAt (o : Object) (index : Nat) : Option ObjEntry × Object :=
  if index < o.entries.length then
    let m := imRemove o.entries index o.indexes
    let m := imShiftDown index m
    (some (entryAt o.entries index), ⟨o.entries.eraseIdx index, m⟩)
  else
    (none, o)

/-- Full drain of the `RemovedByInsertion` / `RemovedByInsertFront`
iterator (src/src/object/mod.rs): on each step, look up the key of the
entry at `index`, locate the next redundant position of that key and
remove it.  The fuel is an upper bound on the number of steps; the
iterator's `Drop` implementation drains it to completion. -/
def drainAfterInsert (index : Nat) : Object → Nat → List ObjEntry × Object
  | o, 0 => ([], o)
  | o, fuel + 1 =>
    match o.redundantIndexOf (keyAt o.entries index) with
    | some idx =>
      match o.removeAt idx with
      | (some e, o') =>
        let rest := drainAfterInsert index o' fuel
        (e :: rest.1, rest.2)
      | (none, o') => ([], o')
    | none => ([], o)

/-- `Object::insert` (src/src/object/mod.rs) followed by the full drain of
the returned `RemovedByInsertion` iterator: if the key is present, the
representative entry is overwritten in place and all duplicates are drained;
otherwise the pair is pushed.  Returns the drained entries (the overwritten
representative first) and the resulting object. -/
def Object.insertDrained (o : Object) (k : List Char) (v : Value) :
    List ObjEntry × Object :=
  match o.indexOf k with
  | some index =>
    let old := entryAt o.entries index
    let o' : Object := ⟨o.entries.set index (k, v), o.indexes⟩
    let rest := drainAfterInsert index o' o'.entries.length
    (old :: rest.1, rest.2)
  | none => ([], (o.push k v).1)

/-- `Object::insert_front` (src/src/object/mod.rs) followed by the full
drain of the returned `RemovedByInsertFront` iterator: if the first entry
has the same key it is replaced in place, otherwise the pair is pushed to
the front; duplicates are then drained. -/
def Object.insertFrontDrained (o : Object) (k : List Char) (v : Value) :
    List ObjEntry × Object :=
  match o.entries with
  | first :: rest =>
    if first.1 == k then
      let o' : Object := ⟨(k, v) :: rest, o.indexes⟩
      let d := drainAfterInsert 0 o' o'.entries.length
      (first :: d.1, d.2)
    else
      let o' := (o.pushFront k v).1
      let d := drainAfterInsert 0 o' o'.entries.length
      (d.1, d.2)
  | [] =>
    let o' := (o.pushFront k v).1
    let d := drainAfterInsert 0 o' o'.entries.length
    (d.1, d.2)

/-- Full drain of the `RemovedEntries` iterator returned by
`Object::remove` (src/src/object/mod.rs): on each step, remove the entry
at the first index of the key. -/
def drainRemove (k : List Char) : Object → Nat → List ObjEntry × Object
  | o, 0 => ([], o)
  | o, fuel + 1 =>
    match o.indexOf k with
    | some idx =>
      match o.removeAt idx with
      | (some e, o') =>
        let rest := drainRemove k o' fuel
        (e :: rest.1, rest.2)
      | (none, o') => ([], o')
    | none => ([], o)

/-- `Object::remove` (src/src/object/mod.rs) with its iterator drained to
completion. -/
def Object.removeDrained (o : Object) (k : List Char) :
    List ObjEntry × Object :=
  drainRemove k o o.entries.length

/-- `Object::remove_unique` (src/src/object/mod.rs): takes at most two
entries from the `remove` iterator; dropping the iterator then drains any
remaining duplicates, so the object always loses every entry of the key. -/
def Object.removeUnique (o : Object) (k : List Char) :
    Except (ObjEntry × ObjEntry) (Option ObjEntry) × Object :=
  let d := o.removeDrained k
  match d.1 with
  | [] => (.ok none, d.2)
  | [e] => (.ok (some e), d.2)
  | e1 :: e2 :: _ => (.error (e1, e2), d.2)

/-! ### Entry comparison (`a.stripped().cmp(b.stripped())` in
`Object::sort`): the derived lexicographic `Ord` on entries — key bytes
first, then the derived `Ord` on values (variant order `Null < Boolean <
Number < String < Array < Object`, then contents). -/

/-- Lexicographic comparison of character lists (byte order of the UTF-8
buffers underlying keys, strings and number buffers). -/
def charListCmp : List Char → List Char → Ordering
  | [], [] => .eq
  | [], _ :: _ => .lt
  | _ :: _, [] => .gt
  | a :: as', b :: bs' =>
    match compare a.toNat b.toNat with
    | .eq => charListCmp as' bs'
    | o => o

/-- Variant rank of a value in the derived `Ord` (declaration order of
`Value`'s variants in src/src/lib.rs). -/
def valueRank : Value → Nat
  | .null => 0
  | .bool _ => 1
  | .num _ => 2
  | .str _ => 3
  | .arr _ => 4
  | .obj _ => 5

mutual

/-- Derived `Ord` on `Value` (src/src/lib.rs): variant order, then
contents. -/
def valueCmp : Value → Value → Ordering
  | .null, .null => .eq
  | .bool a, .bool b => compare a b
  | .num a, .num b => charListCmp a b
  | .str a, .str b => charListCmp a b
  | .arr a, .arr b => valueListCmp a b
  | .obj a, .obj b => entryListCmp a b
  | a, b => compare (valueRank a) (valueRank b)
termination_by a _ => sizeOf a
decreasing_by all_goals (simp_wf; try omega)

/-- Derived lexicographic `Ord` on `Vec<Value>`. -/
def valueListCmp : List Value → List Value → Ordering
  | [], [] => .eq
  | [], _ :: _ => .lt
  | _ :: _, [] => .gt
  | a :: as', b :: bs' =>
    match valueCmp a b with
    | .eq => valueListCmp as' bs'
    | o => o
termination_by l _ => sizeOf l
decreasing_by all_goals (simp_wf; try omega)

/-- Derived lexicographic `Ord` on the entry vector (entries compare by
key, then value). -/
def entryListCmp : List ObjEntry → List ObjEntry → Ordering
  | [], [] => .eq
  | [], _ :: _ => .lt
  | _ :: _, [] => .gt
  | (k, v) :: as', (k', v') :: bs' =>
    match charListCmp k k' with
    | .eq =>
      match valueCmp v v' with
      | .eq => entryListCmp as' bs'
      | o => o
    | o => o
termination_by l _ => sizeOf l
decreasing_by all_goals (simp_wf; try omega)

end

/-- Entry comparison used by `Object::sort` (src/src/object/mod.rs):
key first, then value. -/
def entryCmp (a b : ObjEntry) : Ordering :=
  match charListCmp a.1 b.1 with
  | .eq => valueCmp a.2 b.2
  | o => o

/-- `Object::sort` (src/src/object/mod.rs): stable sort of the entries by
the entry comparison, then rebuild the index from scratch. -/
def Object.sortOp (o : Object) : Object :=
  let entries := o.entries.mergeSort fun a b => entryCmp a b ≠ .gt
  ⟨entries, buildIndexes entries⟩

/-! ### Unordered equality

`UnorderedPartialEq for Object` is src/src/object/mod.rs.  The
`UnorderedPartialEq` implementation for the entry values is not under src/
(only its `Vec` and `Meta` instances are, in src/src/unordered.rs); it is
modelled from the spec below. -/

/-- Whether an entry list contains two entries sharing a key. -/
def hasDupKeysB : List ObjEntry → Bool
  | [] => false
  | e :: es => es.any (fun e' => e'.1 == e.1) || hasDupKeysB es

mutual

/-- Modelled from the spec: the `UnorderedPartialEq` implementation for
`Value`, absent from src/ (spec §4.6): same kind and byte-equal contents
for scalars; pointwise unordered equality for arrays; for objects, equal
length, every entry of A matched in B, and — when A has duplicate keys —
every entry of B matched in A. -/
def valueUEq : Value → Value → Bool
  | .null, .null => true
  | .bool a, .bool b => a == b
  | .num a, .num b => a == b
  | .str a, .str b => a == b
  | .arr a, .arr b => valueListUEq a b
  | .obj a, .obj b =>
    a.length == b.length && ueqForward a b
      && (!hasDupKeysB a || ueqBackward a b)
  | _, _ => false
termination_by a _ => (sizeOf a, 0)

/-- Pointwise unordered equality of equally long value lists
(`UnorderedPartialEq for Vec<T>`, src/src/unordered.rs). -/
def valueListUEq : List Value → List Value → Bool
  | [], [] => true
  | x :: xs, y :: ys => valueUEq x y && valueListUEq xs ys
  | _, _ => false
termination_by l _ => (sizeOf l, 0)

/-- Every entry of `a` has an unordered-equal match in `b`. -/
def ueqForward : List ObjEntry → List ObjEntry → Bool
  | [], _ => true
  | (k, v) :: rest, b => ueqMatch v k b && ueqForward rest b
termination_by a _ => (sizeOf a, 0)

/-- Some entry of `l` has key `key` and value unordered-equal to `v`
(`v` on the left). -/
def ueqMatch (v : Value) (key : List Char) : List ObjEntry → Bool
  | [] => false
  | (k', v') :: rest => (k' == key && valueUEq v v') || ueqMatch v key rest
termination_by l => (sizeOf v, sizeOf l)

/-- Every entry of the second list has an unordered-equal match in `a`
(the matching `a`-side value on the left). -/
def ueqBackward (a : List ObjEntry) : List ObjEntry → Bool
  | [] => true
  | (k', v') :: rest => ueqMatchRev k' v' a && ueqBackward a rest
termination_by bs => (sizeOf a, sizeOf bs)

/-- Some entry of `l` has key `key` and value unordered-equal (on the
left) to `bv`. -/
def ueqMatchRev (key : List Char) (bv : Value) : List ObjEntry → Bool
  | [] => false
  | (k, v) :: rest => (k == key && valueUEq v bv) || ueqMatchRev key bv rest
termination_by l => (sizeOf l, 0)

end

/-- `Object::contains_duplicate_keys` via the index
(src/src/object/index_map.rs). -/
def Object.containsDuplicateKeys (o : Object) : Bool :=
  imContainsDuplicateKeys o.indexes

/-- `UnorderedPartialEq for Object::unordered_eq` (src/src/object/mod.rs):
equal length; every entry of `a` matched through `b`'s index; when `a`'s
index records duplicate keys, also every entry of `b` matched through
`a`'s index. -/
def Object.unorderedEq (a b : Object) : Bool :=
  if a.entries.length != b.entries.length then false
  else if !(a.entries.all fun e =>
      (b.getEntries e.1).any fun e' => valueUEq e.2 e'.2) then false
  else if imContainsDuplicateKeys a.indexes
      && !(b.entries.all fun e' =>
        (a.getEntries e'.1).any fun e => valueUEq e.2 e'.2) then false
  else true

/-! ### Key-index invariants (claims C5, C9, C10)

`IdxInv entries m s` states the spec's invariants I1–I4 (plus the key
consistency gluing them) for an index `m` indexing exactly the entry
positions in `s`; invariant I5 is derived (`IdxInv.card_eq`).  The object
invariant `ObjWf` is the instance `s = Finset.range entries.length`. -/

/-- Position `j` is stored somewhere in the key index. -/
def storedIn (m : List Indexes) (j : Nat) : Prop :=
  ∃ b ∈ m, j ∈ b.toList

/-- Invariants of a key index `m` over `entries`, indexing the positions
of `s`: coverage (I1), membership soundness, bounds, representative
minimality (I3), sortedness of the redundant lists (I4), key consistency
of each bucket, and distinctness of bucket keys.  Buckets are non-empty by
construction (I2). -/
structure IdxInv (entries : List ObjEntry) (m : List Indexes)
    (s : Finset Nat) : Prop where
  cover : ∀ i ∈ s, ∃ b ∈ m, i ∈ b.toList
  memS : ∀ b ∈ m, ∀ j ∈ b.toList, j ∈ s
  bound : ∀ b ∈ m, ∀ j ∈ b.toList, j < entries.length
  repMin : ∀ b ∈ m, ∀ j ∈ b.other, b.rep < j
  sorted : ∀ b ∈ m, b.other.Pairwise (· < ·)
  keyed : ∀ b ∈ m, ∀ j ∈ b.toList, keyAt entries j = keyAt entries b.rep
  distinct : m.Pairwise fun b b' =>
    keyAt entries b.rep ≠ keyAt entries b'.rep

/-- The object invariant: the index is a valid index of every entry
position. -/
def ObjWf (o : Object) : Prop :=
  IdxInv o.entries o.indexes (Finset.range o.entries.length)

/-- Membership after ordered insertion. -/
theorem insertSorted_mem (x : Nat) (l : List Nat) (j : Nat) :
    j ∈ insertSorted x l ↔ j = x ∨ j ∈ l := by
  induction l with
  | nil => simp [insertSorted]
  | cons y ys ih =>
    unfold insertSorted
    split
    · simp only [List.mem_cons]
    · split
      · next h1 h2 =>
        subst h2
        simp only [List.mem_cons]
        tauto
      · simp only [List.mem_cons, ih]
        tauto

/-- Ordered insertion preserves strict sortedness. -/
theorem insertSorted_pairwise (x : Nat) (l : List Nat)
    (hl : l.Pairwise (· < ·)) : (insertSorted x l).Pairwise (· < ·) := by
  induction l with
  | nil => simp [insertSorted]
  | cons y ys ih =>
    rw [List.pairwise_cons] at hl
    unfold insertSorted
    split
    · refine List.Pairwise.cons ?_ (List.Pairwise.cons hl.1 hl.2)
      intro j hj
      rcases List.mem_cons.mp hj with rfl | hj
      · assumption
      · exact lt_trans ‹x < y› (hl.1 j hj)
    · split
      · exact List.Pairwise.cons hl.1 hl.2
      · refine List.Pairwise.cons ?_ (ih hl.2)
        intro j hj
        rcases (insertSorted_mem x ys j).mp hj with rfl | hj
        · omega
        · exact hl.1 j hj

/-- Length after ordered insertion of a new element. -/
theorem insertSorted_length (x : Nat) (l : List Nat) (hx : x ∉ l) :
    (insertSorted x l).length = l.length + 1 := by
  induction l with
  | nil => simp [insertSorted]
  | cons y ys ih =>
    simp only [List.mem_cons] at hx
    push_neg at hx
    unfold insertSorted
    split
    · simp
    · split
      · omega
      · simp only [List.length_cons, ih hx.2]

/-- Bucket member lists are strictly sorted. -/
theorem IdxInv.toList_pairwise {entries m s} (h : IdxInv entries m s)
    {b : Indexes} (hb : b ∈ m) : b.toList.Pairwise (· < ·) :=
  List.Pairwise.cons (h.repMin b hb) (h.sorted b hb)

/-- Bucket member lists have no duplicates. -/
theorem IdxInv.toList_nodup {entries m s} (h : IdxInv entries m s)
    {b : Indexes} (hb : b ∈ m) : b.toList.Nodup :=
  (h.toList_pairwise hb).imp Nat.ne_of_lt

/-- Two buckets with the same representative key are the same bucket. -/
theorem IdxInv.bucket_unique_key {entries m s} (h : IdxInv entries m s)
    {b b' : Indexes} (hb : b ∈ m) (hb' : b' ∈ m)
    (hk : keyAt entries b.rep = keyAt entries b'.rep) : b = b' := by
  by_contra hne
  exact (List.Pairwise.forall (fun x y hxy => (Ne.symm hxy)) h.distinct
    hb hb' hne) hk

/-- A position lies in exactly one bucket. -/
theorem IdxInv.bucket_unique_mem {entries m s} (h : IdxInv entries m s)
    {b b' : Indexes} (hb : b ∈ m) (hb' : b' ∈ m) {j : Nat}
    (hj : j ∈ b.toList) (hj' : j ∈ b'.toList) : b = b' := by
  apply h.bucket_unique_key hb hb'
  rw [← h.keyed b hb j hj, ← h.keyed b' hb' j hj']

/-- Characterisation of bucket membership: `j` is in the bucket `b` iff
`j` is an indexed position whose key is `b`'s key. -/
theorem IdxInv.mem_toList_iff {entries m s} (h : IdxInv entries m s)
    {b : Indexes} (hb : b ∈ m) {j : Nat} :
    j ∈ b.toList ↔ j ∈ s ∧ keyAt entries j = keyAt entries b.rep := by
  constructor
  · intro hj
    exact ⟨h.memS b hb j hj, h.keyed b hb j hj⟩
  · rintro ⟨hjs, hjk⟩
    obtain ⟨b', hb', hjb'⟩ := h.cover j hjs
    have : b' = b := by
      apply h.bucket_unique_key hb' hb
      rw [← h.keyed b' hb' j hjb', hjk]
    exact this ▸ hjb'

/-- `imGet` success gives a bucket of the table with the looked-up key. -/
theorem imGet_some_spec {entries m key b}
    (h : imGet entries m key = some b) :
    b ∈ m ∧ keyAt entries b.rep = key := by
  refine ⟨List.mem_of_find?_eq_some h, ?_⟩
  have := List.find?_some h
  simpa using this

/-- `imGet` fails exactly when no bucket has the looked-up key. -/
theorem imGet_none_iff {entries m key} :
    imGet entries m key = none ↔
      ∀ b ∈ m, keyAt entries b.rep ≠ key := by
  unfold imGet
  rw [List.find?_eq_none]
  constructor
  · intro h b hb
    have := h b hb
    simpa using this
  · intro h b hb
    simpa using h b hb

/-- Under the invariant, `imGet` finds the (unique) bucket with the
looked-up key. -/
theorem IdxInv.imGet_eq_some {entries m s} (h : IdxInv entries m s)
    {b : Indexes} (hb : b ∈ m) :
    imGet entries m (keyAt entries b.rep) = some b := by
  rcases heq : imGet entries m (keyAt entries b.rep) with _ | b'
  · exact absurd rfl (imGet_none_iff.mp heq b hb)
  · obtain ⟨hb', hk'⟩ := imGet_some_spec heq
    rw [h.bucket_unique_key hb' hb hk']

/-- The per-bucket part of the key-index invariants (everything except
coverage): bounds, representative minimality, sortedness, key consistency
and bucket-key distinctness. -/
structure IdxCore (entries : List ObjEntry) (m : List Indexes) : Prop where
  bound : ∀ b ∈ m, ∀ j ∈ b.toList, j < entries.length
  repMin : ∀ b ∈ m, ∀ j ∈ b.other, b.rep < j
  sorted : ∀ b ∈ m, b.other.Pairwise (· < ·)
  keyed : ∀ b ∈ m, ∀ j ∈ b.toList, keyAt entries j = keyAt entries b.rep
  distinct : m.Pairwise fun b b' =>
    keyAt entries b.rep ≠ keyAt entries b'.rep

/-- The per-bucket invariants of `IdxInv`. -/
theorem IdxInv.toCore {entries m s} (h : IdxInv entries m s) :
    IdxCore entries m :=
  ⟨h.bound, h.repMin, h.sorted, h.keyed, h.distinct⟩

/-- Rebuilding the full invariant from its parts. -/
theorem IdxInv.ofParts {entries m s} (hc : IdxCore entries m)
    (hcov : ∀ i ∈ s, ∃ b ∈ m, i ∈ b.toList)
    (hmem : ∀ b ∈ m, ∀ j ∈ b.toList, j ∈ s) : IdxInv entries m s :=
  ⟨hcov, hmem, hc.bound, hc.repMin, hc.sorted, hc.keyed, hc.distinct⟩

/-- The per-bucket invariants restrict to the tail of the table. -/
theorem IdxCore.tail {entries b bs} (h : IdxCore entries (b :: bs)) :
    IdxCore entries bs :=
  ⟨fun b' hb' => h.bound b' (List.mem_cons_of_mem b hb'),
   fun b' hb' => h.repMin b' (List.mem_cons_of_mem b hb'),
   fun b' hb' => h.sorted b' (List.mem_cons_of_mem b hb'),
   fun b' hb' => h.keyed b' (List.mem_cons_of_mem b hb'),
   h.distinct.of_cons⟩

/-- Members of `Indexes::insert`: the inserted position plus the old
members. -/
theorem Indexes.insert_toList (b : Indexes) (k j : Nat) :
    j ∈ (b.insert k).toList ↔ j = k ∨ j ∈ b.toList := by
  unfold Indexes.insert Indexes.toList
  split
  · next h =>
    subst h
    simp only [List.mem_cons]
    tauto
  · split
    · simp only [List.mem_cons, insertSorted_mem]
    · simp only [List.mem_cons, insertSorted_mem]
      tauto

/-- `Indexes::insert` keeps the representative's key whenever the inserted
position carries the bucket's key. -/
theorem Indexes.insert_rep_key {entries : List ObjEntry} {b : Indexes}
    {k : Nat} (hk : keyAt entries b.rep = keyAt entries k) :
    keyAt entries (b.insert k).rep = keyAt entries b.rep := by
  unfold Indexes.insert
  split
  · rfl
  · split
    · exact hk.symm
    · rfl

/-- Positions stored after `IndexMap::insert`: the inserted one plus the
previously stored ones. -/
theorem imInsert_storedIn (entries : List ObjEntry) (k : Nat)
    (m : List Indexes) (j : Nat) :
    storedIn (imInsert entries k m).1 j ↔ j = k ∨ storedIn m j := by
  induction m with
  | nil =>
    simp [imInsert, storedIn, Indexes.toList]
  | cons b bs ih =>
    unfold imInsert
    split
    · simp only [storedIn, List.mem_cons]
      constructor
      · rintro ⟨b', rfl | hb', hj⟩
        · rcases (Indexes.insert_toList b k j).mp hj with rfl | hj
          · exact Or.inl rfl
          · exact Or.inr ⟨b, Or.inl rfl, hj⟩
        · exact Or.inr ⟨b', Or.inr hb', hj⟩
      · rintro (rfl | ⟨b', rfl | hb', hj⟩)
        · exact ⟨b.insert j, Or.inl rfl, (Indexes.insert_toList b j j).mpr (Or.inl rfl)⟩
        · exact ⟨b'.insert k, Or.inl rfl, (Indexes.insert_toList b' k j).mpr (Or.inr hj)⟩
        · exact ⟨b', Or.inr hb', hj⟩
    · simp only [storedIn, List.mem_cons] at ih ⊢
      constructor
      · rintro ⟨b', rfl | hb', hj⟩
        · exact Or.inr ⟨b', Or.inl rfl, hj⟩
        · rcases ih.mp ⟨b', hb', hj⟩ with rfl | ⟨b'', hb'', hj''⟩
          · exact Or.inl rfl
          · exact Or.inr ⟨b'', Or.inr hb'', hj''⟩
      · rintro (rfl | ⟨b', rfl | hb', hj⟩)
        · obtain ⟨b'', hb'', hj''⟩ := ih.mpr (Or.inl rfl)
          exact ⟨b'', Or.inr hb'', hj''⟩
        · exact ⟨b', Or.inl rfl, hj⟩
        · obtain ⟨b'', hb'', hj''⟩ := ih.mpr (Or.inr ⟨b', hb', hj⟩)
          exact ⟨b'', Or.inr hb'', hj''⟩

/-- `Indexes::insert` keeps the representative minimal. -/
theorem Indexes.insert_repMin {b : Indexes} {k : Nat}
    (hmin : ∀ j ∈ b.other, b.rep < j) :
    ∀ j ∈ (b.insert k).other, (b.insert k).rep < j := by
  unfold Indexes.insert
  split
  · exact hmin
  · split
    · intro j hj
      rcases (insertSorted_mem _ _ _).mp hj with rfl | hj
      · assumption
      · exact lt_trans ‹k < b.rep› (hmin j hj)
    · intro j hj
      rcases (insertSorted_mem _ _ _).mp hj with rfl | hj
      · show b.rep < j
        omega
      · exact hmin j hj

/-- `Indexes::insert` keeps the redundant list sorted. -/
theorem Indexes.insert_sorted {b : Indexes} {k : Nat}
    (hs : b.other.Pairwise (· < ·)) :
    (b.insert k).other.Pairwise (· < ·) := by
  unfold Indexes.insert
  split
  · exact hs
  · split
    · exact insertSorted_pairwise _ _ hs
    · exact insertSorted_pairwise _ _ hs

/-- Every bucket of the table after `IndexMap::insert` is an old bucket or
carries the inserted position's key. -/
theorem imInsert_mem_or_key {entries : List ObjEntry} {k : Nat}
    {m : List Indexes} :
    ∀ b' ∈ (imInsert entries k m).1,
      b' ∈ m ∨ keyAt entries b'.rep = keyAt entries k := by
  induction m with
  | nil =>
    intro b' hb'
    simp only [imInsert, List.mem_singleton] at hb'
    subst hb'
    exact Or.inr rfl
  | cons b bs ih =>
    intro b' hb'
    unfold imInsert at hb'
    split at hb'
    · next hkey =>
      rcases List.mem_cons.mp hb' with rfl | hb'
      · refine Or.inr ?_
        rw [Indexes.insert_rep_key (by simpa using hkey)]
        simpa using hkey
      · exact Or.inl (List.mem_cons_of_mem b hb')
    · rcases List.mem_cons.mp hb' with rfl | hb'
      · exact Or.inl (List.mem_cons_self _ _)
      · rcases ih b' hb' with h | h
        · exact Or.inl (List.mem_cons_of_mem b h)
        · exact Or.inr h

/-- `IndexMap::insert` at a fresh in-bounds position preserves the
per-bucket invariants. -/
theorem imInsert_core {entries : List ObjEntry} {m : List Indexes}
    (hc : IdxCore entries m) {k : Nat} (hk : k < entries.length)
    (hfresh : ∀ b ∈ m, k ∉ b.toList) :
    IdxCore entries (imInsert entries k m).1 := by
  induction m with
  | nil =>
    refine ⟨?_, ?_, ?_, ?_, ?_⟩
    · intro b hb j hj
      simp only [imInsert, List.mem_singleton] at hb
      subst hb
      simp only [Indexes.toList, List.mem_singleton] at hj
      subst hj
      exact hk
    · intro b hb j hj
      simp only [imInsert, List.mem_singleton] at hb
      subst hb
      simp [Indexes.toList] at hj
    · intro b hb
      simp only [imInsert, List.mem_singleton] at hb
      subst hb
      simp
    · intro b hb j hj
      simp only [imInsert, List.mem_singleton] at hb
      subst hb
      simp only [Indexes.toList, List.mem_singleton] at hj
      subst hj
      rfl
    · simp [imInsert]
  | cons b bs ih =>
    have hbmem : b ∈ b :: bs := List.mem_cons_self _ _
    unfold imInsert
    split
    · next hkey =>
      have hkey' : keyAt entries b.rep = keyAt entries k := by simpa using hkey
      have hkk : keyAt entries (b.insert k).rep = keyAt entries b.rep :=
        Indexes.insert_rep_key hkey'
      refine ⟨?_, ?_, ?_, ?_, ?_⟩
      · intro b' hb' j hj
        rcases List.mem_cons.mp hb' with rfl | hb'
        · rcases (Indexes.insert_toList b k j).mp hj with rfl | hj
          · exact hk
          · exact hc.bound b hbmem j hj
        · exact hc.bound b' (List.mem_cons_of_mem b hb') j hj
      · intro b' hb'
        rcases List.mem_cons.mp hb' with rfl | hb'
        · exact Indexes.insert_repMin (hc.repMin b hbmem)
        · exact hc.repMin b' (List.mem_cons_of_mem b hb')
      · intro b' hb'
        rcases List.mem_cons.mp hb' with rfl | hb'
        · exact Indexes.insert_sorted (hc.sorted b hbmem)
        · exact hc.sorted b' (List.mem_cons_of_mem b hb')
      · intro b' hb' j hj
        rcases List.mem_cons.mp hb' with rfl | hb'
        · rw [hkk]
          rcases (Indexes.insert_toList b k j).mp hj with rfl | hj
          · exact hkey'.symm
          · exact hc.keyed b hbmem j hj
        · exact hc.keyed b' (List.mem_cons_of_mem b hb') j hj
      · have hcd := hc.distinct
        rw [List.pairwise_cons] at hcd
        refine List.pairwise_cons.mpr ⟨?_, hcd.2⟩
        intro b' hb'
        rw [hkk]
        exact hcd.1 b' hb'
    · next hkey =>
      have hkey' : keyAt entries b.rep ≠ keyAt entries k := by simpa using hkey
      have ihc := ih hc.tail
        (fun b' hb' => hfresh b' (List.mem_cons_of_mem b hb'))
      refine ⟨?_, ?_, ?_, ?_, ?_⟩
      · intro b' hb'
        rcases List.mem_cons.mp hb' with rfl | hb'
        · exact hc.bound b' hbmem
        · exact ihc.bound b' hb'
      · intro b' hb'
        rcases List.mem_cons.mp hb' with rfl | hb'
        · exact hc.repMin b' hbmem
        · exact ihc.repMin b' hb'
      · intro b' hb'
        rcases List.mem_cons.mp hb' with rfl | hb'
        · exact hc.sorted b' hbmem
        · exact ihc.sorted b' hb'
      · intro b' hb'
        rcases List.mem_cons.mp hb' with rfl | hb'
        · exact hc.keyed b' hbmem
        · exact ihc.keyed b' hb'
      · rw [List.pairwise_cons]
        refine ⟨?_, ihc.distinct⟩
        intro b' hb'
        rcases imInsert_mem_or_key b' hb' with h | h
        · exact List.rel_of_pairwise_cons hc.distinct h
        · rw [h]
          exact hkey'

/-- `IndexMap::insert` of a fresh in-bounds position preserves the full
key-index invariant, the indexed set growing by that position. -/
theorem imInsert_inv {entries : List ObjEntry} {m : List Indexes}
    {s : Finset Nat} (h : IdxInv entries m s) {k : Nat} (hks : k ∉ s)
    (hkb : k < entries.length) :
    IdxInv entries (imInsert entries k m).1 (insert k s) := by
  have hfresh : ∀ b ∈ m, k ∉ b.toList := by
    intro b hb hkb'
    exact hks (h.memS b hb k hkb')
  refine IdxInv.ofParts (imInsert_core h.toCore hkb hfresh) ?_ ?_
  · intro i hi
    rcases Finset.mem_insert.mp hi with rfl | hi
    · exact (imInsert_storedIn entries i m i).mpr (Or.inl rfl)
    · obtain ⟨b, hb, hjb⟩ := h.cover i hi
      exact (imInsert_storedIn entries k m i).mpr (Or.inr ⟨b, hb, hjb⟩)
  · intro b hb j hj
    rcases (imInsert_storedIn entries k m j).mp ⟨b, hb, hj⟩ with rfl | hstored
    · exact Finset.mem_insert_self _ _
    · obtain ⟨b', hb', hjb'⟩ := hstored
      exact Finset.mem_insert_of_mem (h.memS b' hb' j hjb')

/-- Every bucket after `IndexMap::remove` carries the key of some old
bucket. -/
theorem imRemove_mem_keys {entries : List ObjEntry} {m : List Indexes}
    (hc : IdxCore entries m) (j₀ : Nat) :
    ∀ b' ∈ imRemove entries j₀ m,
      ∃ b ∈ m, keyAt entries b'.rep = keyAt entries b.rep := by
  induction m with
  | nil =>
    intro b' hb'
    simp [imRemove] at hb'
  | cons b bs ih =>
    intro b' hb'
    unfold imRemove at hb'
    split at hb'
    · unfold Indexes.remove at hb'
      split at hb'
      · next hrep =>
        rcases hbo : b.other with _ | ⟨x, rest⟩ <;> rw [hbo] at hb'
        · simp only at hb'
          exact ⟨b', List.mem_cons_of_mem b hb', rfl⟩
        · simp only at hb'
          rcases List.mem_cons.mp hb' with rfl | hb'
          · refine ⟨b, List.mem_cons_self _ _, ?_⟩
            exact hc.keyed b (List.mem_cons_self _ _) x
              (by simp [Indexes.toList, hbo])
          · exact ⟨b', List.mem_cons_of_mem b hb', rfl⟩
      · simp only at hb'
        rcases List.mem_cons.mp hb' with rfl | hb'
        · exact ⟨b, List.mem_cons_self _ _, rfl⟩
        · exact ⟨b', List.mem_cons_of_mem b hb', rfl⟩
    · rcases List.mem_cons.mp hb' with rfl | hb'
      · exact ⟨b', List.mem_cons_self _ _, rfl⟩
      · obtain ⟨b'', hb'', hk''⟩ := ih hc.tail b' hb'
        exact ⟨b'', List.mem_cons_of_mem b hb'', hk''⟩

/-- `IndexMap::remove` preserves the per-bucket invariants. -/
theorem imRemove_core {entries : List ObjEntry} {m : List Indexes}
    (hc : IdxCore entries m) (j₀ : Nat) :
    IdxCore entries (imRemove entries j₀ m) := by
  induction m with
  | nil =>
    refine ⟨?_, ?_, ?_, ?_, ?_⟩ <;> simp [imRemove]
  | cons b bs ih =>
    have hbmem : b ∈ b :: bs := List.mem_cons_self _ _
    unfold imRemove
    split
    · unfold Indexes.remove
      split
      · next hrep =>
        rcases hbo : b.other with _ | ⟨x, rest⟩
        · simp only
          exact hc.tail
        · simp only
          have hxmem : x ∈ b.toList := by simp [Indexes.toList, hbo]
          have hso := hc.sorted b hbmem
          rw [hbo, List.pairwise_cons] at hso
          have hkx : keyAt entries x = keyAt entries b.rep :=
            hc.keyed b hbmem x hxmem
          refine ⟨?_, ?_, ?_, ?_, ?_⟩
          · intro b' hb'
            rcases List.mem_cons.mp hb' with rfl | hb'
            · intro j hj
              refine hc.bound b hbmem j ?_
              simp only [Indexes.toList, List.mem_cons] at hj ⊢
              rw [hbo]
              simp only [List.mem_cons]
              tauto
            · exact hc.bound b' (List.mem_cons_of_mem b hb')
          · intro b' hb'
            rcases List.mem_cons.mp hb' with rfl | hb'
            · exact fun j hj => hso.1 j hj
            · exact hc.repMin b' (List.mem_cons_of_mem b hb')
          · intro b' hb'
            rcases List.mem_cons.mp hb' with rfl | hb'
            · exact hso.2
            · exact hc.sorted b' (List.mem_cons_of_mem b hb')
          · intro b' hb'
            rcases List.mem_cons.mp hb' with rfl | hb'
            · intro j hj
              show keyAt entries j = keyAt entries x
              rw [hkx]
              refine hc.keyed b hbmem j ?_
              simp only [Indexes.toList, List.mem_cons] at hj ⊢
              rw [hbo]
              simp only [List.mem_cons]
              tauto
            · exact hc.keyed b' (List.mem_cons_of_mem b hb')
          · have hcd := hc.distinct
            rw [List.pairwise_cons] at hcd
            refine List.pairwise_cons.mpr ⟨?_, hcd.2⟩
            intro b' hb'
            show keyAt entries x ≠ keyAt entries b'.rep
            rw [hkx]
            exact hcd.1 b' hb'
      · simp only
        have her : ∀ j, j ∈ b.other.erase j₀ → j ∈ b.other :=
          fun j hj => List.mem_of_mem_erase hj
        refine ⟨?_, ?_, ?_, ?_, ?_⟩
        · intro b' hb'
          rcases List.mem_cons.mp hb' with rfl | hb'
          · intro j hj
            refine hc.bound b hbmem j ?_
            simp only [Indexes.toList, List.mem_cons] at hj ⊢
            rcases hj with rfl | hj
            · exact Or.inl rfl
            · exact Or.inr (her j hj)
          · exact hc.bound b' (List.mem_cons_of_mem b hb')
        · intro b' hb'
          rcases List.mem_cons.mp hb' with rfl | hb'
          · exact fun j hj => hc.repMin b hbmem j (her j hj)
          · exact hc.repMin b' (List.mem_cons_of_mem b hb')
        · intro b' hb'
          rcases List.mem_cons.mp hb' with rfl | hb'
          · exact (hc.sorted b hbmem).sublist (List.erase_sublist _ _)
          · exact hc.sorted b' (List.mem_cons_of_mem b hb')
        · intro b' hb'
          rcases List.mem_cons.mp hb' with rfl | hb'
          · intro j hj
            show keyAt entries j = keyAt entries b.rep
            refine hc.keyed b hbmem j ?_
            simp only [Indexes.toList, List.mem_cons] at hj ⊢
            rcases hj with rfl | hj
            · exact Or.inl rfl
            · exact Or.inr (her j hj)
          · exact hc.keyed b' (List.mem_cons_of_mem b hb')
        · have hcd := hc.distinct
          rw [List.pairwise_cons] at hcd
          exact List.pairwise_cons.mpr ⟨hcd.1, hcd.2⟩
    · have ihc := ih hc.tail
      refine ⟨?_, ?_, ?_, ?_, ?_⟩
      · intro b' hb'
        rcases List.mem_cons.mp hb' with rfl | hb'
        · exact hc.bound b' hbmem
        · exact ihc.bound b' hb'
      · intro b' hb'
        rcases List.mem_cons.mp hb' with rfl | hb'
        · exact hc.repMin b' hbmem
        · exact ihc.repMin b' hb'
      · intro b' hb'
        rcases List.mem_cons.mp hb' with rfl | hb'
        · exact hc.sorted b' hbmem
        · exact ihc.sorted b' hb'
      · intro b' hb'
        rcases List.mem_cons.mp hb' with rfl | hb'
        · exact hc.keyed b' hbmem
        · exact ihc.keyed b' hb'
      · have hcd := hc.distinct
        rw [List.pairwise_cons] at hcd
        refine List.pairwise_cons.mpr ⟨?_, ihc.distinct⟩
        intro b' hb'
        obtain ⟨b'', hb'', hk''⟩ := imRemove_mem_keys hc.tail j₀ b' hb'
        rw [hk'']
        exact hcd.1 b'' hb''

/-- At most one bucket of a core-invariant table contains a given
position. -/
theorem IdxCore.unique_bucket {entries m} (hc : IdxCore entries m)
    {b b' : Indexes} (hb : b ∈ m) (hb' : b' ∈ m) {j : Nat}
    (hj : j ∈ b.toList) (hj' : j ∈ b'.toList) : b = b' := by
  by_contra hne
  refine (List.Pairwise.forall (fun x y hxy => (Ne.symm hxy)) hc.distinct
    hb hb' hne) ?_
  rw [← hc.keyed b hb j hj, ← hc.keyed b' hb' j hj']

/-- Positions stored after `IndexMap::remove` of a stored position: all the
previously stored positions except the removed one. -/
theorem imRemove_storedIn {entries : List ObjEntry} {m : List Indexes}
    (hc : IdxCore entries m) {j₀ : Nat} (hst : storedIn m j₀) (j : Nat) :
    storedIn (imRemove entries j₀ m) j ↔ storedIn m j ∧ j ≠ j₀ := by
  induction m with
  | nil =>
    obtain ⟨b, hb, _⟩ := hst
    simp at hb
  | cons b bs ih =>
    have hbmem : b ∈ b :: bs := List.mem_cons_self _ _
    obtain ⟨bc, hbc, hjbc⟩ := hst
    unfold imRemove
    split
    · next hkey =>
      have hkey' : keyAt entries b.rep = keyAt entries j₀ := by
        simpa using hkey
      -- the scanned bucket is the bucket containing `j₀`
      have hbcb : bc = b := by
        rcases List.mem_cons.mp hbc with rfl | hbc'
        · rfl
        · exfalso
          have h1 : keyAt entries bc.rep = keyAt entries j₀ :=
            (hc.keyed bc hbc j₀ hjbc).symm
          have hcd := hc.distinct
          rw [List.pairwise_cons] at hcd
          exact (hcd.1 bc hbc') (by rw [hkey', h1])
      subst hbcb
      -- no bucket of the tail contains j₀ nor shares the key
      have htail : ∀ b' ∈ bs, j₀ ∉ b'.toList := by
        intro b' hb' hj'
        have := hc.unique_bucket hbc (List.mem_cons_of_mem _ hb') hjbc hj'
        subst this
        have hcd := hc.distinct
        rw [List.pairwise_cons] at hcd
        exact (hcd.1 bc hb') rfl
      have hnodup : bc.toList.Nodup := by
        refine List.Pairwise.imp Nat.ne_of_lt ?_
        exact List.Pairwise.cons (hc.repMin bc hbc) (hc.sorted bc hbc)
      unfold Indexes.remove
      split
      · next hrep =>
        rcases hbo : bc.other with _ | ⟨x, rest⟩
        · simp only
          have hbl : bc.toList = [j₀] := by
            simp [Indexes.toList, hbo, hrep]
          constructor
          · rintro ⟨b', hb', hj'⟩
            refine ⟨⟨b', List.mem_cons_of_mem _ hb', hj'⟩, ?_⟩
            rintro rfl
            exact htail b' hb' hj'
          · rintro ⟨⟨b', hb', hj'⟩, hne⟩
            rcases List.mem_cons.mp hb' with rfl | hb'
            · rw [hbl] at hj'
              simp only [List.mem_singleton] at hj'
              exact absurd hj' hne
            · exact ⟨b', hb', hj'⟩
        · simp only
          have hbl : bc.toList = j₀ :: x :: rest := by
            simp [Indexes.toList, hbo, hrep]
          constructor
          · rintro ⟨b', hb', hj'⟩
            rcases List.mem_cons.mp hb' with rfl | hb'
            · have hjin : j ∈ bc.toList := by
                rw [hbl]
                exact List.mem_cons_of_mem _ hj'
              refine ⟨⟨bc, hbc, hjin⟩, ?_⟩
              rintro rfl
              rw [hbl] at hnodup
              simp only [Indexes.toList] at hj'
              exact (List.nodup_cons.mp hnodup).1 hj'
            · refine ⟨⟨b', List.mem_cons_of_mem _ hb', hj'⟩, ?_⟩
              rintro rfl
              exact htail b' hb' hj'
          · rintro ⟨⟨b', hb', hj'⟩, hne⟩
            rcases List.mem_cons.mp hb' with rfl | hb'
            · rw [hbl] at hj'
              rcases List.mem_cons.mp hj' with rfl | hj'
              · exact absurd rfl hne
              · exact ⟨⟨x, rest⟩, List.mem_cons_self _ _, hj'⟩
            · exact ⟨b', List.mem_cons_of_mem _ hb', hj'⟩
      · next hrep =>
        show storedIn (⟨bc.rep, bc.other.erase j₀⟩ :: bs) j ↔
          storedIn (bc :: bs) j ∧ j ≠ j₀
        have hnodupo : bc.other.Nodup :=
          (hc.sorted bc hbc).imp Nat.ne_of_lt
        constructor
        · rintro ⟨b', hb', hj'⟩
          rcases List.mem_cons.mp hb' with hbeq | hb2
          · rw [hbeq] at hj'
            simp only [Indexes.toList, List.mem_cons] at hj'
            rcases hj' with rfl | hj'
            · exact ⟨⟨bc, hbc, by simp [Indexes.toList]⟩, hrep⟩
            · have hjo := List.mem_of_mem_erase hj'
              refine ⟨⟨bc, hbc, by simp [Indexes.toList, hjo]⟩, ?_⟩
              exact ((List.Nodup.mem_erase_iff hnodupo).mp hj').1
          · refine ⟨⟨b', List.mem_cons_of_mem _ hb2, hj'⟩, ?_⟩
            rintro rfl
            exact htail b' hb2 hj'
        · rintro ⟨⟨b', hb', hj'⟩, hne⟩
          rcases List.mem_cons.mp hb' with hbeq | hb2
          · rw [hbeq] at hj'
            simp only [Indexes.toList, List.mem_cons] at hj'
            rcases hj' with rfl | hj'
            · exact ⟨⟨bc.rep, bc.other.erase j₀⟩, List.mem_cons_self _ _,
                by simp [Indexes.toList]⟩
            · refine ⟨⟨bc.rep, bc.other.erase j₀⟩, List.mem_cons_self _ _, ?_⟩
              simp only [Indexes.toList, List.mem_cons]
              exact Or.inr ((List.Nodup.mem_erase_iff hnodupo).mpr ⟨hne, hj'⟩)
          · exact ⟨b', List.mem_cons_of_mem _ hb2, hj'⟩
    · next hkey =>
      have hkey' : keyAt entries b.rep ≠ keyAt entries j₀ := by
        simpa using hkey
      have hbcbs : bc ∈ bs := by
        rcases List.mem_cons.mp hbc with hbeq | h
        · exact absurd (by rw [← hbeq]
                           exact (hc.keyed bc hbc j₀ hjbc).symm) hkey'
        · exact h
      have hbj₀ : j₀ ∉ b.toList := by
        intro hj'
        exact absurd ((hc.keyed b hbmem j₀ hj').symm) hkey'
      have ihr := ih hc.tail ⟨bc, hbcbs, hjbc⟩
      constructor
      · rintro ⟨b', hb', hj'⟩
        rcases List.mem_cons.mp hb' with hbeq | hb'
        · rw [hbeq] at hj'
          refine ⟨⟨b, hbmem, hj'⟩, ?_⟩
          rintro rfl
          exact hbj₀ hj'
        · obtain ⟨⟨b'', hb'', hj''⟩, hne⟩ := ihr.mp ⟨b', hb', hj'⟩
          exact ⟨⟨b'', List.mem_cons_of_mem _ hb'', hj''⟩, hne⟩
      · rintro ⟨⟨b', hb', hj'⟩, hne⟩
        rcases List.mem_cons.mp hb' with hbeq | hb'
        · rw [hbeq] at hj'
          exact ⟨b, List.mem_cons_self _ _, hj'⟩
        · obtain ⟨b'', hb'', hj''⟩ := ihr.mpr ⟨⟨b', hb', hj'⟩, hne⟩
          exact ⟨b'', List.mem_cons_of_mem _ hb'', hj''⟩

/-- `IndexMap::remove` of a stored position preserves the full invariant,
the indexed set losing that position. -/
theorem imRemove_inv {entries : List ObjEntry} {m : List Indexes}
    {s : Finset Nat} (h : IdxInv entries m s) {j₀ : Nat} (hj₀ : j₀ ∈ s) :
    IdxInv entries (imRemove entries j₀ m) (s.erase j₀) := by
  have hst : storedIn m j₀ := h.cover j₀ hj₀
  refine IdxInv.ofParts (imRemove_core h.toCore j₀) ?_ ?_
  · intro i hi
    exact (imRemove_storedIn h.toCore hst i).mpr
      ⟨h.cover i (Finset.mem_of_mem_erase hi), Finset.ne_of_mem_erase hi⟩
  · intro b hb j hj
    obtain ⟨hstj, hne⟩ := (imRemove_storedIn h.toCore hst j).mp ⟨b, hb, hj⟩
    obtain ⟨b', hb', hj'⟩ := hstj
    exact Finset.mem_erase.mpr ⟨hne, h.memS b' hb' j hj'⟩

/-- `Indexes::shift_down` acts on the member list as a pointwise map. -/
theorem Indexes.shiftDown_toList (b : Indexes) (i : Nat) :
    (b.shiftDown i).toList = b.toList.map fun j => if i < j then j - 1 else j :=
  rfl

/-- `Indexes::shift_up 0` acts on the member list by adding one. -/
theorem Indexes.shiftUp_zero_toList (b : Indexes) :
    (b.shiftUp 0).toList = b.toList.map (· + 1) := by
  unfold Indexes.shiftUp Indexes.toList
  simp [Nat.zero_le]

/-- Key lookup is stable under removing a different, earlier-or-later entry:
the entry at the shifted position of `entries.eraseIdx j₀` is the old one. -/
theorem keyAt_eraseIdx {entries : List ObjEntry} {j₀ j : Nat}
    (hne : j ≠ j₀) :
    keyAt (entries.eraseIdx j₀) (if j₀ < j then j - 1 else j) =
      keyAt entries j := by
  unfold keyAt
  rcases Nat.lt_or_ge j₀ j with hlt | hge
  · rw [if_pos hlt, List.getElem?_eraseIdx_of_ge _ _ _ (by omega),
      (by omega : j - 1 + 1 = j)]
  · rw [if_neg (by omega), List.getElem?_eraseIdx_of_lt _ _ _ (by omega)]

/-- After removing position `j₀` from a table that no longer stores it,
`IndexMap::shift_down` re-aligns the table with `entries.eraseIdx j₀`. -/
theorem imShiftDown_inv {entries : List ObjEntry} {m : List Indexes}
    {s : Finset Nat} (h : IdxInv entries m s) {j₀ : Nat} (hns : j₀ ∉ s)
    (hlen : j₀ < entries.length) :
    IdxInv (entries.eraseIdx j₀) (imShiftDown j₀ m)
      (s.image fun j => if j₀ < j then j - 1 else j) := by
  have hmem : ∀ b ∈ m, ∀ j ∈ b.toList, j ≠ j₀ := by
    intro b hb j hj hj0
    exact hns (hj0 ▸ h.memS b hb j hj)
  have hmono : ∀ j j' : Nat, j ≠ j₀ → j' ≠ j₀ → j < j' →
      (if j₀ < j then j - 1 else j) < (if j₀ < j' then j' - 1 else j') := by
    intro j j' hj hj' hlt
    split <;> split <;> omega
  refine ⟨?_, ?_, ?_, ?_, ?_, ?_, ?_⟩
  · intro i hi
    obtain ⟨j, hjs, rfl⟩ := Finset.mem_image.mp hi
    obtain ⟨b, hb, hjb⟩ := h.cover j hjs
    refine ⟨b.shiftDown j₀, List.mem_map_of_mem _ hb, ?_⟩
    rw [Indexes.shiftDown_toList]
    exact List.mem_map_of_mem _ hjb
  · intro b hb j hj
    obtain ⟨b₀, hb₀, rfl⟩ := List.mem_map.mp hb
    rw [Indexes.shiftDown_toList] at hj
    obtain ⟨j', hj', rfl⟩ := List.mem_map.mp hj
    exact Finset.mem_image_of_mem _ (h.memS b₀ hb₀ j' hj')
  · intro b hb j hj
    obtain ⟨b₀, hb₀, rfl⟩ := List.mem_map.mp hb
    rw [Indexes.shiftDown_toList] at hj
    obtain ⟨j', hj', rfl⟩ := List.mem_map.mp hj
    have h1 := h.bound b₀ hb₀ j' hj'
    have h2 := hmem b₀ hb₀ j' hj'
    rw [List.length_eraseIdx_of_lt hlen]
    split <;> omega
  · intro b hb j hj
    obtain ⟨b₀, hb₀, rfl⟩ := List.mem_map.mp hb
    simp only [Indexes.shiftDown] at hj ⊢
    obtain ⟨j', hj', rfl⟩ := List.mem_map.mp hj
    exact hmono _ _ (hmem b₀ hb₀ b₀.rep (by simp [Indexes.toList]))
      (hmem b₀ hb₀ j' (by simp [Indexes.toList, hj']))
      (h.repMin b₀ hb₀ j' hj')
  · intro b hb
    obtain ⟨b₀, hb₀, rfl⟩ := List.mem_map.mp hb
    simp only [Indexes.shiftDown]
    refine List.pairwise_map.mpr ?_
    refine List.Pairwise.imp_of_mem ?_ (h.sorted b₀ hb₀)
    intro a c ha hc hac
    exact hmono _ _ (hmem b₀ hb₀ a (by simp [Indexes.toList, ha]))
      (hmem b₀ hb₀ c (by simp [Indexes.toList, hc])) hac
  · intro b hb j hj
    obtain ⟨b₀, hb₀, rfl⟩ := List.mem_map.mp hb
    rw [Indexes.shiftDown_toList] at hj
    obtain ⟨j', hj', rfl⟩ := List.mem_map.mp hj
    have hrepm : b₀.rep ∈ b₀.toList := by simp [Indexes.toList]
    show keyAt (entries.eraseIdx j₀) (if j₀ < j' then j' - 1 else j') =
      keyAt (entries.eraseIdx j₀) (if j₀ < b₀.rep then b₀.rep - 1 else b₀.rep)
    rw [keyAt_eraseIdx (hmem b₀ hb₀ j' hj'),
      keyAt_eraseIdx (hmem b₀ hb₀ _ hrepm)]
    exact h.keyed b₀ hb₀ j' hj'
  · refine List.pairwise_map.mpr ?_
    refine List.Pairwise.imp_of_mem ?_ h.distinct
    intro a c ha hc hne
    have hra : a.rep ∈ a.toList := by simp [Indexes.toList]
    have hrc : c.rep ∈ c.toList := by simp [Indexes.toList]
    show keyAt (entries.eraseIdx j₀) (if j₀ < a.rep then a.rep - 1 else a.rep) ≠
      keyAt (entries.eraseIdx j₀) (if j₀ < c.rep then c.rep - 1 else c.rep)
    rw [keyAt_eraseIdx (hmem a ha _ hra), keyAt_eraseIdx (hmem c hc _ hrc)]
    exact hne

/-- Key lookup after prepending an entry: position `j + 1` of `e :: entries`
is position `j` of `entries`. -/
theorem keyAt_cons_succ (e : ObjEntry) (entries : List ObjEntry) (j : Nat) :
    keyAt (e :: entries) (j + 1) = keyAt entries j := by
  unfold keyAt
  rw [List.getElem?_cons_succ]

/-- Prepending an entry and running `IndexMap::shift_up 0` re-aligns the
table with `e :: entries`. -/
theorem imShiftUp_inv {entries : List ObjEntry} {m : List Indexes}
    {s : Finset Nat} (h : IdxInv entries m s) (e : ObjEntry) :
    IdxInv (e :: entries) (imShiftUp 0 m) (s.image (· + 1)) := by
  refine ⟨?_, ?_, ?_, ?_, ?_, ?_, ?_⟩
  · intro i hi
    obtain ⟨j, hjs, rfl⟩ := Finset.mem_image.mp hi
    obtain ⟨b, hb, hjb⟩ := h.cover j hjs
    refine ⟨b.shiftUp 0, List.mem_map_of_mem _ hb, ?_⟩
    rw [Indexes.shiftUp_zero_toList]
    exact List.mem_map_of_mem _ hjb
  · intro b hb j hj
    obtain ⟨b₀, hb₀, rfl⟩ := List.mem_map.mp hb
    rw [Indexes.shiftUp_zero_toList] at hj
    obtain ⟨j', hj', rfl⟩ := List.mem_map.mp hj
    exact Finset.mem_image_of_mem _ (h.memS b₀ hb₀ j' hj')
  · intro b hb j hj
    obtain ⟨b₀, hb₀, rfl⟩ := List.mem_map.mp hb
    rw [Indexes.shiftUp_zero_toList] at hj
    obtain ⟨j', hj', rfl⟩ := List.mem_map.mp hj
    have := h.bound b₀ hb₀ j' hj'
    simp only [List.length_cons]
    omega
  · intro b hb j hj
    obtain ⟨b₀, hb₀, rfl⟩ := List.mem_map.mp hb
    simp only [Indexes.shiftUp, Nat.zero_le, if_pos] at hj ⊢
    obtain ⟨j', hj', rfl⟩ := List.mem_map.mp hj
    have := h.repMin b₀ hb₀ j' hj'
    omega
  · intro b hb
    obtain ⟨b₀, hb₀, rfl⟩ := List.mem_map.mp hb
    simp only [Indexes.shiftUp, Nat.zero_le, if_pos]
    refine List.pairwise_map.mpr ?_
    refine List.Pairwise.imp_of_mem ?_ (h.sorted b₀ hb₀)
    intro a c _ _ hac
    omega
  · intro b hb j hj
    obtain ⟨b₀, hb₀, rfl⟩ := List.mem_map.mp hb
    rw [Indexes.shiftUp_zero_toList] at hj
    obtain ⟨j', hj', rfl⟩ := List.mem_map.mp hj
    have hrS : (b₀.shiftUp 0).rep = b₀.rep + 1 := by
      simp [Indexes.shiftUp, Nat.zero_le]
    rw [hrS, keyAt_cons_succ, keyAt_cons_succ]
    exact h.keyed b₀ hb₀ j' hj'
  · refine List.pairwise_map.mpr ?_
    refine List.Pairwise.imp_of_mem ?_ h.distinct
    intro a c ha hc hne
    have hra : (a.shiftUp 0).rep = a.rep + 1 := by
      simp [Indexes.shiftUp, Nat.zero_le]
    have hrc : (c.shiftUp 0).rep = c.rep + 1 := by
      simp [Indexes.shiftUp, Nat.zero_le]
    rw [hra, hrc, keyAt_cons_succ, keyAt_cons_succ]
    exact hne

/-- The invariant only depends on the keys of the indexed positions: it
transfers to any entry list that is at least as long and agrees on the
keys of the in-range positions. -/
theorem IdxInv.congr_entries {entries entries' : List ObjEntry}
    {m : List Indexes} {s : Finset Nat} (h : IdxInv entries m s)
    (hlen : entries.length ≤ entries'.length)
    (hkey : ∀ j < entries.length, keyAt entries' j = keyAt entries j) :
    IdxInv entries' m s := by
  have hk : ∀ b ∈ m, ∀ j ∈ b.toList, keyAt entries' j = keyAt entries j :=
    fun b hb j hj => hkey j (h.bound b hb j hj)
  have hrep : ∀ b ∈ m, keyAt entries' b.rep = keyAt entries b.rep :=
    fun b hb => hk b hb b.rep (by simp [Indexes.toList])
  refine ⟨h.cover, h.memS, ?_, h.repMin, h.sorted, ?_, ?_⟩
  · intro b hb j hj
    exact lt_of_lt_of_le (h.bound b hb j hj) hlen
  · intro b hb j hj
    rw [hk b hb j hj, hrep b hb]
    exact h.keyed b hb j hj
  · refine List.Pairwise.imp_of_mem ?_ h.distinct
    intro a c ha hc hne
    rw [hrep a ha, hrep c hc]
    exact hne

/-- Appending entries beyond the indexed range preserves the invariant. -/
theorem IdxInv.append {entries ext : List ObjEntry} {m : List Indexes}
    {s : Finset Nat} (h : IdxInv entries m s) :
    IdxInv (entries ++ ext) m s := by
  refine h.congr_entries (by simp) ?_
  intro j hj
  unfold keyAt
  rw [List.getElem?_append, if_pos hj]

/-- `I5`: the number of indexed positions equals the total size of the
buckets. -/
theorem IdxInv.card_eq {entries m s} (h : IdxInv entries m s) :
    s.card = (m.map Indexes.len).sum := by
  classical
  have hnodup : (m.map Indexes.toList).flatten.Nodup := by
    rw [List.nodup_flatten]
    constructor
    · intro l hl
      obtain ⟨b, hb, rfl⟩ := List.mem_map.mp hl
      exact h.toList_nodup hb
    · rw [List.pairwise_map]
      refine List.Pairwise.imp_of_mem ?_ h.distinct
      intro a c ha hc hne
      rw [List.disjoint_left]
      intro x hxa hxc
      exact hne (by rw [← h.keyed a ha x hxa, ← h.keyed c hc x hxc])
  have hmemiff : ∀ j, j ∈ (m.map Indexes.toList).flatten ↔ j ∈ s := by
    intro j
    rw [List.mem_flatten]
    constructor
    · rintro ⟨l, hl, hjl⟩
      obtain ⟨b, hb, rfl⟩ := List.mem_map.mp hl
      exact h.memS b hb j hjl
    · intro hjs
      obtain ⟨b, hb, hjb⟩ := h.cover j hjs
      exact ⟨b.toList, List.mem_map_of_mem _ hb, hjb⟩
  have hcard : s.card = (m.map Indexes.toList).flatten.length := by
    rw [← List.toFinset_card_of_nodup hnodup]
    congr 1
    ext j
    simp [hmemiff j]
  rw [hcard, List.length_flatten, List.map_map]
  refine congrArg List.sum ?_
  refine List.map_congr_left ?_
  intro b _
  simp only [Function.comp_apply, Indexes.toList, Indexes.len,
    List.length_cons]
  omega

/-- The invariant table stores exactly the in-range positions. -/
theorem ObjWf.storedIn_iff {o : Object} (h : ObjWf o) (j : Nat) :
    storedIn o.indexes j ↔ j < o.entries.length := by
  constructor
  · rintro ⟨b, hb, hj⟩
    simpa using h.memS b hb j hj
  · intro hj
    exact h.cover j (Finset.mem_range.mpr hj)

/-- `Object::push_entry` preserves the object invariant. -/
theorem ObjWf.pushEntry {o : Object} (h : ObjWf o) (e : ObjEntry) :
    ObjWf (o.pushEntry e).1 := by
  unfold Object.pushEntry ObjWf
  simp only [List.length_append, List.length_singleton]
  have hap := @IdxInv.append _ [e] _ _ h
  have h2 := imInsert_inv hap (k := o.entries.length) (by simp) (by simp)
  rw [Finset.range_succ]
  exact h2

/-- `Object::push_entry_front` preserves the object invariant. -/
theorem ObjWf.pushEntryFront {o : Object} (h : ObjWf o) (e : ObjEntry) :
    ObjWf (o.pushEntryFront e).1 := by
  unfold Object.pushEntryFront ObjWf
  simp only [List.length_cons]
  have h1 := imShiftUp_inv h e
  have h2 := imInsert_inv h1 (k := 0)
    (by simp) (by simp)
  have hset : insert 0 ((Finset.range o.entries.length).image (· + 1)) =
      Finset.range (o.entries.length + 1) := by
    ext j
    simp only [Finset.mem_insert, Finset.mem_image, Finset.mem_range]
    constructor
    · rintro (rfl | ⟨j', hj', rfl⟩) <;> omega
    · intro hj
      rcases Nat.eq_zero_or_pos j with rfl | hpos
      · exact Or.inl rfl
      · exact Or.inr ⟨j - 1, by omega, by omega⟩
  rw [← hset]
  exact h2

/-- `Object::remove_at` preserves the object invariant. -/
theorem ObjWf.removeAt {o : Object} (h : ObjWf o) (i : Nat) :
    ObjWf (o.removeAt i).2 := by
  unfold Object.removeAt
  split
  · next hi =>
    simp only
    have h1 := @imRemove_inv _ _ _ h i (Finset.mem_range.mpr hi)
    have h2 := @imShiftDown_inv _ _ _ h1 i (by simp) hi
    have hset : ((Finset.range o.entries.length).erase i).image
        (fun j => if i < j then j - 1 else j) =
        Finset.range (o.entries.length - 1) := by
      ext j
      simp only [Finset.mem_image, Finset.mem_erase, Finset.mem_range]
      constructor
      · rintro ⟨j', ⟨hne, hj'⟩, rfl⟩
        split <;> omega
      · intro hj
        rcases Nat.lt_or_ge j i with hlt | hge
        · exact ⟨j, ⟨by omega, by omega⟩, by rw [if_neg (by omega)]⟩
        · exact ⟨j + 1, ⟨by omega, by omega⟩, by rw [if_pos (by omega)]; omega⟩
    unfold ObjWf
    simp only
    rw [List.length_eraseIdx_of_lt hi, ← hset]
    exact h2
  · exact h

/-- Key lookup after overwriting the entry at `i` with one of the same
key. -/
theorem keyAt_set_same {entries : List ObjEntry} {i : Nat} {k : List Char}
    {v : Value} (hk : keyAt entries i = k) (j : Nat) :
    keyAt (entries.set i (k, v)) j = keyAt entries j := by
  rcases eq_or_ne j i with rfl | hne
  · unfold keyAt at hk ⊢
    rcases hlt : decide (j < entries.length) with _ | _
    · simp only [decide_eq_false_iff_not, not_lt] at hlt
      rw [List.set_eq_of_length_le hlt]
    · simp only [decide_eq_true_eq] at hlt
      rw [List.getElem?_set_self' ]
      simp only [List.getElem?_eq_getElem hlt, Option.map_some]
      rw [List.getElem?_eq_getElem hlt] at hk
      simp at hk ⊢
      exact hk.symm ▸ rfl
  · unfold keyAt
    rw [List.getElem?_set_ne (Ne.symm hne)]

/-- The empty index is a valid index of no positions. -/
theorem IdxInv.emptyIdx (entries : List ObjEntry) :
    IdxInv entries [] ∅ := by
  refine ⟨?_, ?_, ?_, ?_, ?_, ?_, ?_⟩ <;> simp

/-- The index built by inserting the first `t` positions in order indexes
exactly those positions. -/
theorem buildIndexes_inv (entries : List ObjEntry) :
    ∀ t, t ≤ entries.length →
      IdxInv entries
        ((List.range t).foldl (fun m i => (imInsert entries i m).1) [])
        (Finset.range t)
  | 0, _ => by simpa using IdxInv.emptyIdx entries
  | t + 1, ht => by
    rw [List.range_succ, List.foldl_append, List.foldl_cons, List.foldl_nil]
    have h2 := imInsert_inv (buildIndexes_inv entries t (by omega))
      (k := t) (by simp) (by omega)
    rwa [← Finset.range_succ] at h2

/-- `Object::from_vec` builds a well-formed object. -/
theorem ObjWf.fromVec (entries : List ObjEntry) :
    ObjWf (Object.fromVec entries) :=
  buildIndexes_inv entries entries.length le_rfl

/-- `Object::sort` preserves the object invariant (it rebuilds the index
over the sorted entries from scratch). -/
theorem ObjWf.sortOp (o : Object) : ObjWf o.sortOp := by
  unfold Object.sortOp ObjWf
  simp only
  exact buildIndexes_inv _ _ le_rfl

/-- Overwriting the entry at a key-matching position preserves the object
invariant. -/
theorem ObjWf.setSameKey {o : Object} (h : ObjWf o) {i : Nat}
    {k : List Char} (v : Value) (hk : keyAt o.entries i = k) :
    ObjWf ⟨o.entries.set i (k, v), o.indexes⟩ := by
  unfold ObjWf
  simp only [List.length_set]
  exact h.congr_entries (by simp) fun j hj => keyAt_set_same hk j

/-- Draining the insertion iterator preserves the object invariant. -/
theorem drainAfterInsert_wf {o : Object} (h : ObjWf o) (index : Nat)
    (fuel : Nat) : ObjWf (drainAfterInsert index o fuel).2 := by
  induction fuel generalizing o with
  | zero => exact h
  | succ fuel ih =>
    unfold drainAfterInsert
    rcases hro : o.redundantIndexOf (keyAt o.entries index) with _ | idx
    · exact h
    · simp only
      rcases hra : o.removeAt idx with ⟨e?, o'⟩
      have ho' : ObjWf o' := by
        have := h.removeAt idx
        rwa [hra] at this
      rcases e? with _ | e
      · exact ho'
      · exact ih ho'

/-- `Object::insert` (drained) preserves the object invariant. -/
theorem insertDrained_wf {o : Object} (h : ObjWf o) (k : List Char)
    (v : Value) : ObjWf (o.insertDrained k v).2 := by
  unfold Object.insertDrained
  rcases hio : o.indexOf k with _ | index
  · exact h.pushEntry (k, v)
  · simp only
    refine drainAfterInsert_wf ?_ index _
    refine h.setSameKey v ?_
    obtain ⟨b, hb, hbk⟩ := Option.map_eq_some'.mp hio
    subst hbk
    obtain ⟨hbm, hkb⟩ := imGet_some_spec hb
    unfold Indexes.first
    exact hkb

/-- `Object::insert_front` (drained) preserves the object invariant. -/
theorem insertFrontDrained_wf {o : Object} (h : ObjWf o) (k : List Char)
    (v : Value) : ObjWf (o.insertFrontDrained k v).2 := by
  unfold Object.insertFrontDrained
  rcases hoe : o.entries with _ | ⟨first, rest⟩
  · exact drainAfterInsert_wf (h.pushEntryFront (k, v)) 0 _
  · simp only
    split
    · next heq =>
      refine drainAfterInsert_wf ?_ 0 _
      have h' : ObjWf ⟨o.entries, o.indexes⟩ := h
      rw [hoe] at h'
      have hs := h'.setSameKey (i := 0) (k := k) v ?_
      · rw [List.set_cons_zero] at hs
        exact hs
      · simp only [keyAt, List.getElem?_cons_zero, Option.map_some]
        exact eq_of_beq heq
    · exact drainAfterInsert_wf (h.pushEntryFront (k, v)) 0 _

/-- Draining the removal iterator preserves the object invariant. -/
theorem drainRemove_wf {o : Object} (h : ObjWf o) (k : List Char)
    (fuel : Nat) : ObjWf (drainRemove k o fuel).2 := by
  induction fuel generalizing o with
  | zero => exact h
  | succ fuel ih =>
    unfold drainRemove
    rcases o.indexOf k with _ | idx
    · exact h
    · simp only
      rcases hra : o.removeAt idx with ⟨e?, o'⟩
      have ho' : ObjWf o' := by
        have := h.removeAt idx
        rwa [hra] at this
      rcases e? with _ | e
      · exact ho'
      · exact ih ho'

/-- `Object::remove` (drained) preserves the object invariant. -/
theorem removeDrained_wf {o : Object} (h : ObjWf o) (k : List Char) :
    ObjWf (o.removeDrained k).2 :=
  drainRemove_wf h k o.entries.length

/-- `Object::remove_unique` preserves the object invariant. -/
theorem removeUnique_wf {o : Object} (h : ObjWf o) (k : List Char) :
    ObjWf (o.removeUnique k).2 := by
  have hd := removeDrained_wf h k
  unfold Object.removeUnique
  rcases hrd : (o.removeDrained k).1 with _ | ⟨e, _ | ⟨e2, es⟩⟩ <;>
    simp only [hrd] <;> exact hd

/-- Shifting the whole index down moves every stored position by the shift
map. -/
theorem imShiftDown_storedIn (i : Nat) (m : List Indexes) (j : Nat) :
    storedIn (imShiftDown i m) j ↔
      ∃ j', storedIn m j' ∧ j = if i < j' then j' - 1 else j' := by
  unfold storedIn imShiftDown
  constructor
  · rintro ⟨b, hb, hj⟩
    obtain ⟨b', hb', rfl⟩ := List.mem_map.mp hb
    rw [Indexes.shiftDown_toList] at hj
    obtain ⟨j', hj', rfl⟩ := List.mem_map.mp hj
    exact ⟨j', ⟨b', hb', hj'⟩, rfl⟩
  · rintro ⟨j', ⟨b, hb, hjb⟩, rfl⟩
    exact ⟨b.shiftDown i, List.mem_map_of_mem _ hb,
      by rw [Indexes.shiftDown_toList]; exact List.mem_map_of_mem _ hjb⟩

/-- Removal at an in-bounds position `i` keeps the stored positions below
`i` and shifts the stored positions above `i` down by one. -/
theorem removeAt_storedIn {o : Object} (h : ObjWf o) {i : Nat}
    (hi : i < o.entries.length) (j : Nat) :
    storedIn (o.removeAt i).2.indexes j ↔
      (j < i ∧ storedIn o.indexes j) ∨
        (i ≤ j ∧ storedIn o.indexes (j + 1)) := by
  have hsti : storedIn o.indexes i :=
    h.cover i (Finset.mem_range.mpr hi)
  unfold Object.removeAt
  rw [if_pos hi]
  simp only
  rw [imShiftDown_storedIn]
  constructor
  · rintro ⟨j', hj', rfl⟩
    rw [imRemove_storedIn h.toCore hsti] at hj'
    rcases Nat.lt_or_ge j' i with hlt | hge
    · rw [if_neg (by omega)]
      exact Or.inl ⟨hlt, hj'.1⟩
    · have hgt : i < j' := by omega
      rw [if_pos hgt]
      refine Or.inr ⟨by omega, ?_⟩
      have : j' - 1 + 1 = j' := by omega
      rw [this]
      exact hj'.1
  · rintro (⟨hlt, hst⟩ | ⟨hge, hst⟩)
    · refine ⟨j, ?_, by rw [if_neg (by omega)]⟩
      rw [imRemove_storedIn h.toCore hsti]
      exact ⟨hst, by omega⟩
    · refine ⟨j + 1, ?_, by rw [if_pos (by omega)]; omega⟩
      rw [imRemove_storedIn h.toCore hsti]
      exact ⟨hst, by omega⟩

/-- Claim C10: `Object::remove_at` on an out-of-bounds index returns
`None` and leaves both the entry vector and the key index unchanged; on an
in-bounds index `i` it returns the entry previously at position `i`,
removes exactly that entry from the vector (the rest keeping their
relative order), and every position stored in the key index that was
strictly greater than `i` is decreased by one while the smaller stored
positions are kept. -/
theorem c10_remove_at (o : Object) (h : ObjWf o) (i : Nat) :
    (o.len ≤ i → o.removeAt i = (none, o)) ∧
    (i < o.len →
      (o.removeAt i).1 = some (entryAt o.entries i) ∧
      (o.removeAt i).2.entries = o.entries.eraseIdx i ∧
      ∀ j : Nat, storedIn (o.removeAt i).2.indexes j ↔
        (j < i ∧ storedIn o.indexes j) ∨
          (i ≤ j ∧ storedIn o.indexes (j + 1))) := by
  constructor
  · intro hle
    unfold Object.removeAt
    rw [if_neg (by unfold Object.len at hle; omega)]
  · intro hlt
    have hlt' : i < o.entries.length := hlt
    refine ⟨?_, ?_, removeAt_storedIn h hlt'⟩
    · unfold Object.removeAt
      rw [if_pos hlt']
    · unfold Object.removeAt
      rw [if_pos hlt']

/-- Witness: removing at index 2 of a two-entry object is the identity
with no entry returned, and removing at index 0 returns the first entry,
leaves the second (shifted to position 0), and the key index stores
exactly position 0 afterwards. -/
theorem c10_remove_at_witness :
    ((Object.fromVec [(['a'], Value.null), (['b'], Value.bool true)]).len ≤ 2 ∧
      (Object.fromVec [(['a'], Value.null), (['b'], Value.bool true)]).removeAt 2
        = (none, Object.fromVec [(['a'], Value.null), (['b'], Value.bool true)])) ∧
    (0 < (Object.fromVec [(['a'], Value.null), (['b'], Value.bool true)]).len ∧
      ((Object.fromVec [(['a'], Value.null), (['b'], Value.bool true)]).removeAt 0).1
        = some (entryAt [(['a'], Value.null), (['b'], Value.bool true)] 0)) := by
  constructor
  · exact ⟨by decide,
      (c10_remove_at _ (ObjWf.fromVec _) 2).1 (by decide)⟩
  · exact ⟨by decide,
      ((c10_remove_at _ (ObjWf.fromVec _) 0).2 (by decide)).1⟩

/-- A bucket's member list is exactly the ascending list of in-range
positions holding its key. -/
theorem bucket_toList_eq_filter {o : Object} (h : ObjWf o) {b : Indexes}
    (hb : b ∈ o.indexes) :
    b.toList = (List.range o.entries.length).filter
      (fun j => keyAt o.entries j == keyAt o.entries b.rep) := by
  haveI : IsAntisymm Nat (· < ·) :=
    ⟨fun a b h1 h2 => absurd h2 (Nat.lt_asymm h1)⟩
  apply List.eq_of_perm_of_sorted ?_ (h.toList_pairwise hb)
    ((List.pairwise_lt_range _).filter _)
  rw [List.perm_ext_iff_of_nodup (h.toList_nodup hb)
    ((List.nodup_range _).filter _)]
  intro j
  rw [h.mem_toList_iff hb, List.mem_filter, List.mem_range, Finset.mem_range,
    beq_iff_eq]

/-- `Object::indexes_of` yields exactly the ascending positions whose key
matches. -/
theorem indexesOf_eq {o : Object} (h : ObjWf o) (key : List Char) :
    o.indexesOf key = (List.range o.entries.length).filter
      (fun j => keyAt o.entries j == key) := by
  unfold Object.indexesOf
  rcases hg : imGet o.entries o.indexes key with _ | b
  · symm
    simp only [List.filter_eq_nil_iff, List.mem_range, beq_iff_eq]
    intro j hj hk
    obtain ⟨b, hb, hjb⟩ := h.cover j (Finset.mem_range.mpr hj)
    have hkey := h.keyed b hb j hjb
    exact (imGet_none_iff.mp hg b hb) (hkey ▸ hk)
  · obtain ⟨hb, hkb⟩ := imGet_some_spec hg
    simp only
    rw [bucket_toList_eq_filter h hb, hkb]

/-- Claim C9: with the matching positions of `key` being the in-range
entry positions whose key equals `key` (in ascending order),
`Object::get_unique` and `Object::get_unique_entry` return `Ok(None)` when
there is no match, `Ok(Some(_))` holding the unique matching value
(respectively entry) when there is exactly one, and `Err` carrying the two
lowest-index matching entries when there are two or more.  Both operate on
the object by shared reference, so the object is unchanged. -/
theorem c9_get_unique (o : Object) (h : ObjWf o) (key : List Char) :
    ((List.range o.len).filter (fun j => keyAt o.entries j == key) = [] →
      o.getUnique key = .ok none ∧ o.getUniqueEntry key = .ok none) ∧
    (∀ i : Nat,
      (List.range o.len).filter (fun j => keyAt o.entries j == key) = [i] →
      o.getUnique key = .ok (some (entryAt o.entries i).2) ∧
      o.getUniqueEntry key = .ok (some (entryAt o.entries i))) ∧
    (∀ i₁ i₂ : Nat, ∀ rest : List Nat,
      (List.range o.len).filter (fun j => keyAt o.entries j == key)
          = i₁ :: i₂ :: rest →
      o.getUnique key = .error (entryAt o.entries i₁, entryAt o.entries i₂) ∧
      o.getUniqueEntry key
          = .error (entryAt o.entries i₁, entryAt o.entries i₂)) := by
  have hf : o.getEntries key = ((List.range o.len).filter
      (fun j => keyAt o.entries j == key)).map (entryAt o.entries) := by
    unfold Object.getEntries Object.len
    rw [indexesOf_eq h key]
  refine ⟨?_, ?_, ?_⟩
  · intro h0
    rw [h0, List.map_nil] at hf
    unfold Object.getUnique Object.getUniqueEntry
    rw [hf]
    exact ⟨rfl, rfl⟩
  · intro i h1
    rw [h1, List.map_cons, List.map_nil] at hf
    unfold Object.getUnique Object.getUniqueEntry
    rw [hf]
    exact ⟨rfl, rfl⟩
  · intro i₁ i₂ rest h2
    rw [h2, List.map_cons, List.map_cons] at hf
    unfold Object.getUnique Object.getUniqueEntry
    rw [hf]
    exact ⟨rfl, rfl⟩

/-- Witness: on the object built from entries `a: null`, `a: true`,
`b: null`, looking up `c` finds nothing, looking up `b` finds the unique
entry at position 2, and looking up `a` reports the duplicate entries at
positions 0 and 1. -/
theorem c9_get_unique_witness :
    ((Object.fromVec [(['a'], .null), (['a'], .bool true), (['b'], .null)]).getUnique
        ['c'] = .ok none) ∧
    ((Object.fromVec [(['a'], .null), (['a'], .bool true), (['b'], .null)]).getUniqueEntry
        ['b'] = .ok (some (['b'], .null))) ∧
    ((Object.fromVec [(['a'], .null), (['a'], .bool true), (['b'], .null)]).getUnique
        ['a'] = .error ((['a'], .null), (['a'], .bool true))) := by
  refine ⟨?_, ?_, ?_⟩
  · exact ((c9_get_unique _ (ObjWf.fromVec _) ['c']).1 (by decide)).1
  · exact ((c9_get_unique _ (ObjWf.fromVec _) ['b']).2.1 2 (by decide)).2
  · exact ((c9_get_unique _ (ObjWf.fromVec _) ['a']).2.2 0 1 [] (by decide)).1

/-- Claim C5: the key-index invariants hold after every mutating object
operation.  `ObjWf` packages I1 (coverage), I3 (representative
minimality), I4 (ascending redundant lists) and the key consistency of the
buckets; I2 (buckets non-empty) holds by construction of the member list,
I5 (counting) follows from `ObjWf` (`IdxInv.card_eq`), and I6 (removal
shifts greater stored indices down) is the last conjunct. -/
theorem c5_mutation_invariants (o : Object) (h : ObjWf o) (k : List Char)
    (v : Value) (e : ObjEntry) (i : Nat) :
    ObjWf (o.push k v).1 ∧
    ObjWf (o.pushEntry e).1 ∧
    ObjWf (o.pushFront k v).1 ∧
    ObjWf (o.pushEntryFront e).1 ∧
    ObjWf (o.insertDrained k v).2 ∧
    ObjWf (o.insertFrontDrained k v).2 ∧
    ObjWf (o.removeDrained k).2 ∧
    ObjWf (o.removeAt i).2 ∧
    ObjWf (o.removeUnique k).2 ∧
    ObjWf o.sortOp ∧
    (∀ p : Object, ObjWf p → ∀ b ∈ p.indexes, b.toList ≠ []) ∧
    (∀ p : Object, ObjWf p →
      p.len = (p.indexes.map Indexes.len).sum) ∧
    (i < o.len → ∀ j : Nat, storedIn (o.removeAt i).2.indexes j ↔
      (j < i ∧ storedIn o.indexes j) ∨
        (i ≤ j ∧ storedIn o.indexes (j + 1))) := by
  refine ⟨h.pushEntry (k, v), h.pushEntry e, h.pushEntryFront (k, v),
    h.pushEntryFront e, insertDrained_wf h k v, insertFrontDrained_wf h k v,
    removeDrained_wf h k, h.removeAt i, removeUnique_wf h k, ObjWf.sortOp o,
    ?_, ?_, fun hi => removeAt_storedIn h hi⟩
  · intro p _ b _
    simp [Indexes.toList]
  · intro p hp
    have := hp.card_eq
    rwa [Finset.card_range] at this

/-- Witness: the invariant conjunction instantiated on the two-entry
object `a: null`, `b: true` with the operations applied at key `a`,
value `null`, entry `(a, null)` and index 0. -/
theorem c5_mutation_invariants_witness :
    ObjWf ((Object.fromVec [(['a'], .null), (['b'], .bool true)]).push
      ['a'] .null).1 ∧
    ObjWf ((Object.fromVec [(['a'], .null), (['b'], .bool true)]).removeAt 0).2 ∧
    ObjWf (Object.fromVec [(['a'], .null), (['b'], .bool true)]).sortOp := by
  have hc := c5_mutation_invariants
    (Object.fromVec [(['a'], .null), (['b'], .bool true)])
    (ObjWf.fromVec _) ['a'] .null (['a'], .null) 0
  exact ⟨hc.1, hc.2.2.2.2.2.2.2.1, hc.2.2.2.2.2.2.2.2.2.1⟩

/-- Modelled from the spec: equality of two entry lists "as multisets of
(key, unordered-equal value) entries", i.e. a multiset matching pairing
each entry of one side with a distinct entry of the other sharing its key
and an unordered-equal value. -/
def entriesMultisetEq (a b : List ObjEntry) : Prop :=
  Multiset.Rel (fun e e' => e.1 = e'.1 ∧ valueUEq e.2 e'.2 = true)
    (a : Multiset ObjEntry) (b : Multiset ObjEntry)

/-- Counting respects a multiset matching whenever the matched sides agree
on the predicate. -/
theorem rel_countP_eq {α : Type} {r : α → α → Prop} {p : α → Prop}
    [DecidablePred p] :
    ∀ {s t : Multiset α}, Multiset.Rel r s t →
      (∀ a ∈ s, ∀ b, r a b → (p a ↔ p b)) →
      Multiset.countP p s = Multiset.countP p t := by
  intro s t hr
  induction hr with
  | zero => intro _; rfl
  | @cons a b s' t' hab hst ih =>
    intro hpq
    rw [Multiset.countP_cons, Multiset.countP_cons]
    have h1 := hpq a (Multiset.mem_cons_self a s') b hab
    have h2 := ih fun a' ha' b' hb' =>
      hpq a' (Multiset.mem_cons_of_mem ha') b' hb'
    by_cases hpa : p a
    · rw [if_pos hpa, if_pos (h1.mp hpa), h2]
    · rw [if_neg hpa, if_neg (fun hpb => hpa (h1.mpr hpb)), h2]

/-- Unordered equality with a number forces the same number. -/
theorem valueUEq_num_iff (s : List Char) (v : Value) :
    valueUEq (.num s) v = true ↔ v = .num s := by
  cases v <;> simp [valueUEq]
  exact eq_comm

/-- The object `{"k": 1, "k": 1, "k": 2}`. -/
def c6A : Object :=
  Object.fromVec [(['k'], .num ['1']), (['k'], .num ['1']), (['k'], .num ['2'])]

/-- The object `{"k": 1, "k": 2, "k": 2}`. -/
def c6B : Object :=
  Object.fromVec [(['k'], .num ['1']), (['k'], .num ['2']), (['k'], .num ['2'])]

/-- Counterexample to claim C6: `unordered_eq` accepts two objects whose
entry multisets differ — `{"k": 1, "k": 1, "k": 2}` and
`{"k": 1, "k": 2, "k": 2}` — because both directional checks are mere
forall-exists conditions, so duplicate multiplicities are not respected. -/
theorem c6_counterexample :
    Object.unorderedEq c6A c6B = true ∧
      ¬ entriesMultisetEq c6A.entries c6B.entries := by
  constructor
  · have hBk : c6B.getEntries ['k']
        = [(['k'], .num ['1']), (['k'], .num ['2']), (['k'], .num ['2'])] :=
      rfl
    have hAk : c6A.getEntries ['k']
        = [(['k'], .num ['1']), (['k'], .num ['1']), (['k'], .num ['2'])] :=
      rfl
    have hA : c6A.entries
        = [(['k'], .num ['1']), (['k'], .num ['1']), (['k'], .num ['2'])] :=
      rfl
    have hB : c6B.entries
        = [(['k'], .num ['1']), (['k'], .num ['2']), (['k'], .num ['2'])] :=
      rfl
    have hdup : imContainsDuplicateKeys c6A.indexes = true := rfl
    unfold Object.unorderedEq
    rw [hA, hB]
    simp only [List.all_cons, List.all_nil, hBk, hAk, hdup, valueUEq,
      List.any_cons, List.any_nil]
    decide
  · intro hr
    have hcount := rel_countP_eq hr
      (p := fun e : ObjEntry => valueUEq (.num ['1']) e.2 = true) ?_
    · rw [Multiset.coe_countP, Multiset.coe_countP] at hcount
      have hA : c6A.entries
          = [(['k'], .num ['1']), (['k'], .num ['1']), (['k'], .num ['2'])] :=
        rfl
      have hB : c6B.entries
          = [(['k'], .num ['1']), (['k'], .num ['2']), (['k'], .num ['2'])] :=
        rfl
      rw [hA, hB] at hcount
      simp only [List.countP_cons, List.countP_nil, valueUEq] at hcount
      revert hcount
      decide
    · rintro a ha b ⟨hk, hv⟩
      rw [Multiset.mem_coe] at ha
      have hA : c6A.entries
          = [(['k'], .num ['1']), (['k'], .num ['1']), (['k'], .num ['2'])] :=
        rfl
      rw [hA] at ha
      simp only [List.mem_cons, List.not_mem_nil, or_false] at ha
      rcases ha with rfl | rfl | rfl <;>
        simp only at hv ⊢ <;>
        rw [valueUEq_num_iff] at hv <;>
        rw [hv]

/-- Membership in the entry list returned for a key. -/
theorem mem_getEntries_iff {o : Object} (h : ObjWf o) (key : List Char)
    (e : ObjEntry) :
    e ∈ o.getEntries key ↔ e ∈ o.entries ∧ e.1 = key := by
  unfold Object.getEntries
  rw [indexesOf_eq h key]
  simp only [List.mem_map, List.mem_filter, List.mem_range, beq_iff_eq]
  constructor
  · rintro ⟨j, ⟨hj, hk⟩, rfl⟩
    unfold entryAt keyAt at *
    rw [List.getElem?_eq_getElem hj] at hk ⊢
    exact ⟨List.getElem_mem _, hk⟩
  · rintro ⟨he, hk⟩
    obtain ⟨j, hj, hget⟩ := List.mem_iff_getElem.mp he
    refine ⟨j, ⟨hj, ?_⟩, ?_⟩
    · unfold keyAt
      rw [List.getElem?_eq_getElem hj, hget]
      exact hk
    · unfold entryAt
      rw [List.getElem?_eq_getElem hj, hget]
      rfl

/-- The value-side `any` over the entries of a key, right-hand bound
variable. -/
theorem any_getEntries_iff {o : Object} (h : ObjWf o) (key : List Char)
    (v : Value) :
    ((o.getEntries key).any fun e' => valueUEq v e'.2) = true ↔
      ∃ e' ∈ o.entries, e'.1 = key ∧ valueUEq v e'.2 = true := by
  rw [List.any_eq_true]
  constructor
  · rintro ⟨e', he', hv⟩
    obtain ⟨hm, hk⟩ := (mem_getEntries_iff h key e').mp he'
    exact ⟨e', hm, hk, hv⟩
  · rintro ⟨e', hm, hk, hv⟩
    exact ⟨e', (mem_getEntries_iff h key e').mpr ⟨hm, hk⟩, hv⟩

/-- The value-side `any` over the entries of a key, left-hand bound
variable. -/
theorem any_getEntries_iff_left {o : Object} (h : ObjWf o) (key : List Char)
    (v : Value) :
    ((o.getEntries key).any fun e => valueUEq e.2 v) = true ↔
      ∃ e ∈ o.entries, e.1 = key ∧ valueUEq e.2 v = true := by
  rw [List.any_eq_true]
  constructor
  · rintro ⟨e, he, hv⟩
    obtain ⟨hm, hk⟩ := (mem_getEntries_iff h key e).mp he
    exact ⟨e, hm, hk, hv⟩
  · rintro ⟨e, hm, hk, hv⟩
    exact ⟨e, (mem_getEntries_iff h key e).mpr ⟨hm, hk⟩, hv⟩

/-- Corrected claim C6: `unordered_eq` is exactly the directional
forall-exists check — equal length, every entry of `a` key-and-value
matched by some entry of `b`, and, only when `a`'s index records
duplicate keys, every entry of `b` matched by some entry of `a`.  Entry
multiplicities are not compared (see the counterexample). -/
theorem c6_unordered_eq_characterization (a b : Object) (ha : ObjWf a)
    (hb : ObjWf b) :
    Object.unorderedEq a b = true ↔
      (a.entries.length = b.entries.length ∧
       (∀ e ∈ a.entries, ∃ e' ∈ b.entries,
         e'.1 = e.1 ∧ valueUEq e.2 e'.2 = true) ∧
       (a.containsDuplicateKeys = true →
         ∀ e' ∈ b.entries, ∃ e ∈ a.entries,
           e.1 = e'.1 ∧ valueUEq e.2 e'.2 = true)) := by
  have hforward : (a.entries.all fun e =>
      (b.getEntries e.1).any fun e' => valueUEq e.2 e'.2) = true ↔
      ∀ e ∈ a.entries, ∃ e' ∈ b.entries,
        e'.1 = e.1 ∧ valueUEq e.2 e'.2 = true := by
    rw [List.all_eq_true]
    constructor
    · intro hall e he
      exact (any_getEntries_iff hb e.1 e.2).mp (hall e he)
    · intro hall e he
      exact (any_getEntries_iff hb e.1 e.2).mpr (hall e he)
  have hbackward : (b.entries.all fun e' =>
      (a.getEntries e'.1).any fun e => valueUEq e.2 e'.2) = true ↔
      ∀ e' ∈ b.entries, ∃ e ∈ a.entries,
        e.1 = e'.1 ∧ valueUEq e.2 e'.2 = true := by
    rw [List.all_eq_true]
    constructor
    · intro hall e' he'
      exact (any_getEntries_iff_left ha e'.1 e'.2).mp (hall e' he')
    · intro hall e' he'
      exact (any_getEntries_iff_left ha e'.1 e'.2).mpr (hall e' he')
  unfold Object.unorderedEq Object.containsDuplicateKeys
  split
  · next hne =>
    rw [bne_iff_ne] at hne
    simp only [Bool.false_eq_true, false_iff]
    rintro ⟨hlen, _⟩
    exact hne hlen
  · next hne =>
    rw [bne_iff_ne] at hne
    push_neg at hne
    split
    · next hnall =>
      rw [Bool.not_eq_true'] at hnall
      simp only [Bool.false_eq_true, false_iff]
      rintro ⟨_, hfwd, _⟩
      have := hforward.mpr hfwd
      rw [hnall] at this
      exact absurd this (by decide)
    · next hnall =>
      have hall : (a.entries.all fun e =>
          (b.getEntries e.1).any fun e' => valueUEq e.2 e'.2) = true := by
        revert hnall
        rcases (a.entries.all fun e =>
            (b.getEntries e.1).any fun e' => valueUEq e.2 e'.2) with _ | _
        · intro hc; exact absurd rfl hc
        · intro _; rfl
      split
      · next hdup =>
        rw [Bool.and_eq_true, Bool.not_eq_true'] at hdup
        obtain ⟨hd, hba⟩ := hdup
        simp only [Bool.false_eq_true, false_iff]
        rintro ⟨_, _, hbk⟩
        have := hbackward.mpr (hbk hd)
        rw [hba] at this
        exact absurd this (by decide)
      · next hdup =>
        have hrev : imContainsDuplicateKeys a.indexes = true →
            (b.entries.all fun e' =>
              (a.getEntries e'.1).any fun e => valueUEq e.2 e'.2) = true := by
          intro hd
          rcases hbb : (b.entries.all fun e' =>
              (a.getEntries e'.1).any fun e => valueUEq e.2 e'.2) with _ | _
          · refine absurd (show (imContainsDuplicateKeys a.indexes &&
                !(b.entries.all fun e' =>
                  (a.getEntries e'.1).any fun e => valueUEq e.2 e'.2))
                  = true from ?_) hdup
            rw [Bool.and_eq_true, Bool.not_eq_true']
            exact ⟨hd, hbb⟩
          · rfl
        constructor
        · intro _
          exact ⟨hne, hforward.mp hall, fun hd => hbackward.mp (hrev hd)⟩
        · intro _
          rfl

/-- Witness: the amended characterization instantiated on the one-entry
object `x: null` compared with itself. -/
theorem c6_unordered_eq_characterization_witness :
    Object.unorderedEq (Object.fromVec [(['x'], .null)])
      (Object.fromVec [(['x'], .null)]) = true := by
  refine (c6_unordered_eq_characterization _ _ (ObjWf.fromVec _)
    (ObjWf.fromVec _)).mpr ⟨rfl, ?_, ?_⟩
  · intro e he
    simp only [Object.fromVec, List.mem_cons, List.not_mem_nil,
      or_false] at he
    subst he
    exact ⟨(['x'], .null), by simp [Object.fromVec], rfl, by simp [valueUEq]⟩
  · intro hd
    exact absurd hd (by decide)

/-! ### Traversal (claim C4)

`FragmentRef`, `SubFragments` and the `Traverse` iterator are
src/src/lib.rs.  The iterator's stack is modelled head-first: `Vec::pop`
takes the head, and `extend` over the sub-fragment iterator pushes the
yielded fragments one by one, leaving them on the stack in reverse
order. -/

/-- `FragmentRef` (src/src/lib.rs): a value, an object entry, or a key. -/
inductive Fragment where
  | value (v : Value)
  | entry (k : List Char) (v : Value)
  | key (k : List Char)

/-- `FragmentRef::sub_fragments` (src/src/lib.rs), materialised as the
list the `SubFragments` iterator yields: array items, object entries, or
an entry's key then value. -/
def subFragments : Fragment → List Fragment
  | .value (.arr items) => items.map .value
  | .value (.obj entries) => entries.map fun e => .entry e.1 e.2
  | .entry k v => [.key k, .value v]
  | _ => []

/-- `Traverse::next` iterated to completion: pop the top fragment, push
its sub-fragments (the last yielded sub-fragment ends on top), and yield
the popped fragment.  The fuel bounds the number of iterations. -/
def traverseRun : List Fragment → Nat → List Fragment
  | _, 0 => []
  | [], _ + 1 => []
  | f :: rest, fuel + 1 =>
    f :: traverseRun ((subFragments f).reverse ++ rest) fuel

/-- `Value::traverse` (src/src/lib.rs): the stack starts holding the root
value. -/
def Value.traverse (v : Value) (fuel : Nat) : List Fragment :=
  traverseRun [.value v] fuel

mutual

/-- Modelled from the spec: the depth-first pre-order fragment sequence —
each value before its contents, array items left to right, object entries
in insertion order, each entry followed by its key and then its value. -/
def preorderValue : Value → List Fragment
  | .arr items => .value (.arr items) :: preorderList items
  | .obj entries => .value (.obj entries) :: preorderEntries entries
  | v => [.value v]
termination_by v => (sizeOf v, 0)
decreasing_by all_goals (simp_wf; try omega)

/-- Pre-order of array items, left to right. -/
def preorderList : List Value → List Fragment
  | [] => []
  | v :: vs => preorderValue v ++ preorderList vs
termination_by l => (sizeOf l, 0)
decreasing_by all_goals (simp_wf; try omega)

/-- Pre-order of object entries in insertion order: entry, key, value. -/
def preorderEntries : List ObjEntry → List Fragment
  | [] => []
  | (k, v) :: es =>
    .entry k v :: .key k :: (preorderValue v ++ preorderEntries es)
termination_by l => (sizeOf l, 0)
decreasing_by all_goals (simp_wf; try omega)

end

mutual

/-- The order the `Traverse` iterator actually realises: each value
before its contents, array items right to left. -/
def revPreorderValue : Value → List Fragment
  | .arr items => .value (.arr items) :: revPreorderList items
  | .obj entries => .value (.obj entries) :: revPreorderEntries entries
  | v => [.value v]
termination_by v => (sizeOf v, 0)
decreasing_by all_goals (simp_wf; try omega)

/-- Array items, last item's subtree first. -/
def revPreorderList : List Value → List Fragment
  | [] => []
  | v :: vs => revPreorderList vs ++ revPreorderValue v
termination_by l => (sizeOf l, 0)
decreasing_by all_goals (simp_wf; try omega)

/-- Object entries, last entry's subtree first; within an entry the value
subtree precedes the key. -/
def revPreorderEntries : List ObjEntry → List Fragment
  | [] => []
  | (k, v) :: es =>
    revPreorderEntries es ++ (.entry k v :: (revPreorderValue v ++ [.key k]))
termination_by l => (sizeOf l, 0)
decreasing_by all_goals (simp_wf; try omega)

end

/-- The realised order of an arbitrary stacked fragment. -/
def revPreorderFrag : Fragment → List Fragment
  | .value v => revPreorderValue v
  | .entry k v => .entry k v :: (revPreorderValue v ++ [.key k])
  | .key k => [.key k]

/-- Flattened realised order of the reversed array-item fragments. -/
theorem revPreorderList_aux (items : List Value) :
    (((items.map Fragment.value).reverse.map revPreorderFrag)).flatten
      = revPreorderList items := by
  induction items with
  | nil => simp [revPreorderList]
  | cons v vs ih =>
    simp only [List.map_cons, List.reverse_cons, List.map_append,
      List.flatten_append, ih, revPreorderList]
    simp [revPreorderFrag]

/-- Flattened realised order of the reversed object-entry fragments. -/
theorem revPreorderEntries_aux (entries : List ObjEntry) :
    (((entries.map fun e => Fragment.entry e.1 e.2).reverse.map
        revPreorderFrag)).flatten
      = revPreorderEntries entries := by
  induction entries with
  | nil => simp [revPreorderEntries]
  | cons e es ih =>
    simp only [List.map_cons, List.reverse_cons, List.map_append,
      List.flatten_append, ih]
    rcases e with ⟨k, v⟩
    simp [revPreorderFrag, revPreorderEntries]

/-- A fragment's realised order is itself followed by the realised orders
of its reversed sub-fragments. -/
theorem revPreorderFrag_expand (f : Fragment) :
    revPreorderFrag f
      = f :: ((subFragments f).reverse.map revPreorderFrag).flatten := by
  rcases f with v | ⟨k, v⟩ | k
  · rcases v with _ | b | s | s | items | entries <;>
      simp only [revPreorderFrag, subFragments, revPreorderValue,
        List.reverse_nil, List.map_nil, List.flatten_nil,
        revPreorderList_aux, revPreorderEntries_aux]
  · simp [revPreorderFrag, subFragments]
  · simp [revPreorderFrag, subFragments]

/-- With enough fuel, the iterated `Traverse` step yields the realised
orders of the stacked fragments in stack order. -/
theorem traverseRun_eq (fuel : Nat) :
    ∀ stack : List Fragment,
      ((stack.map revPreorderFrag).flatten).length ≤ fuel →
      traverseRun stack fuel = (stack.map revPreorderFrag).flatten := by
  induction fuel with
  | zero =>
    intro stack h
    rcases stack with _ | ⟨f, rest⟩
    · rfl
    · exfalso
      simp only [List.map_cons, List.flatten_cons, List.length_append,
        Nat.le_zero, Nat.add_eq_zero] at h
      have := revPreorderFrag_expand f
      rw [List.length_eq_zero] at h
      rw [h.1] at this
      exact List.cons_ne_nil _ _ this.symm
  | succ fuel ih =>
    intro stack h
    rcases stack with _ | ⟨f, rest⟩
    · rfl
    · unfold traverseRun
      rw [ih ((subFragments f).reverse ++ rest) ?_]
      · rw [List.map_cons, List.flatten_cons, List.map_append,
          List.flatten_append, revPreorderFrag_expand f]
        rfl
      · rw [List.map_cons, List.flatten_cons, revPreorderFrag_expand f,
          List.length_append, List.length_cons] at h
        rw [List.map_append, List.flatten_append, List.length_append]
        omega

/-- Corrected claim C4: with enough fuel (any bound at least the fragment
count), `traverse()` yields the root first and then each fragment's
sub-fragments in reverse order — an array's items from last to first, an
object's entries from last to first, and an entry's value subtree before
its key. -/
theorem c4_traverse_reversed (v : Value) (fuel : Nat)
    (h : (revPreorderValue v).length ≤ fuel) :
    v.traverse fuel = revPreorderValue v := by
  have := traverseRun_eq fuel [.value v]
    (by simpa [revPreorderFrag] using h)
  simpa [Value.traverse, revPreorderFrag] using this

/-- Witness: the traversal of `[1, 2]` with fuel 3. -/
theorem c4_traverse_reversed_witness :
    Value.traverse (.arr [.num ['1'], .num ['2']]) 3
      = revPreorderValue (.arr [.num ['1'], .num ['2']]) := by
  refine c4_traverse_reversed (.arr [.num ['1'], .num ['2']]) 3 ?_
  simp [revPreorderValue, revPreorderList]

/-- Counterexample to claim C4: traversing `[1, 2]` yields the array, then
the item `2`, then the item `1` — but the code-map / depth-first pre-order
puts `1` at offset 1, so the fragment yielded at offset 1 disagrees with
the code-map entry at offset 1. -/
theorem c4_counterexample :
    Value.traverse (.arr [.num ['1'], .num ['2']]) 3
        = [.value (.arr [.num ['1'], .num ['2']]),
           .value (.num ['2']), .value (.num ['1'])] ∧
    preorderValue (.arr [.num ['1'], .num ['2']])
        = [.value (.arr [.num ['1'], .num ['2']]),
           .value (.num ['1']), .value (.num ['2'])] ∧
    (Value.traverse (.arr [.num ['1'], .num ['2']]) 3)[1]?
        ≠ (preorderValue (.arr [.num ['1'], .num ['2']]))[1]? := by
  refine ⟨rfl, ?_, ?_⟩
  · simp [preorderValue, preorderList]
  · intro hcontra
    rw [show (Value.traverse (.arr [.num ['1'], .num ['2']]) 3)[1]?
        = some (.value (.num ['2'])) from rfl] at hcontra
    have h2 : (preorderValue (.arr [.num ['1'], .num ['2']]))[1]?
        = some (.value (.num ['1'])) := by
      simp [preorderValue, preorderList]
    rw [h2] at hcontra
    simp at hcontra

/-! ### The parser (src/src/parse.rs and src/src/parse/ *.rs)

The embedding instantiates the `Parse` machinery as `Value::parse_str_with`
does: the character stream is the UTF-8 decoded stream of the document (an
infallible stream, so `Error::Stream` cannot arise), and the metadata
builder is the identity on spans, so all metadata is a byte `Span`.  Each
`Parser` method becomes a state-passing function over `PState`; every loop
recurses structurally on the remaining input. -/

/-- Parser options (src/src/parse.rs `Options`). -/
structure ParseOptions where
  accept_truncated_surrogate_pair : Bool
  accept_invalid_codepoints : Bool
deriving DecidableEq, Repr

/-- `Options::strict`. -/
def ParseOptions.strict : ParseOptions := ⟨false, false⟩

/-- `Options::flexible`. -/
def ParseOptions.flexible : ParseOptions := ⟨true, true⟩

/-- Parser state: the remaining characters and the lexer position
(src/src/parse.rs `Parser` and `Position`): the running span and the span
of the last consumed character. -/
structure PState where
  input : List Char
  span : Span
  lastSpan : Span
deriving DecidableEq, Repr

/-- Parse error (src/src/parse.rs `Error`) with `Span` metadata.  The
survivor codepoints stored in the surrogate errors are below `2^16`, so
the `as u16` truncation in the source is the identity and they are kept
as plain naturals. -/
inductive PError where
  | unexpected (c : Option Char)
  | invalidUnicodeCodePoint (code : Nat)
  | missingLowSurrogate (high : Nat) (m : Span)
  | invalidLowSurrogate (high : Nat) (m : Span) (code : Nat)
deriving DecidableEq, Repr

/-- `Parser::next_char`: consume one character, pushing its UTF-8 length
onto the running span and resetting the last-character span. -/
def nextChar : PState → Option Char × PState
  | ⟨[], sp, lsp⟩ => (none, ⟨[], sp, lsp⟩)
  | ⟨c :: rest, sp, lsp⟩ =>
    (some c, ⟨rest, sp.push c.utf8Size, lsp.clear.push c.utf8Size⟩)

/-- `Parser::peek_char`. -/
def peekChar (st : PState) : Option Char := st.input.head?

/-- `is_whitespace` (src/src/parse.rs). -/
def is_whitespace (c : Char) : Bool :=
  c = ' ' || c = '\t' || c = '\r' || c = '\n'

/-- The loop of `Parser::skip_whitespaces`, structurally on the input. -/
def skipWhitespacesGo : List Char → Span → Span → PState
  | [], sp, lsp => ⟨[], sp.clear, lsp⟩
  | c :: rest, sp, lsp =>
    if is_whitespace c then
      skipWhitespacesGo rest (sp.push c.utf8Size) (lsp.clear.push c.utf8Size)
    else ⟨c :: rest, sp.clear, lsp⟩

/-- `Parser::skip_whitespaces`: consume whitespace, then clear the running
span. -/
def skipWhitespaces (st : PState) : PState :=
  skipWhitespacesGo st.input st.span st.lastSpan

/-- Parsing context (src/src/parse.rs `Context`). -/
inductive Context where
  | none
  | array
  | objectKey
  | objectValue
deriving DecidableEq, Repr

/-- `Context::follows` (src/src/parse.rs). -/
def Context.follows : Context → Char → Bool
  | .none, c => is_whitespace c
  | .array, c => is_whitespace c || c = ',' || c = ']'
  | .objectKey, c => is_whitespace c || c = ':'
  | .objectValue, c => is_whitespace c || c = ',' || c = '}'

/-- `Parser::skip_trailing_whitespaces`. -/
def skipTrailingWhitespaces (ctx : Context) (st : PState) :
    Except (PError × Span) PState :=
  let st := skipWhitespaces st
  match peekChar st with
  | some c =>
    if ctx.follows c then .ok st
    else .error (.unexpected (some c), st.lastSpan)
  | none => .ok st

/-- `Parse for ()` (src/src/parse/null.rs): the `null` keyword. -/
def parseNull (st : PState) : Except (PError × Span) (Span × PState) :=
  match nextChar st with
  | (some 'n', st) =>
    match nextChar st with
    | (some 'u', st) =>
      match nextChar st with
      | (some 'l', st) =>
        match nextChar st with
        | (some 'l', st) => .ok (st.span, st)
        | (u, st) => .error (.unexpected u, st.lastSpan)
      | (u, st) => .error (.unexpected u, st.lastSpan)
    | (u, st) => .error (.unexpected u, st.lastSpan)
  | (u, st) => .error (.unexpected u, st.lastSpan)

/-- `Parse for bool` (src/src/parse/boolean.rs): `true` or `false`. -/
def parseBool (st : PState) : Except (PError × Span) (Bool × Span × PState) :=
  match nextChar st with
  | (some 't', st) =>
    match nextChar st with
    | (some 'r', st) =>
      match nextChar st with
      | (some 'u', st) =>
        match nextChar st with
        | (some 'e', st) => .ok (true, st.span, st)
        | (u, st) => .error (.unexpected u, st.lastSpan)
      | (u, st) => .error (.unexpected u, st.lastSpan)
    | (u, st) => .error (.unexpected u, st.lastSpan)
  | (some 'f', st) =>
    match nextChar st with
    | (some 'a', st) =>
      match nextChar st with
      | (some 'l', st) =>
        match nextChar st with
        | (some 's', st) =>
          match nextChar st with
          | (some 'e', st) => .ok (false, st.span, st)
          | (u, st) => .error (.unexpected u, st.lastSpan)
        | (u, st) => .error (.unexpected u, st.lastSpan)
      | (u, st) => .error (.unexpected u, st.lastSpan)
    | (u, st) => .error (.unexpected u, st.lastSpan)
  | (u, st) => .error (.unexpected u, st.lastSpan)

/-- The states of the number automaton (src/src/parse/number.rs
`State`). -/
inductive NumState where
  | init
  | firstDigit
  | zero
  | nonZero
  | fractionalFirst
  | fractionalRest
  | exponentSign
  | exponentFirst
  | exponentRest
deriving DecidableEq, Repr

/-- One automaton action: shift to a state, break out of the loop, or
fail. -/
inductive NumAct where
  | go (s : NumState)
  | brk
  | err
deriving DecidableEq, Repr

/-- The transition table of the number automaton: the per-state `match` of
src/src/parse/number.rs. -/
def numStep (state : NumState) (c : Char) (ctx : Context) : NumAct :=
  match state with
  | .init =>
    if c = '-' then .go .firstDigit
    else if c = '0' then .go .zero
    else if '1' ≤ c ∧ c ≤ '9' then .go .nonZero
    else .err
  | .firstDigit =>
    if c = '0' then .go .zero
    else if '1' ≤ c ∧ c ≤ '9' then .go .nonZero
    else .err
  | .zero =>
    if c = '.' then .go .fractionalFirst
    else if c = 'e' ∨ c = 'E' then .go .exponentSign
    else if ctx.follows c then .brk
    else .err
  | .nonZero =>
    if '0' ≤ c ∧ c ≤ '9' then .go .nonZero
    else if c = '.' then .go .fractionalFirst
    else if c = 'e' ∨ c = 'E' then .go .exponentSign
    else if ctx.follows c then .brk
    else .err
  | .fractionalFirst =>
    if '0' ≤ c ∧ c ≤ '9' then .go .fractionalRest
    else .err
  | .fractionalRest =>
    if '0' ≤ c ∧ c ≤ '9' then .go .fractionalRest
    else if c = 'e' ∨ c = 'E' then .go .exponentSign
    else if ctx.follows c then .brk
    else .err
  | .exponentSign =>
    if c = '+' ∨ c = '-' then .go .exponentFirst
    else if '0' ≤ c ∧ c ≤ '9' then .go .exponentRest
    else .err
  | .exponentFirst =>
    if '0' ≤ c ∧ c ≤ '9' then .go .exponentRest
    else .err
  | .exponentRest =>
    if '0' ≤ c ∧ c ≤ '9' then .go .exponentRest
    else if ctx.follows c then .brk
    else .err

/-- The final acceptance check of the number parser (`matches!(state,
Zero | NonZero | FractionalRest | ExponentRest)`). -/
def parseNumberFinish (state : NumState) (buffer : List Char)
    (st : PState) : Except (PError × Span) (List Char × Span × PState) :=
  match state with
  | .zero | .nonZero | .fractionalRest | .exponentRest =>
    .ok (buffer, st.span, st)
  | _ => .error (.unexpected none, st.lastSpan)

/-- The loop of the number parser, structurally on the input: peek, act on
the automaton, and on a shift push the character into the buffer and
consume it. -/
def parseNumberGo : List Char → NumState → List Char → Span → Span →
    Context → Except (PError × Span) (List Char × Span × PState)
  | [], state, buffer, sp, lsp, _ => parseNumberFinish state buffer ⟨[], sp, lsp⟩
  | c :: rest, state, buffer, sp, lsp, ctx =>
    match numStep state c ctx with
    | .go s =>
      parseNumberGo rest s (buffer ++ [c]) (sp.push c.utf8Size)
        (lsp.clear.push c.utf8Size) ctx
    | .brk => parseNumberFinish state buffer ⟨c :: rest, sp, lsp⟩
    | .err => .error (.unexpected (some c), lsp)

/-- `Parse for NumberBuf` (src/src/parse/number.rs): the number buffer is
built by pushing every accepted character verbatim. -/
def parseNumber (ctx : Context) (st : PState) :
    Except (PError × Span) (List Char × Span × PState) :=
  parseNumberGo st.input .init [] st.span st.lastSpan ctx

/-- `char::from_u32`: valid scalar values only. -/
def charFromU32 (n : Nat) : Option Char :=
  if n < 0xd800 ∨ (0xdfff < n ∧ n < 0x110000) then some (Char.ofNat n)
  else none

/-- `is_control` (src/src/parse/string.rs). -/
def is_control (c : Char) : Bool := c ≤ '\x1f'

/-- The value of a hexadecimal digit (`char::to_digit(16)`). -/
def hexVal? (c : Char) : Option Nat :=
  let n := c.toNat
  if '0' ≤ c ∧ c ≤ '9' then some (n - 0x30)
  else if 'a' ≤ c ∧ c ≤ 'f' then some (n - 0x61 + 10)
  else if 'A' ≤ c ∧ c ≤ 'F' then some (n - 0x41 + 10)
  else none

/-- The seven single-character escapes of the string grammar
(`\"`, `\\`, `\/`, `\b`, `\t`, `\n`, `\f`, `\r`). -/
def escDecode (e : Char) : Option Char :=
  if e = '"' ∨ e = '\\' ∨ e = '/' then some e
  else if e = 'b' then some '\x08'
  else if e = 't' then some '\x09'
  else if e = 'n' then some '\x0a'
  else if e = 'f' then some '\x0c'
  else if e = 'r' then some '\x0d'
  else none

/-- `parse_hex4` (src/src/parse/string.rs): reads four hexadecimal
digits, returning the code point together with the remaining input, the
running span and the last-character span after the digits. -/
def parse_hex4 :
    List Char → Span → Span →
    Except (PError × Span) (Nat × List Char × Span × Span)
  | [], _, lsp => .error (.unexpected none, lsp)
  | d3 :: r3, sp, lsp =>
    let sp3 := sp.push d3.utf8Size
    let lsp3 := lsp.clear.push d3.utf8Size
    match hexVal? d3 with
    | none => .error (.unexpected (some d3), lsp3)
    | some h3 =>
      match r3 with
      | [] => .error (.unexpected none, lsp3)
      | d2 :: r2 =>
        let sp4 := sp3.push d2.utf8Size
        let lsp4 := lsp3.clear.push d2.utf8Size
        match hexVal? d2 with
        | none => .error (.unexpected (some d2), lsp4)
        | some h2 =>
          match r2 with
          | [] => .error (.unexpected none, lsp4)
          | d1 :: r1 =>
            let sp5 := sp4.push d1.utf8Size
            let lsp5 := lsp4.clear.push d1.utf8Size
            match hexVal? d1 with
            | none => .error (.unexpected (some d1), lsp5)
            | some h1 =>
              match r1 with
              | [] => .error (.unexpected none, lsp5)
              | d0 :: r0 =>
                let sp6 := sp5.push d0.utf8Size
                let lsp6 := lsp5.clear.push d0.utf8Size
                match hexVal? d0 with
                | none => .error (.unexpected (some d0), lsp6)
                | some h0 =>
                  .ok (h3 * 4096 + h2 * 256 + h1 * 16 + h0, r0, sp6, lsp6)

/-- Outcome of one escape sequence inside the string loop: the
characters to append, the new pending high surrogate, the remaining
input, and the updated running and last-character spans (the running
span is left uncleared exactly when a new high surrogate is
recorded). -/
structure EscStep where
  emit : List Char
  high : Option (Nat × Span)
  rest : List Char
  sp : Span
  lsp : Span

/-- The continuation of the string loop after a `\\uXXXX` escape whose
code point `cp` has been read by `parse_hex4` (the surrogate handling of
src/src/parse/string.rs). -/
def escHexCont (opts : ParseOptions) (high : Option (Nat × Span))
    (cp : Nat) (r0 : List Char) (sp6 lsp6 : Span) :
    Except (PError × Span) EscStep :=
  let cpSpan := sp6
  match high with
  | some (h, hsp) =>
    if 0xdc00 ≤ cp ∧ cp ≤ 0xdfff then
      let scalar := (h - 0xd800) * 1024 + (cp - 0xdc00) + 0x10000
      match charFromU32 scalar with
      | some c => .ok ⟨[c], none, r0, sp6.clear, lsp6⟩
      | none =>
        if opts.accept_invalid_codepoints then
          .ok ⟨['�'], none, r0, sp6.clear, lsp6⟩
        else
          .error (.invalidUnicodeCodePoint scalar, cpSpan.union hsp)
    else if opts.accept_truncated_surrogate_pair then
      match charFromU32 cp with
      | some c => .ok ⟨['�', c], none, r0, sp6.clear, lsp6⟩
      | none =>
        if opts.accept_invalid_codepoints then
          .ok ⟨['�', '�'], none, r0, sp6.clear, lsp6⟩
        else .error (.invalidUnicodeCodePoint cp, cpSpan)
    else .error (.invalidLowSurrogate h hsp cp, cpSpan)
  | none =>
    if 0xd800 ≤ cp ∧ cp ≤ 0xdbff then
      .ok ⟨[], some (cp, cpSpan), r0, sp6, lsp6⟩
    else
      match charFromU32 cp with
      | some c => .ok ⟨[c], none, r0, sp6.clear, lsp6⟩
      | none =>
        if opts.accept_invalid_codepoints then
          .ok ⟨['�'], none, r0, sp6.clear, lsp6⟩
        else .error (.invalidUnicodeCodePoint cp, cpSpan)

/-- The escape arm of the string loop (src/src/parse/string.rs):
decodes one escape sequence after the backslash has been consumed,
reporting what to append and where parsing resumes. -/
def parseEscape (opts : ParseOptions) (rest : List Char)
    (high : Option (Nat × Span)) (sp1 lsp1 : Span) :
    Except (PError × Span) EscStep :=
  match rest with
  | [] => .error (.unexpected none, lsp1)
  | e :: rest2 =>
    let sp2 := sp1.push e.utf8Size
    let lsp2 := lsp1.clear.push e.utf8Size
    match escDecode e with
    | some c =>
      match high with
      | some (h, hsp) =>
        if opts.accept_truncated_surrogate_pair then
          .ok ⟨['�', c], none, rest2, sp2.clear, lsp2⟩
        else .error (.missingLowSurrogate h hsp, sp2)
      | none => .ok ⟨[c], none, rest2, sp2.clear, lsp2⟩
    | none =>
      if e = 'u' then
        match parse_hex4 rest2 sp2 lsp2 with
        | .error er => .error er
        | .ok (cp, r0, sp6, lsp6) => escHexCont opts high cp r0 sp6 lsp6
      else .error (.unexpected (some e), lsp2)

/-- The loop of `Parse for SmallString` (src/src/parse/string.rs).
Arguments: an iteration bound (always called with a bound strictly
larger than the input length, which the loop preserves since every
iteration consumes at least one character), the remaining input, the
accumulated string, the pending high surrogate with its span, the span
saved before the loop, the running span, and the last-character
span. -/
def parseStringGo (opts : ParseOptions) :
    Nat → List Char → List Char → Option (Nat × Span) → Span → Span →
    Span → Except (PError × Span) (List Char × Span × PState)
  | 0, _, _, _, _, _, lsp => .error (.unexpected none, lsp)
  | _ + 1, [], _, _, _, _, lsp => .error (.unexpected none, lsp)
  | _ + 1, '"' :: rest, result, high, sp0, sp, lsp =>
    let sp1 := sp.push 1
    let lsp1 := lsp.clear.push 1
    match high with
    | some (h, hsp) =>
      if opts.accept_truncated_surrogate_pair then
        let spC := sp0.union sp1
        .ok (result ++ ['�'], spC, ⟨rest, spC, lsp1⟩)
      else .error (.missingLowSurrogate h hsp, sp1)
    | none =>
      let spC := sp0.union sp1
      .ok (result, spC, ⟨rest, spC, lsp1⟩)
  | fuel + 1, '\\' :: rest, result, high, sp0, sp, lsp =>
    match parseEscape opts rest high (sp.push 1) (lsp.clear.push 1) with
    | .error er => .error er
    | .ok s =>
      parseStringGo opts fuel s.rest (result ++ s.emit) s.high sp0 s.sp s.lsp
  | fuel + 1, c :: rest, result, high, sp0, sp, lsp =>
    let sp1 := sp.push c.utf8Size
    let lsp1 := lsp.clear.push c.utf8Size
    if is_control c then .error (.unexpected (some c), lsp1)
    else
      match high with
      | some (h, hsp) =>
        if opts.accept_truncated_surrogate_pair then
          parseStringGo opts fuel rest (result ++ ['�', c]) none sp0
            sp1.clear lsp1
        else .error (.missingLowSurrogate h hsp, sp1)
      | none =>
        parseStringGo opts fuel rest (result ++ [c]) none sp0 sp1.clear lsp1

/-- `Parse for SmallString` (src/src/parse/string.rs): a full string
literal, starting at the opening quote. -/
def parseString (opts : ParseOptions) (st : PState) :
    Except (PError × Span) (List Char × Span × PState) :=
  match nextChar st with
  | (some '"', st1) =>
    parseStringGo opts (st1.input.length + 1) st1.input [] none st1.span
      st1.span.clear st1.lastSpan
  | (u, st1) => .error (.unexpected u, st1.lastSpan)

/-- `array::StartFragment` (src/src/parse/array.rs). -/
inductive ArrayStart where
  | empty
  | nonEmpty
deriving DecidableEq, Repr

/-- `array::StartFragment::parse_spanned` (src/src/parse/array.rs). -/
def parseArrayStart (st : PState) :
    Except (PError × Span) (ArrayStart × Span × PState) :=
  match nextChar st with
  | (some '[', st) =>
    let st := skipWhitespaces st
    match peekChar st with
    | some ']' =>
      let r := nextChar st
      .ok (.empty, r.2.span, r.2)
    | _ => .ok (.nonEmpty, st.span, st)
  | (u, st) => .error (.unexpected u, st.lastSpan)

/-- `array::ContinueFragment` (src/src/parse/array.rs); `End` is named
`close` (`end` is reserved). -/
inductive ArrayCont where
  | item
  | close
deriving DecidableEq, Repr

/-- `array::ContinueFragment::parse_spanned` (src/src/parse/array.rs). -/
def parseArrayCont (st : PState) :
    Except (PError × Span) (ArrayCont × Span × PState) :=
  match nextChar st with
  | (some ',', st) => .ok (.item, st.span, st)
  | (some ']', st) => .ok (.close, st.span, st)
  | (u, st) => .error (.unexpected u, st.lastSpan)

/-- `object::StartFragment` (src/src/parse/object.rs): the key carries its
metadata span. -/
inductive ObjectStart where
  | empty
  | nonEmpty (key : List Char) (kmeta : Span)
deriving DecidableEq, Repr

/-- `object::StartFragment::parse_spanned` (src/src/parse/object.rs). -/
def parseObjectStart (opts : ParseOptions) (st : PState) :
    Except (PError × Span) (ObjectStart × Span × PState) :=
  match nextChar st with
  | (some '{', st) =>
    let st := skipWhitespaces st
    match peekChar st with
    | some '}' =>
      let r := nextChar st
      .ok (.empty, r.2.span, r.2)
    | _ =>
      let sp0 := st.span
      let st := { st with span := st.span.clear }
      match parseString opts st with
      | .error e => .error e
      | .ok (key, kspan, st) =>
        let sp := sp0.union st.span
        let st := skipWhitespaces st
        match nextChar st with
        | (some ':', st) => .ok (.nonEmpty key kspan, sp, st)
        | (u, st) => .error (.unexpected u, st.lastSpan)
  | (u, st) => .error (.unexpected u, st.lastSpan)

/-- `object::ContinueFragment` (src/src/parse/object.rs); `End` is named
`close`. -/
inductive ObjectCont where
  | close
  | entry (key : List Char) (kmeta : Span)
deriving DecidableEq, Repr

/-- `object::ContinueFragment::parse_spanned` (src/src/parse/object.rs). -/
def parseObjectCont (opts : ParseOptions) (st : PState) :
    Except (PError × Span) (ObjectCont × Span × PState) :=
  match nextChar st with
  | (some ',', st) =>
    let sp0 := st.span
    let st := skipWhitespaces st
    match parseString opts st with
    | .error e => .error e
    | .ok (key, kspan, st) =>
      let sp := sp0.union st.span
      let st := skipWhitespaces st
      match nextChar st with
      | (some ':', st) => .ok (.entry key kspan, sp, st)
      | (u, st) => .error (.unexpected u, st.lastSpan)
  | (some '}', st) => .ok (.close, st.span, st)
  | (u, st) => .error (.unexpected u, st.lastSpan)

/-- `Fragment` (src/src/parse/value.rs): one parsing step's outcome. -/
inductive VFragment where
  | value (v : Value)
  | beginArray
  | beginObject (key : List Char) (kmeta : Span)

/-- `Fragment::parse_spanned` (src/src/parse/value.rs): dispatch on the
first non-whitespace character; complete values check their trailing
context. -/
def parseFragment (opts : ParseOptions) (ctx : Context) (st : PState) :
    Except (PError × Span) (VFragment × Span × PState) :=
  let st := skipWhitespaces st
  match peekChar st with
  | some c =>
    if c = 'n' then
      match parseNull st with
      | .error e => .error e
      | .ok (sp, st) =>
        match skipTrailingWhitespaces ctx st with
        | .error e => .error e
        | .ok st => .ok (.value .null, sp, st)
    else if c = 't' ∨ c = 'f' then
      match parseBool st with
      | .error e => .error e
      | .ok (b, sp, st) =>
        match skipTrailingWhitespaces ctx st with
        | .error e => .error e
        | .ok st => .ok (.value (.bool b), sp, st)
    else if ('0' ≤ c ∧ c ≤ '9') ∨ c = '-' then
      match parseNumber ctx st with
      | .error e => .error e
      | .ok (buf, sp, st) =>
        match skipTrailingWhitespaces ctx st with
        | .error e => .error e
        | .ok st => .ok (.value (.num buf), sp, st)
    else if c = '"' then
      match parseString opts st with
      | .error e => .error e
      | .ok (s, sp, st) =>
        match skipTrailingWhitespaces ctx st with
        | .error e => .error e
        | .ok st => .ok (.value (.str s), sp, st)
    else if c = '[' then
      match parseArrayStart st with
      | .error e => .error e
      | .ok (.empty, sp, st) =>
        match skipTrailingWhitespaces ctx st with
        | .error e => .error e
        | .ok st => .ok (.value (.arr []), sp, st)
      | .ok (.nonEmpty, sp, st) => .ok (.beginArray, sp, st)
    else if c = '{' then
      match parseObjectStart opts st with
      | .error e => .error e
      | .ok (.empty, sp, st) =>
        match skipTrailingWhitespaces ctx st with
        | .error e => .error e
        | .ok st => .ok (.value (.obj []), sp, st)
      | .ok (.nonEmpty k km, sp, st) => .ok (.beginObject k km, sp, st)
    else .error (.unexpected (some c), st.lastSpan)
  | none => .error (.unexpected none, st.lastSpan)

/-- `Item` — the stack elements of `Value::parse_spanned`
(src/src/parse/value.rs).  The crate stores per-item metadata inside the
generic `Value<M>`; the embedded `Value` is the stripped value, so stored
children drop their metadata while the spans driving the parse are kept
on the stack. -/
inductive PItem where
  | array (items : List Value) (sp : Span)
  | arrayItem (items : List Value) (sp : Span)
  | object (entries : List ObjEntry) (sp : Span)
  | objectEntry (entries : List ObjEntry) (sp : Span)
      (key : List Char) (kmeta : Span)

/-- `stack_context` (src/src/parse/value.rs); the head of the list is the
top of the stack. -/
def stackContext (stack : List PItem) (root : Context) : Context :=
  match stack with
  | .array _ _ :: _ => .array
  | .arrayItem _ _ :: _ => .array
  | .object _ _ :: _ => .objectKey
  | .objectEntry _ _ _ _ :: _ => .objectValue
  | [] => root

/-- `Fragment::value_or_parse` (src/src/parse.rs `ValueOrParse`). -/
def valueOrParse (opts : ParseOptions) (ctx : Context)
    (value : Option (Value × Span)) (st : PState) :
    Except (PError × Span) (VFragment × Span × PState) :=
  match value with
  | some (v, sp) => .ok (.value v, sp, st)
  | none => parseFragment opts ctx st

/-- The loop of `Value::parse_spanned` (src/src/parse/value.rs), one
iteration per fuel unit.  Exhausted fuel reports an unexpected end of
stream; every theorem supplies enough fuel for this not to arise. -/
def parseValueLoop (opts : ParseOptions) (root : Context) :
    Nat → List PItem → Option (Value × Span) → PState →
    Except (PError × Span) (Value × Span × PState)
  | 0, _, _, st => .error (.unexpected none, st.lastSpan)
  | fuel + 1, [], value, st =>
    match valueOrParse opts (stackContext [] root) value st with
    | .error e => .error e
    | .ok (.value v, sp, st) => .ok (v, sp, st)
    | .ok (.beginArray, sp, st) =>
      parseValueLoop opts root fuel [.arrayItem [] sp] none st
    | .ok (.beginObject k km, sp, st) =>
      parseValueLoop opts root fuel [.objectEntry [] sp k km] none st
  | fuel + 1, .array items sp :: rest, _, st =>
    match parseArrayCont st with
    | .error e => .error e
    | .ok (.item, commaSpan, st) =>
      parseValueLoop opts root fuel
        (.arrayItem items (sp.union commaSpan) :: rest) none st
    | .ok (.close, closingSpan, st) =>
      match skipTrailingWhitespaces (stackContext rest root) st with
      | .error e => .error e
      | .ok st =>
        parseValueLoop opts root fuel rest
          (some (.arr items, sp.union closingSpan)) st
  | fuel + 1, .arrayItem items sp :: rest, value, st =>
    match valueOrParse opts .array value st with
    | .error e => .error e
    | .ok (.value v, vsp, st) =>
      parseValueLoop opts root fuel
        (.array (items ++ [v]) (sp.union vsp) :: rest) none st
    | .ok (.beginArray, vsp, st) =>
      parseValueLoop opts root fuel
        (.arrayItem [] vsp :: .arrayItem items (sp.union vsp) :: rest)
        none st
    | .ok (.beginObject k km, vsp, st) =>
      parseValueLoop opts root fuel
        (.objectEntry [] vsp k km :: .arrayItem items (sp.union vsp) :: rest)
        none st
  | fuel + 1, .object entries sp :: rest, _, st =>
    match parseObjectCont opts st with
    | .error e => .error e
    | .ok (.entry k km, commaKeySpan, st) =>
      parseValueLoop opts root fuel
        (.objectEntry entries (sp.union commaKeySpan) k km :: rest) none st
    | .ok (.close, closingSpan, st) =>
      match skipTrailingWhitespaces (stackContext rest root) st with
      | .error e => .error e
      | .ok st =>
        parseValueLoop opts root fuel rest
          (some (.obj entries, sp.union closingSpan)) st
  | fuel + 1, .objectEntry entries sp k km :: rest, value, st =>
    match valueOrParse opts .objectValue value st with
    | .error e => .error e
    | .ok (.value v, vsp, st) =>
      parseValueLoop opts root fuel
        (.object (entries ++ [(k, v)]) (sp.union vsp) :: rest) none st
    | .ok (.beginArray, vsp, st) =>
      parseValueLoop opts root fuel
        (.arrayItem [] vsp :: .objectEntry entries (sp.union vsp) k km :: rest)
        none st
    | .ok (.beginObject k' km', vsp, st) =>
      parseValueLoop opts root fuel
        (.objectEntry [] vsp k' km' ::
          .objectEntry entries (sp.union vsp) k km :: rest)
        none st

/-- `Value::parse_spanned` with the given fuel. -/
def parseValueSpanned (opts : ParseOptions) (ctx : Context) (st : PState)
    (fuel : Nat) : Except (PError × Span) (Value × Span × PState) :=
  parseValueLoop opts ctx fuel [] none st

/-- `Value::parse_str_with` from the start of a document (context
`Context::None`, spans starting at zero). -/
def parseStr (opts : ParseOptions) (s : List Char) (fuel : Nat) :
    Except (PError × Span) (Value × Span) :=
  match parseValueSpanned opts .none ⟨s, ⟨0, 0⟩, ⟨0, 0⟩⟩ fuel with
  | .ok (v, sp, _) => .ok (v, sp)
  | .error e => .error e

/-- Counterexample to claim C7: in strict mode a high-surrogate escape
followed by a `\uXXXX` escape that is not a low surrogate fails with
`InvalidLowSurrogate`, not `MissingLowSurrogate` — here on the input
`"\uD834A"`. -/
theorem c7_counterexample :
    parseString .strict
      ⟨['"', '\\', 'u', 'D', '8', '3', '4', '\\', 'u', '0', '0', '4', '1', '"'],
        ⟨0, 0⟩, ⟨0, 0⟩⟩
      = .error (.invalidLowSurrogate 0xD834 ⟨1, 7⟩ 0x41, ⟨1, 13⟩) ∧
    ∀ h m e, parseString .strict
      ⟨['"', '\\', 'u', 'D', '8', '3', '4', '\\', 'u', '0', '0', '4', '1', '"'],
        ⟨0, 0⟩, ⟨0, 0⟩⟩ ≠ .error (.missingLowSurrogate h m, e) := by
  refine ⟨rfl, ?_⟩
  intro h m e hc
  rw [show parseString .strict
      ⟨['"', '\\', 'u', 'D', '8', '3', '4', '\\', 'u', '0', '0', '4', '1', '"'],
        ⟨0, 0⟩, ⟨0, 0⟩⟩
      = .error (.invalidLowSurrogate 0xD834 ⟨1, 7⟩ 0x41, ⟨1, 13⟩) from rfl]
    at hc
  simp at hc

/-- Corrected claim C7: with truncated pairs rejected, a pending high
surrogate fails with `MissingLowSurrogate` when followed by the closing
quote, an ordinary character or a short escape, fails with
`InvalidLowSurrogate` when followed by a `\uXXXX` escape holding a
non-low code point, and end of input fails with `Unexpected`; with
truncated pairs accepted a single U+FFFD is substituted and parsing
continues (all stated for every parser state).  Concretely, `"\uD834"`
strict-errors with `MissingLowSurrogate` and flexible-parses to U+FFFD,
`"𝄞"` strict-parses to U+1D11E, and in flexible mode a high
surrogate before an ordinary character substitutes one U+FFFD and
parsing continues. -/
theorem c7_surrogate_handling :
    (parseString .strict
      ⟨['"', '\\', 'u', 'D', '8', '3', '4', '"'], ⟨0, 0⟩, ⟨0, 0⟩⟩
      = .error (.missingLowSurrogate 0xD834 ⟨1, 7⟩, ⟨1, 8⟩)) ∧
    (parseString .flexible
      ⟨['"', '\\', 'u', 'D', '8', '3', '4', '"'], ⟨0, 0⟩, ⟨0, 0⟩⟩
      = .ok (['�'], ⟨0, 8⟩, ⟨[], ⟨0, 8⟩, ⟨7, 8⟩⟩)) ∧
    (parseString .strict
      ⟨['"', '\\', 'u', 'D', '8', '3', '4', '\\', 'u', 'D', 'D', '1', 'E', '"'],
        ⟨0, 0⟩, ⟨0, 0⟩⟩
      = .ok ([Char.ofNat 0x1D11E], ⟨0, 14⟩, ⟨[], ⟨0, 14⟩, ⟨13, 14⟩⟩)) ∧
    (parseString .flexible
      ⟨['"', '\\', 'u', 'D', '8', '3', '4', 'A', '"'], ⟨0, 0⟩, ⟨0, 0⟩⟩
      = .ok (['�', 'A'], ⟨0, 9⟩, ⟨[], ⟨0, 9⟩, ⟨8, 9⟩⟩)) ∧
    (∀ (o : ParseOptions) (fuel : Nat) (result : List Char) (h : Nat)
        (hsp sp0 sp lsp : Span) (rest : List Char),
      o.accept_truncated_surrogate_pair = false →
      parseStringGo o (fuel + 1) ('"' :: rest) result (some (h, hsp)) sp0 sp
          lsp
        = .error (.missingLowSurrogate h hsp, sp.push 1)) ∧
    (∀ (o : ParseOptions) (fuel : Nat) (result : List Char) (h : Nat)
        (hsp sp0 sp lsp : Span) (rest : List Char),
      o.accept_truncated_surrogate_pair = true →
      parseStringGo o (fuel + 1) ('"' :: rest) result (some (h, hsp)) sp0 sp
          lsp
        = .ok (result ++ ['�'], sp0.union (sp.push 1),
            ⟨rest, sp0.union (sp.push 1), lsp.clear.push 1⟩)) ∧
    (∀ (o : ParseOptions) (fuel : Nat) (result : List Char)
        (high : Option (Nat × Span)) (sp0 sp lsp : Span),
      parseStringGo o (fuel + 1) [] result high sp0 sp lsp
        = .error (.unexpected none, lsp)) ∧
    (∀ (o : ParseOptions) (fuel : Nat) (result : List Char)
        (high : Option (Nat × Span)) (sp0 sp lsp : Span),
      parseStringGo o (fuel + 1) ['\\'] result high sp0 sp lsp
        = .error (.unexpected none, lsp.clear.push 1)) ∧
    (∀ (o : ParseOptions) (fuel : Nat) (c : Char) (rest result : List Char)
        (h : Nat) (hsp sp0 sp lsp : Span),
      o.accept_truncated_surrogate_pair = false →
      is_control c = false → c ≠ '"' → c ≠ '\\' →
      parseStringGo o (fuel + 1) (c :: rest) result (some (h, hsp)) sp0 sp
          lsp
        = .error (.missingLowSurrogate h hsp, sp.push c.utf8Size)) ∧
    (∀ (o : ParseOptions) (fuel : Nat) (c : Char) (rest result : List Char)
        (h : Nat) (hsp sp0 sp lsp : Span),
      o.accept_truncated_surrogate_pair = true →
      is_control c = false → c ≠ '"' → c ≠ '\\' →
      parseStringGo o (fuel + 1) (c :: rest) result (some (h, hsp)) sp0 sp
          lsp
        = parseStringGo o fuel rest (result ++ ['�', c]) none sp0
            (sp.push c.utf8Size).clear (lsp.clear.push c.utf8Size)) ∧
    (∀ (o : ParseOptions) (fuel : Nat) (e c' : Char)
        (rest result : List Char) (h : Nat) (hsp sp0 sp lsp : Span),
      escDecode e = some c' →
      o.accept_truncated_surrogate_pair = false →
      parseStringGo o (fuel + 1) ('\\' :: e :: rest) result (some (h, hsp))
          sp0 sp lsp
        = .error (.missingLowSurrogate h hsp, (sp.push 1).push e.utf8Size)) ∧
    (∀ (o : ParseOptions) (fuel : Nat) (e c' : Char)
        (rest result : List Char) (h : Nat) (hsp sp0 sp lsp : Span),
      escDecode e = some c' →
      o.accept_truncated_surrogate_pair = true →
      parseStringGo o (fuel + 1) ('\\' :: e :: rest) result (some (h, hsp))
          sp0 sp lsp
        = parseStringGo o fuel rest (result ++ ['�', c']) none sp0
            ((sp.push 1).push e.utf8Size).clear
            ((lsp.clear.push 1).clear.push e.utf8Size)) ∧
    (∀ (o : ParseOptions) (fuel : Nat) (rest2 : List Char) (cp : Nat)
        (r0 : List Char) (sp6 lsp6 : Span) (result : List Char) (h : Nat)
        (hsp sp0 sp lsp : Span),
      parse_hex4 rest2 ((sp.push 1).push 1)
          ((lsp.clear.push 1).clear.push 1) = .ok (cp, r0, sp6, lsp6) →
      ¬(0xdc00 ≤ cp ∧ cp ≤ 0xdfff) →
      o.accept_truncated_surrogate_pair = false →
      parseStringGo o (fuel + 1) ('\\' :: 'u' :: rest2) result
          (some (h, hsp)) sp0 sp lsp
        = .error (.invalidLowSurrogate h hsp cp, sp6)) ∧
    (∀ (o : ParseOptions) (fuel : Nat) (rest2 : List Char) (cp : Nat)
        (r0 : List Char) (sp6 lsp6 : Span) (c : Char)
        (result : List Char) (h : Nat) (hsp sp0 sp lsp : Span),
      parse_hex4 rest2 ((sp.push 1).push 1)
          ((lsp.clear.push 1).clear.push 1) = .ok (cp, r0, sp6, lsp6) →
      ¬(0xdc00 ≤ cp ∧ cp ≤ 0xdfff) →
      charFromU32 cp = some c →
      o.accept_truncated_surrogate_pair = true →
      parseStringGo o (fuel + 1) ('\\' :: 'u' :: rest2) result
          (some (h, hsp)) sp0 sp lsp
        = parseStringGo o fuel r0 (result ++ ['�', c]) none sp0 sp6.clear
            lsp6) := by
  refine ⟨rfl, rfl, rfl, rfl, ?_, ?_, ?_, ?_, ?_, ?_, ?_, ?_, ?_, ?_⟩
  · intro o fuel result h hsp sp0 sp lsp rest hflag
    rcases o with ⟨atsp, aic⟩
    simp only at hflag
    subst hflag
    rfl
  · intro o fuel result h hsp sp0 sp lsp rest hflag
    rcases o with ⟨atsp, aic⟩
    simp only at hflag
    subst hflag
    rfl
  · intro o fuel result high sp0 sp lsp
    rfl
  · intro o fuel result high sp0 sp lsp
    rfl
  · intro o fuel c rest result h hsp sp0 sp lsp hflag hic hq hbs
    rcases o with ⟨atsp, aic⟩
    simp only at hflag
    subst hflag
    simp only [parseStringGo, hq, hbs, hic, Bool.false_eq_true, if_false]
  · intro o fuel c rest result h hsp sp0 sp lsp hflag hic hq hbs
    rcases o with ⟨atsp, aic⟩
    simp only at hflag
    subst hflag
    simp only [parseStringGo, hq, hbs, hic, Bool.false_eq_true, if_false,
      if_true]
  · intro o fuel e c' rest result h hsp sp0 sp lsp hesc hflag
    rcases o with ⟨atsp, aic⟩
    simp only at hflag
    subst hflag
    simp only [parseStringGo, parseEscape, hesc, Bool.false_eq_true,
      if_false]
  · intro o fuel e c' rest result h hsp sp0 sp lsp hesc hflag
    rcases o with ⟨atsp, aic⟩
    simp only at hflag
    subst hflag
    simp only [parseStringGo, parseEscape, hesc, Bool.false_eq_true,
      if_false, if_true]
  · intro o fuel rest2 cp r0 sp6 lsp6 result h hsp sp0 sp lsp hhex hnlow
      hflag
    rcases o with ⟨atsp, aic⟩
    simp only at hflag
    subst hflag
    have hpe : parseEscape ⟨false, aic⟩ ('u' :: rest2) (some (h, hsp))
        (sp.push 1) (lsp.clear.push 1)
        = escHexCont ⟨false, aic⟩ (some (h, hsp)) cp r0 sp6 lsp6 := by
      conv_lhs => whnf
      rw [show ('u' : Char).utf8Size = 1 from rfl, hhex]
    have hc : escHexCont ⟨false, aic⟩ (some (h, hsp)) cp r0 sp6 lsp6
        = .error (.invalidLowSurrogate h hsp cp, sp6) := by
      unfold escHexCont
      split
      · next h2 hsp2 heq =>
        injection heq with heq2
        injection heq2 with ha hb
        subst ha
        subst hb
        rw [if_neg hnlow]
        rfl
      · next heq => exact absurd heq (by simp)
    rw [show parseStringGo ⟨false, aic⟩ (fuel + 1) ('\\' :: 'u' :: rest2)
        result (some (h, hsp)) sp0 sp lsp
      = (match parseEscape ⟨false, aic⟩ ('u' :: rest2) (some (h, hsp))
            (sp.push 1) (lsp.clear.push 1) with
         | .error er => .error er
         | .ok s => parseStringGo ⟨false, aic⟩ fuel s.rest
             (result ++ s.emit) s.high sp0 s.sp s.lsp) from rfl]
    rw [hpe, hc]
  · intro o fuel rest2 cp r0 sp6 lsp6 c result h hsp sp0 sp lsp hhex hnlow
      hdec hflag
    rcases o with ⟨atsp, aic⟩
    simp only at hflag
    subst hflag
    have hpe : parseEscape ⟨true, aic⟩ ('u' :: rest2) (some (h, hsp))
        (sp.push 1) (lsp.clear.push 1)
        = escHexCont ⟨true, aic⟩ (some (h, hsp)) cp r0 sp6 lsp6 := by
      conv_lhs => whnf
      rw [show ('u' : Char).utf8Size = 1 from rfl, hhex]
    have hc : escHexCont ⟨true, aic⟩ (some (h, hsp)) cp r0 sp6 lsp6
        = .ok ⟨['�', c], none, r0, sp6.clear, lsp6⟩ := by
      unfold escHexCont
      split
      · next h2 hsp2 heq =>
        injection heq with heq2
        injection heq2 with ha hb
        subst ha
        subst hb
        rw [if_neg hnlow, if_pos rfl, hdec]
      · next heq => exact absurd heq (by simp)
    rw [show parseStringGo ⟨true, aic⟩ (fuel + 1) ('\\' :: 'u' :: rest2)
        result (some (h, hsp)) sp0 sp lsp
      = (match parseEscape ⟨true, aic⟩ ('u' :: rest2) (some (h, hsp))
            (sp.push 1) (lsp.clear.push 1) with
         | .error er => .error er
         | .ok s => parseStringGo ⟨true, aic⟩ fuel s.rest
             (result ++ s.emit) s.high sp0 s.sp s.lsp) from rfl]
    rw [hpe, hc]

/-- Witness: the closing-quote, ordinary-character, short-escape and
non-low `\uXXXX` conjuncts applied at concrete states with a pending
high surrogate, discharging every hypothesis. -/
theorem c7_surrogate_handling_witness :
    (parseStringGo .strict 1 ['"'] ['x'] (some (0xD834, ⟨1, 7⟩)) ⟨0, 1⟩
        ⟨1, 8⟩ ⟨7, 8⟩
      = .error (.missingLowSurrogate 0xD834 ⟨1, 7⟩, ⟨1, 9⟩)) ∧
    (parseStringGo .flexible 1 ['"'] ['x'] (some (0xD834, ⟨1, 7⟩)) ⟨0, 1⟩
        ⟨1, 8⟩ ⟨7, 8⟩
      = .ok (['x', '�'], ⟨0, 9⟩, ⟨[], ⟨0, 9⟩, ⟨8, 9⟩⟩)) ∧
    (parseStringGo .strict 1 ['x'] ['q'] (some (0xD834, ⟨1, 7⟩)) ⟨0, 1⟩
        ⟨1, 8⟩ ⟨7, 8⟩
      = .error (.missingLowSurrogate 0xD834 ⟨1, 7⟩, ⟨1, 9⟩)) ∧
    (parseStringGo .strict 1 ['\\', 'n'] ['q'] (some (0xD834, ⟨1, 7⟩))
        ⟨0, 1⟩ ⟨1, 8⟩ ⟨7, 8⟩
      = .error (.missingLowSurrogate 0xD834 ⟨1, 7⟩, ⟨1, 10⟩)) ∧
    (parseStringGo .strict 1 ['\\', 'u', '0', '0', '4', '1'] ['q']
        (some (0xD834, ⟨1, 7⟩)) ⟨0, 1⟩ ⟨1, 8⟩ ⟨7, 8⟩
      = .error (.invalidLowSurrogate 0xD834 ⟨1, 7⟩ 0x41, ⟨1, 14⟩)) :=
  ⟨c7_surrogate_handling.2.2.2.2.1 .strict 0 ['x'] 0xD834 ⟨1, 7⟩ ⟨0, 1⟩
      ⟨1, 8⟩ ⟨7, 8⟩ [] rfl,
    c7_surrogate_handling.2.2.2.2.2.1 .flexible 0 ['x'] 0xD834 ⟨1, 7⟩
      ⟨0, 1⟩ ⟨1, 8⟩ ⟨7, 8⟩ [] rfl,
    c7_surrogate_handling.2.2.2.2.2.2.2.2.1 .strict 0 'x' [] ['q'] 0xD834
      ⟨1, 7⟩ ⟨0, 1⟩ ⟨1, 8⟩ ⟨7, 8⟩ rfl (by decide) (by decide) (by decide),
    c7_surrogate_handling.2.2.2.2.2.2.2.2.2.2.1 .strict 0 'n' '\x0a' []
      ['q'] 0xD834 ⟨1, 7⟩ ⟨0, 1⟩ ⟨1, 8⟩ ⟨7, 8⟩ rfl rfl,
    c7_surrogate_handling.2.2.2.2.2.2.2.2.2.2.2.2.1 .strict 0
      ['0', '0', '4', '1'] 0x41 [] ⟨1, 14⟩ ⟨13, 14⟩ ['q'] 0xD834 ⟨1, 7⟩
      ⟨0, 1⟩ ⟨1, 8⟩ ⟨7, 8⟩ rfl (by decide) rfl⟩

/-- The number loop only ever appends the characters it consumes: an
accepted run returns the initial buffer extended with exactly the consumed
prefix of the input. -/
theorem parseNumberGo_consumed :
    ∀ (input : List Char) (state : NumState) (buffer : List Char)
      (sp lsp : Span) (ctx : Context) (buf : List Char) (sp' : Span)
      (st' : PState),
      parseNumberGo input state buffer sp lsp ctx = .ok (buf, sp', st') →
      ∃ tk, buf = buffer ++ tk ∧ input = tk ++ st'.input := by
  intro input
  induction input with
  | nil =>
    intro state buffer sp lsp ctx buf sp' st' h
    unfold parseNumberGo parseNumberFinish at h
    cases state <;>
      simp only [Except.ok.injEq, Prod.mk.injEq, reduceCtorEq] at h <;>
      obtain ⟨rfl, rfl, rfl⟩ := h <;>
      exact ⟨[], by simp, by simp⟩
  | cons c rest ih =>
    intro state buffer sp lsp ctx buf sp' st' h
    unfold parseNumberGo at h
    rcases hstep : numStep state c ctx with s | _ | _ <;> rw [hstep] at h
    · obtain ⟨tk, h1, h2⟩ := ih _ _ _ _ _ _ _ _ h
      refine ⟨c :: tk, ?_, ?_⟩
      · rw [h1]; simp
      · rw [h2]; simp
    · unfold parseNumberFinish at h
      cases state <;>
        simp only [Except.ok.injEq, Prod.mk.injEq, reduceCtorEq] at h <;>
        obtain ⟨rfl, rfl, rfl⟩ := h <;>
        exact ⟨[], by simp, by simp⟩
    · simp at h

/-- Claim C2: when the number parser accepts, the returned number buffer
is exactly the consumed prefix of the input, character for character — the
lexical form is stored verbatim, never normalised. -/
theorem c2_number_verbatim (ctx : Context) (st : PState) (buf : List Char)
    (sp : Span) (st' : PState)
    (h : parseNumber ctx st = .ok (buf, sp, st')) :
    st.input = buf ++ st'.input := by
  obtain ⟨tk, h1, h2⟩ :=
    parseNumberGo_consumed st.input .init [] st.span st.lastSpan ctx
      buf sp st' h
  rw [h1, h2]
  simp

/-- Witness: the number `-12.5e3` parses to the identical buffer. -/
theorem c2_number_verbatim_witness :
    ['-', '1', '2', '.', '5', 'e', '3']
      = ['-', '1', '2', '.', '5', 'e', '3'] ++
        ([] : List Char) := by
  exact c2_number_verbatim .none
    ⟨['-', '1', '2', '.', '5', 'e', '3'], ⟨0, 0⟩, ⟨0, 0⟩⟩
    ['-', '1', '2', '.', '5', 'e', '3'] ⟨0, 7⟩
    ⟨[], ⟨0, 7⟩, ⟨6, 7⟩⟩ rfl

/-! ### The code map (src/src/code_map.rs, claim C3)

`Entry` and `CodeMap::reserve` are src/src/code_map.rs.  The parser
variant that emits code-map entries is not under src/ (only its tests
are); the positional parser below is modelled from the spec's code-map
contract. -/

/-- `code_map::Entry` (src/src/code_map.rs): byte span of a fragment and
its volume (number of sub-fragments, itself included). -/
structure Entry where
  span : Span
  volume : Nat
deriving DecidableEq, Repr

/-- `CodeMap::reserve` (src/src/code_map.rs): push a zero-volume
placeholder entry at `position`, returning its offset. -/
def codeMapReserve (m : List Entry) (position : Nat) : List Entry × Nat :=
  (m ++ [⟨Span.atPos position, 0⟩], m.length)

/-- Modelled from the spec: whitespace skipping with byte positions. -/
def cmSkipWs : List Char → Nat → List Char × Nat
  | [], p => ([], p)
  | c :: rest, p =>
    if is_whitespace c then cmSkipWs rest (p + c.utf8Size)
    else (c :: rest, p)

/-- Modelled from the spec: string lexing for the positional parser —
content and the byte position one past the closing quote. -/
def cmString : List Char → Nat → Option (List Char × Nat × List Char)
  | [], _ => none
  | '"' :: rest, p => some ([], p + 1, rest)
  | '\\' :: e :: rest, p =>
    match cmString rest (p + 1 + e.utf8Size) with
    | some (s, q, rest') => some (((escDecode e).getD '�') :: s, q, rest')
    | none => none
  | c :: rest, p =>
    match cmString rest (p + c.utf8Size) with
    | some (s, q, rest') => some (c :: s, q, rest')
    | none => none

/-- A character of a number literal. -/
def numChar (c : Char) : Bool :=
  ('0' ≤ c && c ≤ '9') || c = '-' || c = '+' || c = '.' || c = 'e' || c = 'E'

/-- Modelled from the spec: number lexing for the positional parser. -/
def cmNumber : List Char → Nat → List Char × Nat × List Char
  | [], p => ([], p, [])
  | c :: rest, p =>
    if numChar c then
      let r := cmNumber rest (p + c.utf8Size)
      (c :: r.1, r.2.1, r.2.2)
    else ([], p, c :: rest)

/-- The pending task of the positional parser: a value, the remaining
items of an array begun at `startP`, or the remaining entries of an object
begun at `startP`. -/
inductive CMReq where
  | value
  | arrayItems (startP : Nat) (accV : List Value) (accE : List Entry)
  | objectEntries (startP : Nat) (accV : List ObjEntry) (accE : List Entry)

/-- Modelled from the spec: the positional parser.  Each fragment emits
one code-map entry, parents before children and siblings in source order
— a value's entry carries its source span (arrays and objects from the
opening to past the closing bracket) and its volume (one plus the volumes
of its sub-fragments); an object entry spans from its key's opening quote
to the end of its value and is followed by the key's entry and the
value's entries.  Returns the value, its code-map entries, the end
position and the remaining input. -/
def cmGo : Nat → CMReq → List Char → Nat →
    Option (Value × List Entry × Nat × List Char)
  | 0, _, _, _ => none
  | fuel + 1, .value, input, p =>
    match cmSkipWs input p with
    | (input, p) =>
      match input with
      | 'n' :: 'u' :: 'l' :: 'l' :: rest =>
        some (.null, [⟨⟨p, p + 4⟩, 1⟩], p + 4, rest)
      | 't' :: 'r' :: 'u' :: 'e' :: rest =>
        some (.bool true, [⟨⟨p, p + 4⟩, 1⟩], p + 4, rest)
      | 'f' :: 'a' :: 'l' :: 's' :: 'e' :: rest =>
        some (.bool false, [⟨⟨p, p + 5⟩, 1⟩], p + 5, rest)
      | '"' :: rest =>
        match cmString rest (p + 1) with
        | some (s, q, rest') => some (.str s, [⟨⟨p, q⟩, 1⟩], q, rest')
        | none => none
      | '[' :: rest =>
        match cmSkipWs rest (p + 1) with
        | (r1, p1) =>
          match r1 with
          | ']' :: r2 => some (.arr [], [⟨⟨p, p1 + 1⟩, 1⟩], p1 + 1, r2)
          | _ => cmGo fuel (.arrayItems p [] []) r1 p1
      | '{' :: rest =>
        match cmSkipWs rest (p + 1) with
        | (r1, p1) =>
          match r1 with
          | '}' :: r2 => some (.obj [], [⟨⟨p, p1 + 1⟩, 1⟩], p1 + 1, r2)
          | _ => cmGo fuel (.objectEntries p [] []) r1 p1
      | c :: rest =>
        if ('0' ≤ c ∧ c ≤ '9') ∨ c = '-' then
          match cmNumber (c :: rest) p with
          | (s, q, rest') => some (.num s, [⟨⟨p, q⟩, 1⟩], q, rest')
        else none
      | [] => none
  | fuel + 1, .arrayItems startP accV accE, input, p =>
    match cmGo fuel .value input p with
    | some (v, ve, q, rest) =>
      match cmSkipWs rest q with
      | (r1, p1) =>
        match r1 with
        | ',' :: r2 =>
          cmGo fuel (.arrayItems startP (accV ++ [v]) (accE ++ ve)) r2 (p1 + 1)
        | ']' :: r2 =>
          some (.arr (accV ++ [v]),
            ⟨⟨startP, p1 + 1⟩, 1 + (accE ++ ve).length⟩ :: (accE ++ ve),
            p1 + 1, r2)
        | _ => none
    | none => none
  | fuel + 1, .objectEntries startP accV accE, input, p =>
    match cmSkipWs input p with
    | (input, p) =>
      match input with
      | '"' :: rest =>
        match cmString rest (p + 1) with
        | some (k, kq, rest') =>
          match cmSkipWs rest' kq with
          | (r1, p1) =>
            match r1 with
            | ':' :: r2 =>
              match cmGo fuel .value r2 (p1 + 1) with
              | some (v, ve, q, rest2) =>
                match cmSkipWs rest2 q with
                | (r3, p3) =>
                  match r3 with
                  | ',' :: r4 =>
                    cmGo fuel (.objectEntries startP (accV ++ [(k, v)])
                      (accE ++ (⟨⟨p, q⟩, 2 + ve.length⟩ :: ⟨⟨p, kq⟩, 1⟩ :: ve)))
                      r4 (p3 + 1)
                  | '}' :: r4 =>
                    some (.obj (accV ++ [(k, v)]),
                      ⟨⟨startP, p3 + 1⟩,
                          1 + (accE ++ (⟨⟨p, q⟩, 2 + ve.length⟩ ::
                            ⟨⟨p, kq⟩, 1⟩ :: ve)).length⟩ ::
                        (accE ++ (⟨⟨p, q⟩, 2 + ve.length⟩ ::
                          ⟨⟨p, kq⟩, 1⟩ :: ve)),
                      p3 + 1, r4)
                  | _ => none
              | none => none
            | _ => none
        | none => none
      | _ => none

/-- Claim C3: parsing `{ "a": 0, "b": [1, 2] }` with the code-map-emitting
parser yields exactly nine code-map entries, in emission order, with the
spans `[0,23) [2,8) [2,5) [7,8) [10,21) [10,13) [15,21) [16,17) [19,20)`
and volumes `9 3 1 1 5 1 3 1 1`, and the fragment traversal of the
produced value visits nine fragments. -/
theorem c3_code_map :
    cmGo 100 .value
      ['{', ' ', '"', 'a', '"', ':', ' ', '0', ',', ' ', '"', 'b', '"',
       ':', ' ', '[', '1', ',', ' ', '2', ']', ' ', '}'] 0
      = some (.obj [(['a'], .num ['0']),
                    (['b'], .arr [.num ['1'], .num ['2']])],
          [⟨⟨0, 23⟩, 9⟩, ⟨⟨2, 8⟩, 3⟩, ⟨⟨2, 5⟩, 1⟩, ⟨⟨7, 8⟩, 1⟩,
           ⟨⟨10, 21⟩, 5⟩, ⟨⟨10, 13⟩, 1⟩, ⟨⟨15, 21⟩, 3⟩, ⟨⟨16, 17⟩, 1⟩,
           ⟨⟨19, 20⟩, 1⟩],
          23, []) ∧
    (Value.traverse
        (.obj [(['a'], .num ['0']),
               (['b'], .arr [.num ['1'], .num ['2']])]) 9).length = 9 :=
  ⟨rfl, rfl⟩

/-! ### Claim C1 — compact parse-print round trip

First the compact printer is reduced to a direct recursive form: with
`Options::compact` no expansion limit is set, so every pre-computed size
is a `Size::Width` and the printer always takes the inlined branches with
no added spacing. -/

mutual

/-- The compact rendering of a value: what `fmt_with` with
`Options::compact` emits. -/
def cpValue : Value → List Char
  | .null => ['n', 'u', 'l', 'l']
  | .bool b => if b then ['t', 'r', 'u', 'e'] else ['f', 'a', 'l', 's', 'e']
  | .num s => s
  | .str s => stringLit s
  | .arr [] => ['[', ']']
  | .arr (v :: vs) => '[' :: (cpValue v ++ cpItems vs) ++ [']']
  | .obj [] => ['{', '}']
  | .obj (e :: es) => '{' :: (cpEntry e ++ cpEntries es) ++ ['}']
termination_by v => (sizeOf v, 0)
decreasing_by all_goals (simp_wf; try omega)

/-- Compact rendering of the items after the first, each preceded by a
comma. -/
def cpItems : List Value → List Char
  | [] => []
  | v :: vs => ',' :: cpValue v ++ cpItems vs
termination_by l => (sizeOf l, 0)
decreasing_by all_goals (simp_wf; try omega)

/-- Compact rendering of one object entry. -/
def cpEntry : ObjEntry → List Char
  | (k, v) => stringLit k ++ ':' :: cpValue v
termination_by e => (sizeOf e, 1)
decreasing_by all_goals (simp_wf; try omega)

/-- Compact rendering of the entries after the first, each preceded by a
comma. -/
def cpEntries : List ObjEntry → List Char
  | [] => []
  | e :: es => ',' :: cpEntry e ++ cpEntries es
termination_by l => (sizeOf l, 0)
decreasing_by all_goals (simp_wf; try omega)

end

/-- No expanded entry occurs in a size list. -/
def AllWidth (sizes : List Size) : Prop :=
  ∀ s ∈ sizes, s ≠ .expanded

/-- Indexing an all-width size list never produces `Size::Expanded`. -/
theorem AllWidth.getD {sizes : List Size} (h : AllWidth sizes) (i : Nat) :
    sizes.getD i (.width 0) ≠ .expanded := by
  unfold List.getD
  rw [List.get?_eq_getElem?]
  rcases hg : sizes[i]? with _ | s
  · simp
  · simp only [Option.getD_some]
    have hi : i < sizes.length := by
      by_contra hge
      rw [List.getElem?_eq_none (by omega)] at hg
      exact Option.noConfusion hg
    rw [List.getElem?_eq_getElem hi] at hg
    have hs : sizes[i] = s := by injection hg
    rw [← hs]
    exact h _ (List.getElem_mem hi)

/-- Adding two widths stays a width. -/
theorem Size.add_width {a b : Size} (ha : a ≠ .expanded)
    (hb : b ≠ .expanded) : a.add b ≠ .expanded := by
  rcases a with _ | wa
  · exact absurd rfl ha
  · rcases b with _ | wb
    · exact absurd rfl hb
    · simp [Size.add]

/-- With no limit, `applyLimit` is the identity. -/
theorem applyLimit_none (len : Nat) (s : Size) :
    applyLimit none len s = s := by
  rcases s with _ | w <;> rfl

/-- Setting a non-expanded entry preserves all-width lists. -/
theorem AllWidth.set {sizes : List Size} (h : AllWidth sizes) {s : Size}
    (hs : s ≠ .expanded) (i : Nat) : AllWidth (sizes.set i s) := by
  intro x hx
  rcases List.mem_or_eq_of_mem_set hx with hx | rfl
  · exact h x hx
  · exact hs

/-- Appending a width preserves all-width lists. -/
theorem AllWidth.append_width {sizes : List Size} (h : AllWidth sizes)
    (w : Nat) : AllWidth (sizes ++ [.width w]) := by
  intro x hx
  rcases List.mem_append.mp hx with hx | hx
  · exact h x hx
  · rw [List.mem_singleton] at hx
    subst hx
    simp

mutual

/-- With compact options every pre-computed size is a width, and the size
list stays all-width. -/
theorem preComputeSize_compact : ∀ (v : Value) (sizes : List Size),
    (preComputeSize Options.compact v sizes).1 ≠ .expanded ∧
      (AllWidth sizes → AllWidth (preComputeSize Options.compact v sizes).2)
  | .null, sizes => by
    refine ⟨?_, fun h => ?_⟩ <;> simp [preComputeSize]
    exact h
  | .bool b, sizes => by
    refine ⟨?_, fun h => ?_⟩
    · rcases b <;> simp [preComputeSize]
    · rcases b <;> simpa [preComputeSize] using h
  | .num s, sizes => by
    refine ⟨?_, fun h => ?_⟩ <;> simp [preComputeSize]
    exact h
  | .str s, sizes => by
    refine ⟨?_, fun h => ?_⟩ <;> simp [preComputeSize]
    exact h
  | .arr items, sizes => by
    have hrec := preArrayItems_compact items (sizes ++ [.width 0])
      (.width (2 + Options.compact.objectBegin + Options.compact.objectEnd))
      true (by simp)
    refine ⟨?_, fun h => ?_⟩
    · show (applyLimit Options.compact.arrayLimit items.length
          (preArrayItems Options.compact items (sizes ++ [.width 0])
            (.width (2 + Options.compact.objectBegin +
              Options.compact.objectEnd)) true).1) ≠ .expanded
      rw [show Options.compact.arrayLimit = none from rfl, applyLimit_none]
      exact hrec.1
    · show AllWidth (((preArrayItems Options.compact items
          (sizes ++ [.width 0])
          (.width (2 + Options.compact.objectBegin +
            Options.compact.objectEnd)) true).2).set sizes.length
          (applyLimit Options.compact.arrayLimit items.length
            (preArrayItems Options.compact items (sizes ++ [.width 0])
              (.width (2 + Options.compact.objectBegin +
                Options.compact.objectEnd)) true).1))
      refine AllWidth.set (hrec.2 (h.append_width 0)) ?_ _
      rw [show Options.compact.arrayLimit = none from rfl, applyLimit_none]
      exact hrec.1
  | .obj entries, sizes => by
    have hrec := preObjectEntries_compact entries (sizes ++ [.width 0])
      (.width (2 + Options.compact.objectBegin + Options.compact.objectEnd))
      true (by simp)
    refine ⟨?_, fun h => ?_⟩
    · show (applyLimit Options.compact.objectLimit entries.length
          (preObjectEntries Options.compact entries (sizes ++ [.width 0])
            (.width (2 + Options.compact.objectBegin +
              Options.compact.objectEnd)) true).1) ≠ .expanded
      rw [show Options.compact.objectLimit = none from rfl, applyLimit_none]
      exact hrec.1
    · show AllWidth (((preObjectEntries Options.compact entries
          (sizes ++ [.width 0])
          (.width (2 + Options.compact.objectBegin +
            Options.compact.objectEnd)) true).2).set sizes.length
          (applyLimit Options.compact.objectLimit entries.length
            (preObjectEntries Options.compact entries (sizes ++ [.width 0])
              (.width (2 + Options.compact.objectBegin +
                Options.compact.objectEnd)) true).1))
      refine AllWidth.set (hrec.2 (h.append_width 0)) ?_ _
      rw [show Options.compact.objectLimit = none from rfl, applyLimit_none]
      exact hrec.1
termination_by v _ => (sizeOf v, 0)

/-- The compact array-size loop keeps a width accumulator and an
all-width size list. -/
theorem preArrayItems_compact :
    ∀ (items : List Value) (sizes : List Size) (acc : Size) (first : Bool),
    acc ≠ .expanded →
    (preArrayItems Options.compact items sizes acc first).1 ≠ .expanded ∧
      (AllWidth sizes →
        AllWidth (preArrayItems Options.compact items sizes acc first).2)
  | [], sizes, acc, first => fun hacc => by
    simp only [preArrayItems]
    exact ⟨hacc, fun h => h⟩
  | v :: vs, sizes, acc, first => fun hacc => by
    have hv := preComputeSize_compact v sizes
    have hsep : (if first = true then acc
        else acc.add (.width (1 + Options.compact.arrayBeforeComma +
          Options.compact.arrayAfterComma))) ≠ .expanded := by
      rcases first with _ | _
      · simpa using Size.add_width hacc (by simp)
      · simpa using hacc
    have hrec := preArrayItems_compact vs
      (preComputeSize Options.compact v sizes).2
      ((if first = true then acc
        else acc.add (.width (1 + Options.compact.arrayBeforeComma +
          Options.compact.arrayAfterComma))).add
        (preComputeSize Options.compact v sizes).1)
      false (Size.add_width hsep hv.1)
    simp only [preArrayItems]
    exact ⟨hrec.1, fun h => hrec.2 (hv.2 h)⟩
termination_by l _ _ _ => (sizeOf l, 0)

/-- The compact object-size loop keeps a width accumulator and an
all-width size list. -/
theorem preObjectEntries_compact :
    ∀ (entries : List ObjEntry) (sizes : List Size) (acc : Size)
      (first : Bool),
    acc ≠ .expanded →
    (preObjectEntries Options.compact entries sizes acc first).1
        ≠ .expanded ∧
      (AllWidth sizes →
        AllWidth (preObjectEntries Options.compact entries sizes acc first).2)
  | [], sizes, acc, first => fun hacc => by
    simp only [preObjectEntries]
    exact ⟨hacc, fun h => h⟩
  | e :: es, sizes, acc, first => fun hacc => by
    rcases e with ⟨k, v⟩
    have hv := preComputeSize_compact v sizes
    have hsep : ((if first = true then acc
        else acc.add (.width (1 + Options.compact.objectBeforeComma +
          Options.compact.objectAfterComma))).add
        (.width (printedStringSize k + 1 +
          Options.compact.objectBeforeColon +
          Options.compact.objectAfterColon))) ≠ .expanded := by
      refine Size.add_width ?_ (by simp)
      rcases first with _ | _
      · simpa using Size.add_width hacc (by simp)
      · simpa using hacc
    have hrec := preObjectEntries_compact es
      (preComputeSize Options.compact v sizes).2
      (((if first = true then acc
        else acc.add (.width (1 + Options.compact.objectBeforeComma +
          Options.compact.objectAfterComma))).add
        (.width (printedStringSize k + 1 +
          Options.compact.objectBeforeColon +
          Options.compact.objectAfterColon))).add
        (preComputeSize Options.compact v sizes).1)
      false (Size.add_width hsep hv.1)
    simp only [preObjectEntries]
    exact ⟨hrec.1, fun h => hrec.2 (hv.2 h)⟩
termination_by l _ _ _ => (sizeOf l, 0)

end

/-- The items of a non-empty array in compact form, first item without a
leading comma. -/
def cpItemsFirst : List Value → List Char
  | [] => []
  | v :: vs => cpValue v ++ cpItems vs

/-- The entries of a non-empty object in compact form, first entry
without a leading comma. -/
def cpEntriesFirst : List ObjEntry → List Char
  | [] => []
  | e :: es => cpEntry e ++ cpEntries es

mutual

/-- With compact options and an all-width size list, the printer emits
the direct compact rendering. -/
theorem fmtWithSize_compact :
    ∀ (v : Value) (sizes : List Size) (index indent : Nat),
    AllWidth sizes →
    (fmtWithSize Options.compact indent v sizes index).1 = cpValue v
  | .null, sizes, index, indent => fun _ => by
    simp [fmtWithSize, cpValue]
  | .bool b, sizes, index, indent => fun _ => by
    rcases b <;> simp [fmtWithSize, cpValue]
  | .num s, sizes, index, indent => fun _ => by
    simp [fmtWithSize, cpValue]
  | .str s, sizes, index, indent => fun _ => by
    simp [fmtWithSize, cpValue]
  | .arr [], sizes, index, indent => fun h => by
    rcases hs : sizes.getD index (.width 0) with _ | w
    · exact absurd hs (h.getD index)
    · simp only [fmtWithSize, hs]
      simp [spacesChars, cpValue, Options.compact]
  | .arr (vi :: vs), sizes, index, indent => fun h => by
    rcases hs : sizes.getD index (.width 0) with _ | w
    · exact absurd hs (h.getD index)
    · have hrec := fmtArrayItemsInlined_compact (vi :: vs) sizes (index + 1)
        true indent h
      rw [if_pos rfl] at hrec
      simp only [fmtWithSize, hs, hrec]
      simp [spacesChars, cpValue, cpItemsFirst, Options.compact]
  | .obj [], sizes, index, indent => fun h => by
    rcases hs : sizes.getD index (.width 0) with _ | w
    · exact absurd hs (h.getD index)
    · simp only [fmtWithSize, hs]
      simp [spacesChars, cpValue, Options.compact]
  | .obj (e :: es), sizes, index, indent => fun h => by
    rcases hs : sizes.getD index (.width 0) with _ | w
    · exact absurd hs (h.getD index)
    · have hrec := fmtObjectEntriesInlined_compact (e :: es) sizes (index + 1)
        true indent h
      rw [if_pos rfl] at hrec
      simp only [fmtWithSize, hs, hrec]
      simp [spacesChars, cpValue, cpEntriesFirst, Options.compact]
termination_by v _ _ _ => (sizeOf v, 0)

/-- The compact inlined array-item loop emits the compact items. -/
theorem fmtArrayItemsInlined_compact :
    ∀ (items : List Value) (sizes : List Size) (index : Nat) (first : Bool)
      (indent : Nat),
    AllWidth sizes →
    (fmtArrayItemsInlined Options.compact indent items sizes index first).1
      = if first = true then cpItemsFirst items else cpItems items
  | [], sizes, index, first, indent => fun _ => by
    rcases first <;> simp [fmtArrayItemsInlined, cpItemsFirst, cpItems]
  | v :: vs, sizes, index, first, indent => fun h => by
    have hv := fmtWithSize_compact v sizes index (indent + 1) h
    have hrec := fmtArrayItemsInlined_compact vs sizes
      (fmtWithSize Options.compact (indent + 1) v sizes index).2 false
      indent h
    rw [if_neg (by simp)] at hrec
    simp only [fmtArrayItemsInlined, hv, hrec]
    rcases first with _ | _
    · simp [spacesChars, cpItems, Options.compact]
    · simp [cpItemsFirst]
termination_by l _ _ _ _ => (sizeOf l, 0)

/-- The compact inlined object-entry loop emits the compact entries. -/
theorem fmtObjectEntriesInlined_compact :
    ∀ (entries : List ObjEntry) (sizes : List Size) (index : Nat)
      (first : Bool) (indent : Nat),
    AllWidth sizes →
    (fmtObjectEntriesInlined Options.compact indent entries sizes index
        first).1
      = if first = true then cpEntriesFirst entries else cpEntries entries
  | [], sizes, index, first, indent => fun _ => by
    rcases first <;> simp [fmtObjectEntriesInlined, cpEntriesFirst, cpEntries]
  | (k, v) :: es, sizes, index, first, indent => fun h => by
    have hv := fmtWithSize_compact v sizes index (indent + 1) h
    have hrec := fmtObjectEntriesInlined_compact es sizes
      (fmtWithSize Options.compact (indent + 1) v sizes index).2 false
      indent h
    rw [if_neg (by simp)] at hrec
    simp only [fmtObjectEntriesInlined, hv, hrec]
    rcases first with _ | _
    · simp [spacesChars, cpEntries, cpEntry, Options.compact]
    · simp [cpEntriesFirst, cpEntry, Options.compact, spacesChars]
termination_by l _ _ _ _ => (sizeOf l, 0)

end

/-- `compact_print` emits the direct compact rendering. -/
theorem compactPrint_eq_cpValue (v : Value) : compactPrint v = cpValue v := by
  rcases v with _ | b | s | s | items | entries
  · simp [compactPrint, fmtWith, cpValue]
  · rcases b <;> simp [compactPrint, fmtWith, cpValue]
  · simp [compactPrint, fmtWith, cpValue]
  · simp [compactPrint, fmtWith, cpValue]
  · exact fmtWithSize_compact (.arr items)
      (preComputeSize Options.compact (.arr items) []).2 0 0
      ((preComputeSize_compact (.arr items) []).2 (by intro s hs; simp at hs))
  · exact fmtWithSize_compact (.obj entries)
      (preComputeSize Options.compact (.obj entries) []).2 0 0
      ((preComputeSize_compact (.obj entries) []).2 (by intro s hs; simp at hs))

/-- Pure transition of the number automaton: the context-independent
shift cases of `numStep` (`brk`/`err` both stop the literal). -/
def numStepPure (state : NumState) (c : Char) : Option NumState :=
  match state with
  | .init =>
    if c = '-' then some .firstDigit
    else if c = '0' then some .zero
    else if '1' ≤ c ∧ c ≤ '9' then some .nonZero
    else none
  | .firstDigit =>
    if c = '0' then some .zero
    else if '1' ≤ c ∧ c ≤ '9' then some .nonZero
    else none
  | .zero =>
    if c = '.' then some .fractionalFirst
    else if c = 'e' ∨ c = 'E' then some .exponentSign
    else none
  | .nonZero =>
    if '0' ≤ c ∧ c ≤ '9' then some .nonZero
    else if c = '.' then some .fractionalFirst
    else if c = 'e' ∨ c = 'E' then some .exponentSign
    else none
  | .fractionalFirst =>
    if '0' ≤ c ∧ c ≤ '9' then some .fractionalRest
    else none
  | .fractionalRest =>
    if '0' ≤ c ∧ c ≤ '9' then some .fractionalRest
    else if c = 'e' ∨ c = 'E' then some .exponentSign
    else none
  | .exponentSign =>
    if c = '+' ∨ c = '-' then some .exponentFirst
    else if '0' ≤ c ∧ c ≤ '9' then some .exponentRest
    else none
  | .exponentFirst =>
    if '0' ≤ c ∧ c ≤ '9' then some .exponentRest
    else none
  | .exponentRest =>
    if '0' ≤ c ∧ c ≤ '9' then some .exponentRest
    else none

set_option maxHeartbeats 2000000 in
/-- Shifts of the number automaton do not depend on the context. -/
theorem numStep_go_iff (state : NumState) (c : Char) (ctx : Context)
    (s : NumState) :
    numStep state c ctx = .go s ↔ numStepPure state c = some s := by
  rcases state <;> unfold numStep numStepPure <;> split_ifs <;> simp_all

/-- The run of the pure number automaton over a literal. -/
def numRun : NumState → List Char → Option NumState
  | state, [] => some state
  | state, c :: rest =>
    match numStepPure state c with
    | some s => numRun s rest
    | none => none

/-- The accepting states of the number automaton. -/
def numAccepting : NumState → Bool
  | .zero => true
  | .nonZero => true
  | .fractionalRest => true
  | .exponentRest => true
  | _ => false

/-- A well-formed number literal: accepted by the automaton. -/
def numAccept (s : List Char) : Bool :=
  match numRun .init s with
  | some state => numAccepting state
  | none => false

/-- An accepting run of the number loop is an accepting automaton run
over the consumed characters. -/
theorem parseNumberGo_run :
    ∀ (input : List Char) (state : NumState) (buffer : List Char)
      (sp lsp : Span) (ctx : Context) (buf : List Char) (sp' : Span)
      (st' : PState),
      parseNumberGo input state buffer sp lsp ctx = .ok (buf, sp', st') →
      ∃ tk fin, buf = buffer ++ tk ∧ numRun state tk = some fin ∧
        numAccepting fin = true := by
  intro input
  induction input with
  | nil =>
    intro state buffer sp lsp ctx buf sp' st' h
    unfold parseNumberGo parseNumberFinish at h
    cases state <;>
      simp only [Except.ok.injEq, Prod.mk.injEq, reduceCtorEq] at h <;>
      obtain ⟨rfl, rfl, rfl⟩ := h <;>
      exact ⟨[], _, by simp, rfl, rfl⟩
  | cons c rest ih =>
    intro state buffer sp lsp ctx buf sp' st' h
    unfold parseNumberGo at h
    rcases hstep : numStep state c ctx with s | _ | _ <;> rw [hstep] at h
    · obtain ⟨tk, fin, h1, h2, h3⟩ := ih _ _ _ _ _ _ _ _ h
      refine ⟨c :: tk, fin, by rw [h1]; simp, ?_, h3⟩
      unfold numRun
      rw [(numStep_go_iff state c ctx s).mp hstep]
      exact h2
    · unfold parseNumberFinish at h
      cases state <;>
        simp only [Except.ok.injEq, Prod.mk.injEq, reduceCtorEq] at h <;>
        obtain ⟨rfl, rfl, rfl⟩ := h <;>
        exact ⟨[], _, by simp, rfl, rfl⟩
    · simp at h

/-- Accepted number parses yield automaton-accepted buffers. -/
theorem parseNumber_accepts {ctx : Context} {st : PState} {buf : List Char}
    {sp : Span} {st' : PState}
    (h : parseNumber ctx st = .ok (buf, sp, st')) : numAccept buf = true := by
  obtain ⟨tk, fin, h1, h2, h3⟩ :=
    parseNumberGo_run st.input .init [] st.span st.lastSpan ctx buf sp st' h
  simp only [List.nil_append] at h1
  subst h1
  unfold numAccept
  rw [h2]
  exact h3

mutual

/-- Printable well-formedness of a value: every number buffer is a
well-formed literal. -/
def valueWfB : Value → Bool
  | .null => true
  | .bool _ => true
  | .num s => numAccept s
  | .str _ => true
  | .arr items => valueListWfB items
  | .obj entries => entryListWfB entries
termination_by v => (sizeOf v, 0)
decreasing_by all_goals (simp_wf; try omega)

/-- Well-formedness of an item list. -/
def valueListWfB : List Value → Bool
  | [] => true
  | v :: vs => valueWfB v && valueListWfB vs
termination_by l => (sizeOf l, 0)
decreasing_by all_goals (simp_wf; try omega)

/-- Well-formedness of an entry list. -/
def entryListWfB : List ObjEntry → Bool
  | [] => true
  | (_, v) :: es => valueWfB v && entryListWfB es
termination_by l => (sizeOf l, 0)
decreasing_by all_goals (simp_wf; try omega)

end

/-- Well-formedness of a machine stack item. -/
def itemWfB : PItem → Bool
  | .array items _ => valueListWfB items
  | .arrayItem items _ => valueListWfB items
  | .object entries _ => entryListWfB entries
  | .objectEntry entries _ _ _ => entryListWfB entries

/-- Value fragments produced by one parsing step are well-formed. -/
theorem parseFragment_wf {o : ParseOptions} {ctx : Context} {st : PState}
    {v : Value} {sp : Span} {st' : PState}
    (h : parseFragment o ctx st = .ok (.value v, sp, st')) :
    valueWfB v = true := by
  unfold parseFragment at h
  dsimp only at h
  split at h
  next c hpk =>
    split at h
    · split at h
      next e hn => exact absurd h (by simp)
      next sp1 st1 hn =>
        split at h
        next e hw => exact absurd h (by simp)
        next st2 hw =>
          simp only [Except.ok.injEq, Prod.mk.injEq] at h
          obtain ⟨h1, -⟩ := h
          injection h1 with h2
          subst h2
          simp [valueWfB]
    · split at h
      · split at h
        next e hn => exact absurd h (by simp)
        next b sp1 st1 hn =>
          split at h
          next e hw => exact absurd h (by simp)
          next st2 hw =>
            simp only [Except.ok.injEq, Prod.mk.injEq] at h
            obtain ⟨h1, -⟩ := h
            injection h1 with h2
            subst h2
            simp [valueWfB]
      · split at h
        · split at h
          next e hn => exact absurd h (by simp)
          next buf sp1 st1 hn =>
            split at h
            next e hw => exact absurd h (by simp)
            next st2 hw =>
              simp only [Except.ok.injEq, Prod.mk.injEq] at h
              obtain ⟨h1, -⟩ := h
              injection h1 with h2
              subst h2
              simpa [valueWfB] using parseNumber_accepts hn
        · split at h
          · split at h
            next e hn => exact absurd h (by simp)
            next s1 sp1 st1 hn =>
              split at h
              next e hw => exact absurd h (by simp)
              next st2 hw =>
                simp only [Except.ok.injEq, Prod.mk.injEq] at h
                obtain ⟨h1, -⟩ := h
                injection h1 with h2
                subst h2
                simp [valueWfB]
          · split at h
            · split at h
              next e hn => exact absurd h (by simp)
              next sp1 st1 hn =>
                split at h
                next e hw => exact absurd h (by simp)
                next st2 hw =>
                  simp only [Except.ok.injEq, Prod.mk.injEq] at h
                  obtain ⟨h1, -⟩ := h
                  injection h1 with h2
                  subst h2
                  simp [valueWfB, valueListWfB]
              next sp1 st1 hn => exact absurd h (by simp)
            · split at h
              · split at h
                next e hn => exact absurd h (by simp)
                next sp1 st1 hn =>
                  split at h
                  next e hw => exact absurd h (by simp)
                  next st2 hw =>
                    simp only [Except.ok.injEq, Prod.mk.injEq] at h
                    obtain ⟨h1, -⟩ := h
                    injection h1 with h2
                    subst h2
                    simp [valueWfB, entryListWfB]
                next k km sp1 st1 hn => exact absurd h (by simp)
              · exact absurd h (by simp)
  next hpk => exact absurd h (by simp)

/-- Item-list well-formedness splits over append. -/
theorem valueListWfB_append (a b : List Value) :
    valueListWfB (a ++ b) = (valueListWfB a && valueListWfB b) := by
  induction a with
  | nil => simp [valueListWfB]
  | cons v vs ih =>
    simp [valueListWfB, ih, Bool.and_assoc]

/-- Entry-list well-formedness splits over append. -/
theorem entryListWfB_append (a b : List ObjEntry) :
    entryListWfB (a ++ b) = (entryListWfB a && entryListWfB b) := by
  induction a with
  | nil => simp [entryListWfB]
  | cons e es ih =>
    rcases e with ⟨k, v⟩
    simp [entryListWfB, ih, Bool.and_assoc]

/-- One-step parses keep values well-formed. -/
theorem valueOrParse_wf {o : ParseOptions} {ctx : Context}
    {value : Option (Value × Span)} {st : PState} {v : Value} {sp : Span}
    {st' : PState}
    (hval : ∀ v0 sp0, value = some (v0, sp0) → valueWfB v0 = true)
    (h : valueOrParse o ctx value st = .ok (.value v, sp, st')) :
    valueWfB v = true := by
  rcases value with _ | ⟨v0, sp0⟩
  · exact parseFragment_wf h
  · rw [show valueOrParse o ctx (some (v0, sp0)) st
        = .ok (.value v0, sp0, st) from rfl] at h
    simp only [Except.ok.injEq, Prod.mk.injEq] at h
    obtain ⟨h1, -⟩ := h
    injection h1 with h2
    subst h2
    exact hval v0 sp0 rfl

/-- The value machine only ever returns well-formed values. -/
theorem parseValueLoop_wf :
    ∀ (fuel : Nat) (o : ParseOptions) (root : Context) (stack : List PItem)
      (value : Option (Value × Span)) (st : PState) (v : Value) (sp : Span)
      (st' : PState),
      (∀ v0 sp0, value = some (v0, sp0) → valueWfB v0 = true) →
      (∀ it ∈ stack, itemWfB it = true) →
      parseValueLoop o root fuel stack value st = .ok (v, sp, st') →
      valueWfB v = true := by
  intro fuel
  induction fuel with
  | zero =>
    intro o root stack value st v sp st' _ _ h
    exact absurd h (by simp [parseValueLoop])
  | succ fuel ih =>
    intro o root stack value st v sp st' hval hstack h
    rcases stack with _ | ⟨item, rest⟩
    · simp only [parseValueLoop] at h
      split at h
      next e hvp => exact absurd h (by simp)
      next v1 sp1 st1 hvp =>
        simp only [Except.ok.injEq, Prod.mk.injEq] at h
        obtain ⟨h1, -⟩ := h
        subst h1
        exact valueOrParse_wf hval hvp
      next sp1 st1 hvp =>
        refine ih o root _ none st1 v sp st' (by simp) ?_ h
        intro it hit
        rw [List.mem_singleton] at hit
        subst hit
        simp [itemWfB, valueListWfB]
      next k km sp1 st1 hvp =>
        refine ih o root _ none st1 v sp st' (by simp) ?_ h
        intro it hit
        rw [List.mem_singleton] at hit
        subst hit
        simp [itemWfB, entryListWfB]
    · have hitem := hstack item (List.mem_cons_self _ _)
      have hrest : ∀ it ∈ rest, itemWfB it = true :=
        fun it hit => hstack it (List.mem_cons_of_mem _ hit)
      rcases item with ⟨items, spA⟩ | ⟨items, spA⟩ | ⟨entries, spA⟩ |
        ⟨entries, spA, k, km⟩ <;> simp only [parseValueLoop] at h
      · split at h
        next e hc => exact absurd h (by simp)
        next commaSpan st1 hc =>
          refine ih o root _ none st1 v sp st' (by simp) ?_ h
          intro it hit
          rcases List.mem_cons.mp hit with rfl | hit
          · simpa [itemWfB] using hitem
          · exact hrest it hit
        next closingSpan st1 hc =>
          split at h
          next e hw => exact absurd h (by simp)
          next st2 hw =>
            refine ih o root rest _ st2 v sp st' ?_ hrest h
            intro v0 sp0 hv0
            simp only [Option.some.injEq, Prod.mk.injEq] at hv0
            rw [← hv0.1]
            simpa [valueWfB] using hitem
      · split at h
        next e hvp => exact absurd h (by simp)
        next v1 sp1 st1 hvp =>
          refine ih o root _ none st1 v sp st' (by simp) ?_ h
          intro it hit
          rcases List.mem_cons.mp hit with rfl | hit
          · have hv1 := valueOrParse_wf hval hvp
            simp only [itemWfB, valueListWfB_append]
            simp only [itemWfB] at hitem
            simp [hitem, hv1, valueListWfB]
          · exact hrest it hit
        next sp1 st1 hvp =>
          refine ih o root _ none st1 v sp st' (by simp) ?_ h
          intro it hit
          rcases List.mem_cons.mp hit with rfl | hit
          · simp [itemWfB, valueListWfB]
          · rcases List.mem_cons.mp hit with rfl | hit
            · simpa [itemWfB] using hitem
            · exact hrest it hit
        next k1 km1 sp1 st1 hvp =>
          refine ih o root _ none st1 v sp st' (by simp) ?_ h
          intro it hit
          rcases List.mem_cons.mp hit with rfl | hit
          · simp [itemWfB, entryListWfB]
          · rcases List.mem_cons.mp hit with rfl | hit
            · simpa [itemWfB] using hitem
            · exact hrest it hit
      · split at h
        next e hc => exact absurd h (by simp)
        next k1 km1 ckSpan st1 hc =>
          refine ih o root _ none st1 v sp st' (by simp) ?_ h
          intro it hit
          rcases List.mem_cons.mp hit with rfl | hit
          · simpa [itemWfB] using hitem
          · exact hrest it hit
        next closingSpan st1 hc =>
          split at h
          next e hw => exact absurd h (by simp)
          next st2 hw =>
            refine ih o root rest _ st2 v sp st' ?_ hrest h
            intro v0 sp0 hv0
            simp only [Option.some.injEq, Prod.mk.injEq] at hv0
            rw [← hv0.1]
            simpa [valueWfB] using hitem
      · split at h
        next e hvp => exact absurd h (by simp)
        next v1 sp1 st1 hvp =>
          refine ih o root _ none st1 v sp st' (by simp) ?_ h
          intro it hit
          rcases List.mem_cons.mp hit with rfl | hit
          · have hv1 := valueOrParse_wf hval hvp
            simp only [itemWfB, entryListWfB_append]
            simp only [itemWfB] at hitem
            simp [hitem, hv1, entryListWfB]
          · exact hrest it hit
        next sp1 st1 hvp =>
          refine ih o root _ none st1 v sp st' (by simp) ?_ h
          intro it hit
          rcases List.mem_cons.mp hit with rfl | hit
          · simp [itemWfB, valueListWfB]
          · rcases List.mem_cons.mp hit with rfl | hit
            · simpa [itemWfB] using hitem
            · exact hrest it hit
        next k1 km1 sp1 st1 hvp =>
          refine ih o root _ none st1 v sp st' (by simp) ?_ h
          intro it hit
          rcases List.mem_cons.mp hit with rfl | hit
          · simp [itemWfB, entryListWfB]
          · rcases List.mem_cons.mp hit with rfl | hit
            · simpa [itemWfB] using hitem
            · exact hrest it hit

/-- The boundary that follows a compactly printed value: end of input, or
a comma / closing bracket accepted by the context. -/
def BoundaryOk (ctx : Context) : List Char → Prop
  | [] => True
  | c :: _ => (c = ',' ∨ c = ']' ∨ c = '}') ∧ ctx.follows c = true

/-- Skipping whitespace at the end of the input clears the running
span. -/
theorem skipWhitespaces_nil (sp lsp : Span) :
    skipWhitespaces ⟨[], sp, lsp⟩ = ⟨[], sp.clear, lsp⟩ := rfl

/-- Skipping whitespace at a non-whitespace character clears the running
span and consumes nothing. -/
theorem skipWhitespaces_cons {c : Char} (h : is_whitespace c = false)
    (cs : List Char) (sp lsp : Span) :
    skipWhitespaces ⟨c :: cs, sp, lsp⟩ = ⟨c :: cs, sp.clear, lsp⟩ := by
  unfold skipWhitespaces skipWhitespacesGo
  rw [h]
  simp

/-- A trailing-whitespace check at a value boundary succeeds and only
clears the running span. -/
theorem skipTrailing_boundary {ctx : Context} {rest : List Char}
    (h : BoundaryOk ctx rest) (sp lsp : Span) :
    skipTrailingWhitespaces ctx ⟨rest, sp, lsp⟩ = .ok ⟨rest, sp.clear, lsp⟩ := by
  rcases rest with _ | ⟨c, cs⟩
  · rfl
  · obtain ⟨hc, hf⟩ := h
    have hws : is_whitespace c = false := by
      rcases hc with rfl | rfl | rfl <;> decide
    unfold skipTrailingWhitespaces
    rw [skipWhitespaces_cons hws]
    simp [peekChar, hf]

/-- A boundary character never continues a number literal. -/
theorem numStepPure_boundary (state : NumState) {c : Char}
    (hc : c = ',' ∨ c = ']' ∨ c = '}') : numStepPure state c = none := by
  rcases hc with rfl | rfl | rfl <;> rcases state <;> decide

/-- Break lemma for the automaton state `Zero`. -/
theorem numStep_brk_zero {c : Char} {ctx : Context}
    (hsp : numStepPure .zero c = none) (hf : ctx.follows c = true) :
    numStep .zero c ctx = .brk := by
  unfold numStepPure at hsp
  unfold numStep
  split_ifs at hsp ⊢ <;>
    first
    | rfl
    | exact absurd hsp (by simp)
    | exact absurd hf (by assumption)

/-- Break lemma for the automaton state `NonZero`. -/
theorem numStep_brk_nonZero {c : Char} {ctx : Context}
    (hsp : numStepPure .nonZero c = none) (hf : ctx.follows c = true) :
    numStep .nonZero c ctx = .brk := by
  unfold numStepPure at hsp
  unfold numStep
  split_ifs at hsp ⊢ <;>
    first
    | rfl
    | exact absurd hsp (by simp)
    | exact absurd hf (by assumption)

/-- Break lemma for the automaton state `FractionalRest`. -/
theorem numStep_brk_fractionalRest {c : Char} {ctx : Context}
    (hsp : numStepPure .fractionalRest c = none) (hf : ctx.follows c = true) :
    numStep .fractionalRest c ctx = .brk := by
  unfold numStepPure at hsp
  unfold numStep
  split_ifs at hsp ⊢ <;>
    first
    | rfl
    | exact absurd hsp (by simp)
    | exact absurd hf (by assumption)

/-- Break lemma for the automaton state `ExponentRest`. -/
theorem numStep_brk_exponentRest {c : Char} {ctx : Context}
    (hsp : numStepPure .exponentRest c = none) (hf : ctx.follows c = true) :
    numStep .exponentRest c ctx = .brk := by
  unfold numStepPure at hsp
  unfold numStep
  split_ifs at hsp ⊢ <;>
    first
    | rfl
    | exact absurd hsp (by simp)
    | exact absurd hf (by assumption)

/-- In an accepting state, a non-continuation character the context
accepts breaks the number loop. -/
theorem numStep_brk {state : NumState} {c : Char} {ctx : Context}
    (hacc : numAccepting state = true) (hsp : numStepPure state c = none)
    (hf : ctx.follows c = true) : numStep state c ctx = .brk := by
  rcases state
  case init => exact absurd hacc (by decide)
  case firstDigit => exact absurd hacc (by decide)
  case fractionalFirst => exact absurd hacc (by decide)
  case exponentSign => exact absurd hacc (by decide)
  case exponentFirst => exact absurd hacc (by decide)
  case zero => exact numStep_brk_zero hsp hf
  case nonZero => exact numStep_brk_nonZero hsp hf
  case fractionalRest => exact numStep_brk_fractionalRest hsp hf
  case exponentRest => exact numStep_brk_exponentRest hsp hf

/-- Parsing a well-formed number literal at a boundary consumes exactly
the literal and stores it verbatim. -/
theorem parseNumberGo_print :
    ∀ (s : List Char) (state fin : NumState) (buffer : List Char)
      (sp lsp : Span) (ctx : Context) (rest : List Char),
      numRun state s = some fin → numAccepting fin = true →
      BoundaryOk ctx rest →
      ∃ spF lspF,
        parseNumberGo (s ++ rest) state buffer sp lsp ctx
          = .ok (buffer ++ s, spF, ⟨rest, spF, lspF⟩)
  | [], state, fin, buffer, sp, lsp, ctx, rest => by
    intro hrun hacc hb
    unfold numRun at hrun
    injection hrun with hfin
    subst hfin
    rcases rest with _ | ⟨c, cs⟩
    · refine ⟨sp, lsp, ?_⟩
      simp only [List.append_nil, List.nil_append]
      rcases state <;> first | exact absurd hacc (by decide) | rfl
    · obtain ⟨hc, hf⟩ := hb
      refine ⟨sp, lsp, ?_⟩
      simp only [List.nil_append, List.append_nil]
      unfold parseNumberGo
      rw [numStep_brk hacc (numStepPure_boundary state hc) hf]
      rcases state <;> first | exact absurd hacc (by decide) | rfl
  | c :: s', state, fin, buffer, sp, lsp, ctx, rest => by
    intro hrun hacc hb
    unfold numRun at hrun
    rcases hsp : numStepPure state c with _ | s1 <;> rw [hsp] at hrun
    · exact absurd hrun (by simp)
    · obtain ⟨spF, lspF, ih⟩ := parseNumberGo_print s' s1 fin (buffer ++ [c])
        (sp.push c.utf8Size) (lsp.clear.push c.utf8Size) ctx rest hrun hacc hb
      refine ⟨spF, lspF, ?_⟩
      have hgo : numStep state c ctx = .go s1 :=
        (numStep_go_iff state c ctx s1).mpr hsp
      have hred : parseNumberGo ((c :: s') ++ rest) state buffer sp lsp ctx
          = match numStep state c ctx with
            | .go s => parseNumberGo (s' ++ rest) s (buffer ++ [c])
                (sp.push c.utf8Size) (lsp.clear.push c.utf8Size) ctx
            | .brk => parseNumberFinish state buffer
                ⟨c :: (s' ++ rest), sp, lsp⟩
            | .err => .error (.unexpected (some c), lsp) := rfl
      rw [hred, hgo]
      show parseNumberGo (s' ++ rest) s1 (buffer ++ [c])
          (sp.push c.utf8Size) (lsp.clear.push c.utf8Size) ctx = _
      rw [ih]
      simp

/-- A well-formed number literal starts with a minus sign or a digit. -/
theorem numAccept_head {s : List Char} (h : numAccept s = true) :
    ∃ c cs, s = c :: cs ∧ (c = '-' ∨ ('0' ≤ c ∧ c ≤ '9')) := by
  rcases s with _ | ⟨c, cs⟩
  · exact absurd h (by decide)
  · refine ⟨c, cs, rfl, ?_⟩
    unfold numAccept numRun at h
    rcases hsp : numStepPure .init c with _ | s1 <;> rw [hsp] at h
    · exact absurd h (by simp)
    · simp only [numStepPure] at hsp
      split_ifs at hsp with h1 h2 h3
      · exact Or.inl h1
      · subst h2
        right
        exact ⟨le_refl _, by decide⟩
      · exact Or.inr ⟨le_trans (by decide) h3.1, h3.2⟩

/-- `hexDigit` and hexadecimal decoding are inverse on nibbles. -/
theorem hexVal?_hexDigit {n : Nat} (h : n < 16) :
    hexVal? (hexDigit n) = some n := by
  rcases n with _|_|_|_|_|_|_|_|_|_|_|_|_|_|_|_|m
  all_goals first | decide | exact absurd h (by omega)

/-- Nibble arithmetic of a control codepoint. -/
theorem ctrlNibbles : ∀ n < 32,
    (n >>> 12) &&& 0xf = 0 ∧ (n >>> 8) &&& 0xf = 0 ∧
    (n >>> 4) &&& 0xf < 2 ∧ n &&& 0xf < 16 ∧
    0 * 4096 + 0 * 256 + ((n >>> 4) &&& 0xf) * 16 + (n &&& 0xf) = n := by
  decide

/-- Codepoints below the surrogate range decode to their character. -/
theorem charFromU32_low {n : Nat} (h : n < 0xd800) :
    charFromU32 n = some (Char.ofNat n) := by
  unfold charFromU32
  rw [if_pos (Or.inl h)]

/-- A character at or above U+0020 is not a control character. -/
theorem is_control_false {c : Char} (h : ¬c.toNat ≤ 0x1f) :
    is_control c = false := by
  unfold is_control
  simp only [decide_eq_false_iff_not]
  intro hle
  exact h (by exact_mod_cast hle)

/-- Parsing the escaped rendering of `s` followed by a closing quote
appends exactly `s` to the accumulated result and stops past the
quote, for any iteration bound exceeding the length of `s`. -/
theorem parseStringGo_print (o : ParseOptions) :
    ∀ (s result : List Char) (sp0 sp lsp : Span) (rest : List Char)
      (fuel : Nat), s.length < fuel →
      ∃ spC lspC,
        parseStringGo o fuel ((s.map escapeChar).flatten ++ '"' :: rest)
          result none sp0 sp lsp
          = .ok (result ++ s, spC, ⟨rest, spC, lspC⟩)
  | [], result, sp0, sp, lsp, rest, fuel, hf => by
    obtain ⟨m, rfl⟩ : ∃ m, fuel = m + 1 := ⟨fuel - 1, by omega⟩
    refine ⟨sp0.union (sp.push 1), lsp.clear.push 1, ?_⟩
    simp only [List.map_nil, List.flatten_nil, List.nil_append,
      List.append_nil]
    rfl
  | c :: cs, result, sp0, sp, lsp, rest, fuel, hf => by
    obtain ⟨m, rfl⟩ : ∃ m, fuel = m + 1 := ⟨fuel - 1, by omega⟩
    have hm : cs.length < m := by
      simp only [List.length_cons] at hf
      omega
    simp only [List.map_cons, List.flatten_cons, List.append_assoc]
    by_cases hbs : c = '\\'
    · subst hbs
      obtain ⟨spC, lspC, ih⟩ := parseStringGo_print o cs
        (result ++ ['\\']) sp0 (((sp.push 1).push 1).clear)
        (((lsp.clear.push 1).clear).push 1) rest m hm
      refine ⟨spC, lspC, ?_⟩
      rw [show escapeChar '\\' = ['\\', '\\'] from rfl]
      simp only [List.cons_append, List.nil_append]
      rw [show parseStringGo o (m + 1)
          ('\\' :: '\\' :: ((cs.map escapeChar).flatten ++ '"' :: rest))
          result none sp0 sp lsp
        = parseStringGo o m ((cs.map escapeChar).flatten ++ '"' :: rest)
          (result ++ ['\\']) none sp0 (((sp.push 1).push 1).clear)
          (((lsp.clear.push 1).clear).push 1) from rfl, ih]
      simp
    · by_cases hq : c = '"'
      · subst hq
        obtain ⟨spC, lspC, ih⟩ := parseStringGo_print o cs
          (result ++ ['"']) sp0 (((sp.push 1).push 1).clear)
          (((lsp.clear.push 1).clear).push 1) rest m hm
        refine ⟨spC, lspC, ?_⟩
        rw [show escapeChar '"' = ['\\', '"'] from rfl]
        simp only [List.cons_append, List.nil_append]
        rw [show parseStringGo o (m + 1)
            ('\\' :: '"' :: ((cs.map escapeChar).flatten ++ '"' :: rest))
            result none sp0 sp lsp
          = parseStringGo o m ((cs.map escapeChar).flatten ++ '"' :: rest)
            (result ++ ['"']) none sp0 (((sp.push 1).push 1).clear)
            (((lsp.clear.push 1).clear).push 1) from rfl, ih]
        simp
      · by_cases h8 : c = '\u0008'
        · subst h8
          obtain ⟨spC, lspC, ih⟩ := parseStringGo_print o cs
            (result ++ ['\u0008']) sp0 (((sp.push 1).push 1).clear)
            (((lsp.clear.push 1).clear).push 1) rest m hm
          refine ⟨spC, lspC, ?_⟩
          rw [show escapeChar '\u0008' = ['\\', 'b'] from rfl]
          simp only [List.cons_append, List.nil_append]
          rw [show parseStringGo o (m + 1)
              ('\\' :: 'b' :: ((cs.map escapeChar).flatten ++ '"' :: rest))
              result none sp0 sp lsp
            = parseStringGo o m ((cs.map escapeChar).flatten ++ '"' :: rest)
              (result ++ ['\u0008']) none sp0 (((sp.push 1).push 1).clear)
              (((lsp.clear.push 1).clear).push 1) from rfl, ih]
          simp
        · by_cases h9 : c = '\u0009'
          · subst h9
            obtain ⟨spC, lspC, ih⟩ := parseStringGo_print o cs
              (result ++ ['\u0009']) sp0 (((sp.push 1).push 1).clear)
              (((lsp.clear.push 1).clear).push 1) rest m hm
            refine ⟨spC, lspC, ?_⟩
            rw [show escapeChar '\u0009' = ['\\', 't'] from rfl]
            simp only [List.cons_append, List.nil_append]
            rw [show parseStringGo o (m + 1)
                ('\\' :: 't' :: ((cs.map escapeChar).flatten ++ '"' :: rest))
                result none sp0 sp lsp
              = parseStringGo o m ((cs.map escapeChar).flatten ++ '"' :: rest)
                (result ++ ['\u0009']) none sp0 (((sp.push 1).push 1).clear)
                (((lsp.clear.push 1).clear).push 1) from rfl, ih]
            simp
          · by_cases ha : c = '\u000a'
            · subst ha
              obtain ⟨spC, lspC, ih⟩ := parseStringGo_print o cs
                (result ++ ['\u000a']) sp0 (((sp.push 1).push 1).clear)
                (((lsp.clear.push 1).clear).push 1) rest m hm
              refine ⟨spC, lspC, ?_⟩
              rw [show escapeChar '\u000a' = ['\\', 'n'] from rfl]
              simp only [List.cons_append, List.nil_append]
              rw [show parseStringGo o (m + 1)
                  ('\\' :: 'n' :: ((cs.map escapeChar).flatten ++ '"' :: rest))
                  result none sp0 sp lsp
                = parseStringGo o m ((cs.map escapeChar).flatten ++ '"' :: rest)
                  (result ++ ['\u000a']) none sp0 (((sp.push 1).push 1).clear)
                  (((lsp.clear.push 1).clear).push 1) from rfl, ih]
              simp
            · by_cases hc : c = '\u000c'
              · subst hc
                obtain ⟨spC, lspC, ih⟩ := parseStringGo_print o cs
                  (result ++ ['\u000c']) sp0 (((sp.push 1).push 1).clear)
                  (((lsp.clear.push 1).clear).push 1) rest m hm
                refine ⟨spC, lspC, ?_⟩
                rw [show escapeChar '\u000c' = ['\\', 'f'] from rfl]
                simp only [List.cons_append, List.nil_append]
                rw [show parseStringGo o (m + 1)
                    ('\\' :: 'f' :: ((cs.map escapeChar).flatten ++ '"' :: rest))
                    result none sp0 sp lsp
                  = parseStringGo o m ((cs.map escapeChar).flatten ++ '"' :: rest)
                    (result ++ ['\u000c']) none sp0 (((sp.push 1).push 1).clear)
                    (((lsp.clear.push 1).clear).push 1) from rfl, ih]
                simp
              · by_cases hd : c = '\u000d'
                · subst hd
                  obtain ⟨spC, lspC, ih⟩ := parseStringGo_print o cs
                    (result ++ ['\u000d']) sp0 (((sp.push 1).push 1).clear)
                    (((lsp.clear.push 1).clear).push 1) rest m hm
                  refine ⟨spC, lspC, ?_⟩
                  rw [show escapeChar '\u000d' = ['\\', 'r'] from rfl]
                  simp only [List.cons_append, List.nil_append]
                  rw [show parseStringGo o (m + 1)
                      ('\\' :: 'r' :: ((cs.map escapeChar).flatten ++ '"' :: rest))
                      result none sp0 sp lsp
                    = parseStringGo o m ((cs.map escapeChar).flatten ++ '"' :: rest)
                      (result ++ ['\u000d']) none sp0 (((sp.push 1).push 1).clear)
                      (((lsp.clear.push 1).clear).push 1) from rfl, ih]
                  simp
                · by_cases hctl : c.toNat ≤ 0x1f
                  · obtain ⟨hn12, hn8, hlt1, hlt0, hsum⟩ :=
                      ctrlNibbles c.toNat (by omega)
                    have hesc : escapeChar c
                        = ['\\', 'u', '0', '0',
                            hexDigit ((c.toNat >>> 4) &&& 0xf),
                            hexDigit (c.toNat &&& 0xf)] := by
                      unfold escapeChar
                      rw [if_neg hbs, if_neg hq, if_neg h8, if_neg h9,
                        if_neg ha, if_neg hc, if_neg hd, if_pos hctl]
                      simp only [hn12, hn8]
                      rfl
                    rw [hesc]
                    simp only [List.cons_append, List.nil_append]
                    generalize hA : (c.toNat >>> 4) &&& 0xf = A at hsum hlt1 ⊢
                    generalize hB : c.toNat &&& 0xf = B at hsum hlt0 ⊢
                    have hch : Char.ofNat (0 * 4096 + 0 * 256 + A * 16 + B) = c := by
                      rw [hsum, Char.ofNat_toNat]
                    rw [← hch]
                    obtain ⟨spC, lspC, ih⟩ := parseStringGo_print o cs
                      (result ++ [Char.ofNat (0 * 4096 + 0 * 256 + A * 16 + B)]) sp0
                      ((((((sp.push 1).push 1).push 1).push 1).push 1).push 1).clear
                      ((((((lsp.clear.push 1).clear.push 1).clear.push 1).clear.push
                        1).clear.push 1).clear.push 1) rest m hm
                    simp only [List.append_assoc, List.singleton_append] at ih
                    refine ⟨spC, lspC, ?_⟩
                    interval_cases A <;> interval_cases B <;> exact ih
                  · have hic : is_control c = false := is_control_false hctl
                    have hesc : escapeChar c = [c] := by
                      unfold escapeChar
                      rw [if_neg hbs, if_neg hq, if_neg h8, if_neg h9, if_neg ha,
                        if_neg hc, if_neg hd, if_neg hctl]
                    obtain ⟨spC, lspC, ih⟩ := parseStringGo_print o cs
                      (result ++ [c]) sp0 (sp.push c.utf8Size).clear
                      (lsp.clear.push c.utf8Size) rest m hm
                    simp only [List.append_assoc, List.singleton_append] at ih
                    refine ⟨spC, lspC, ?_⟩
                    rw [hesc]
                    simp only [List.singleton_append]
                    simp only [parseStringGo, hq, hbs, hic, Bool.false_eq_true,
                      if_false]
                    exact ih
